import Mathlib

/-!
Bumblebase: write-ahead logging and crash recovery.

A shallow embedding of `pkg/recovery/recovery.go`.  The recovery manager is a
record of the objects it points to (database, transaction manager, per
transaction log stacks, log file); every method becomes a function that takes
the manager and returns the returned error (if any) together with the manager
as the call left it, so that the effects of a call that fails half-way stay
visible.

The storage engine, the transaction manager, the log reader and the logged
`Handle*` entry points of package `recovery` are not part of the sources at
hand; they are modelled from sections 4.4, 4.6 and 6 of the specification and
marked as such.

The doubly-linked list of `pkg/list/list.go` follows the recovery manager, in
namespace `list`.
-/

set_option autoImplicit false

namespace recovery

/-! ## Log records -/

/-- The three kinds of single-key mutation carried by an edit record. -/
inductive Action where
  | INSERT_ACTION
  | UPDATE_ACTION
  | DELETE_ACTION
  deriving DecidableEq, Repr

/-- The five log record variants.  Transaction identifiers (`uuid.UUID` in the
source) are natural numbers, keys and values are `int64` read as integers
(no arithmetic is ever done on them). -/
inductive Log where
  | tableLog (tblType : String) (tblName : String)
  | editLog (id : Nat) (tablename : String) (action : Action)
      (key : Int) (oldval : Int) (newval : Int)
  | startLog (id : Nat)
  | commitLog (id : Nat)
  | checkpointLog (ids : List Nat)
  deriving DecidableEq, Repr

/-- Error values returned by the recovery manager and its collaborators. -/
inductive Err where
  | noSuchTable
  | duplicateKey
  | noSuchKey
  | tableExists
  | alreadyBegan
  | notRunning
  | ioFailure
  | onlyRedoEdit
  | onlyUndoEdit
  | checkpointNotExpected
  | noLogs
  | alreadyCommitted
  deriving DecidableEq, Repr

/-! ## Collaborators -/

/-- The content of one table of the store: a map from key to value. -/
abbrev Rows := Int → Option Int

/-- The database: the tables that exist, by name. -/
abbrev Store := String → Option Rows

/-- The value stored under `key` in table `t`, if the table and the key exist. -/
def Store.val (s : Store) (t : String) (key : Int) : Option Int :=
  match s t with
  | none => none
  | some m => m key

/-- The store with the content of table `t` replaced by `m`. -/
def Store.setTable (s : Store) (t : String) (m : Rows) : Store :=
  fun t1 => if t1 = t then some m else s t1

/-- The content `m` with `key` bound to `v` (or unbound for `none`). -/
def Rows.set (m : Rows) (key : Int) (v : Option Int) : Rows :=
  fun k1 => if k1 = key then v else m k1

/-- Modelled from the spec: the storage engine's `insert(table, key, value)`
of section 6, which fails with `DuplicateKey` on an existing key.  The engine
itself (package `db`) is not among the sources.  A table that does not exist is
an error as well. -/
def Store.insert (s : Store) (t : String) (key val : Int) : Except Err Store :=
  match s t with
  | none => .error .noSuchTable
  | some m =>
    match m key with
    | some _ => .error .duplicateKey
    | none => .ok (s.setTable t (m.set key (some val)))

/-- Modelled from the spec: the storage engine's `update(table, key, value)`
of section 6, which fails with `NoSuchKey` on a missing key. -/
def Store.update (s : Store) (t : String) (key val : Int) : Except Err Store :=
  match s t with
  | none => .error .noSuchTable
  | some m =>
    match m key with
    | none => .error .noSuchKey
    | some _ => .ok (s.setTable t (m.set key (some val)))

/-- Modelled from the spec: the storage engine's `delete(table, key)` of
section 6, which fails with `NoSuchKey` on a missing key. -/
def Store.delete (s : Store) (t : String) (key : Int) : Except Err Store :=
  match s t with
  | none => .error .noSuchTable
  | some m =>
    match m key with
    | none => .error .noSuchKey
    | some _ => .ok (s.setTable t (m.set key none))

/-- Modelled from the spec: the storage engine's `createTable(kind, name)` of
section 6.  The spec gives it an error result without naming the condition;
here it fails when a table of that name exists and creates an empty table
otherwise.  The table kind does not influence the key/value behaviour. -/
def Store.createTable (s : Store) (_tblType : String) (t : String) : Except Err Store :=
  match s t with
  | some _ => .error .tableExists
  | none => .ok (s.setTable t (fun _ => none))

/-- A call issued to a collaborator, recorded in issue order. -/
inductive Call where
  | createTable (tblType : String) (tblName : String)
  | insert (table : String) (key : Int) (val : Int)
  | update (table : String) (key : Int) (val : Int)
  | delete (table : String) (key : Int)
  | tmBegin (id : Nat)
  | tmCommit (id : Nat)
  deriving DecidableEq, Repr

/-- The recovery manager together with the objects it points to.
`d` is the database, `tm` the set of transactions the transaction manager
tracks, `txStack` the per-transaction log stacks (a Go map: at most one entry
per id is ever looked at), `fd` the records written in full to the log file
so far.  `fdOk` tells whether `WriteString` on the file succeeds and `syncOk`
whether `Sync` does; `torn` notes the writes that broke off (the number of
whole records in the file at that moment, and the record of which a fragment,
possibly empty, was written).  `calls` is the history of calls made to the
storage engine and the transaction manager. -/
structure RecoveryManager where
  d : Store
  tm : Finset Nat
  txStack : List (Nat × List Log)
  fd : List Log
  fdOk : Bool
  syncOk : Bool
  torn : List (Nat × Log)
  calls : List Call

/-- What a method returns: its error result and the manager afterwards. -/
abbrev Res := Option Err × RecoveryManager

/-- Run one storage-engine operation against `rm.d`, recording the call. -/
def engineCall (rm : RecoveryManager) (c : Call) (r : Except Err Store) : Res :=
  match r with
  | .error e => (some e, { rm with calls := rm.calls ++ [c] })
  | .ok s => (none, { rm with d := s, calls := rm.calls ++ [c] })

end recovery

namespace db

open recovery

/-- Modelled from the spec: `db.HandleCreateTable`, the entry point behind the
payload `create <type> table <name>`. -/
def HandleCreateTable (rm : RecoveryManager) (tblType tblName : String) : Res :=
  engineCall rm (.createTable tblType tblName) (rm.d.createTable tblType tblName)

/-- Modelled from the spec: `db.HandleInsert`, the entry point behind the
payload `insert <key> <value> into <table>`. -/
def HandleInsert (rm : RecoveryManager) (table : String) (key val : Int) : Res :=
  engineCall rm (.insert table key val) (rm.d.insert table key val)

/-- Modelled from the spec: `db.HandleUpdate`, the entry point behind the
payload `update <table> <key> <value>`. -/
def HandleUpdate (rm : RecoveryManager) (table : String) (key val : Int) : Res :=
  engineCall rm (.update table key val) (rm.d.update table key val)

/-- Modelled from the spec: `db.HandleDelete`, the entry point behind the
payload `delete <key> from <table>`. -/
def HandleDelete (rm : RecoveryManager) (table : String) (key : Int) : Res :=
  engineCall rm (.delete table key) (rm.d.delete table key)

end db

namespace concurrency

open recovery

/-- Modelled from the spec: the transaction manager's `begin(txId)` of
section 6.  A duplicate begin without an intervening commit is the error. -/
def Begin (rm : RecoveryManager) (id : Nat) : Res :=
  if id ∈ rm.tm then (some .alreadyBegan, { rm with calls := rm.calls ++ [.tmBegin id] })
  else (none, { rm with tm := insert id rm.tm, calls := rm.calls ++ [.tmBegin id] })

/-- Modelled from the spec: the transaction manager's `commit(txId)` of
section 6.  Committing a transaction the manager does not track is the
error. -/
def Commit (rm : RecoveryManager) (id : Nat) : Res :=
  if id ∈ rm.tm then (none, { rm with tm := rm.tm.erase id, calls := rm.calls ++ [.tmCommit id] })
  else (some .notRunning, { rm with calls := rm.calls ++ [.tmCommit id] })

end concurrency

namespace recovery

/-- Modelled from the spec: `recovery.HandleInsert`, the logical insert entry
point used by undo (section 4.6): the mutation goes through the storage
engine and is not logged again. -/
def HandleInsert (rm : RecoveryManager) (table : String) (key val : Int) (_id : Nat) : Res :=
  engineCall rm (.insert table key val) (rm.d.insert table key val)

/-- Modelled from the spec: `recovery.HandleUpdate`, the logical update entry
point used by undo (section 4.6), not logged again. -/
def HandleUpdate (rm : RecoveryManager) (table : String) (key val : Int) (_id : Nat) : Res :=
  engineCall rm (.update table key val) (rm.d.update table key val)

/-- Modelled from the spec: `recovery.HandleDelete`, the logical delete entry
point used by undo (section 4.6), not logged again. -/
def HandleDelete (rm : RecoveryManager) (table : String) (key : Int) (_id : Nat) : Res :=
  engineCall rm (.delete table key) (rm.d.delete table key)

/-! ## Write path -/

/-- `writeToBuffer`: `WriteString` the record to the log file, then `Sync`.
The serialisation (`toString`) is left abstract: the file is the list of
records written.  When `WriteString` succeeds the record is in the file and
the result is that of `Sync`, so a failing `Sync` returns an error with the
record written.  When `WriteString` fails its error is returned at once; what
it wrote before failing is a fragment of the record, noted in `torn`. -/
def writeToBuffer (rm : RecoveryManager) (l : Log) : Res :=
  if rm.fdOk then
    (if rm.syncOk then none else some .ioFailure, { rm with fd := rm.fd ++ [l] })
  else (some .ioFailure, { rm with torn := rm.torn ++ [(rm.fd.length, l)] })

/-- Go map read `rm.txStack[id]`: the nil slice when there is no entry. -/
def stackOf (m : List (Nat × List Log)) (id : Nat) : List Log :=
  (m.lookup id).getD []

/-- Go map `delete(rm.txStack, id)`. -/
def stackDelete (m : List (Nat × List Log)) (id : Nat) : List (Nat × List Log) :=
  m.filter (fun p => p.1 ≠ id)

/-- Go map write `rm.txStack[id] = logs`. -/
def stackSet (m : List (Nat × List Log)) (id : Nat) (logs : List Log) :
    List (Nat × List Log) :=
  (id, logs) :: stackDelete m id

/-- `Table`: append a table record; no log stack is involved and the result
of the write is dropped. -/
def Table (rm : RecoveryManager) (tblType tblName : String) : RecoveryManager :=
  (writeToBuffer rm (Log.tableLog tblType tblName)).2

/-- `Edit`: push an edit record on the transaction's stack and append it to
the file; the result of the write is dropped, as in the source. -/
def Edit (rm : RecoveryManager) (clientId : Nat) (table : String) (action : Action)
    (key oldval newval : Int) : RecoveryManager :=
  let el := Log.editLog clientId table action key oldval newval
  let logs := stackOf rm.txStack clientId ++ [el]
  (writeToBuffer { rm with txStack := stackSet rm.txStack clientId logs } el).2

/-- `Start`: reset the transaction's stack to its start record and append it. -/
def Start (rm : RecoveryManager) (clientId : Nat) : RecoveryManager :=
  let sl := Log.startLog clientId
  (writeToBuffer { rm with txStack := stackSet rm.txStack clientId [sl] } sl).2

/-- `Commit`: drop the transaction's stack and append a commit record. -/
def Commit (rm : RecoveryManager) (clientId : Nat) : RecoveryManager :=
  (writeToBuffer { rm with txStack := stackDelete rm.txStack clientId }
    (Log.commitLog clientId)).2

/-- `Checkpoint`: the ids of all stack entries go into one checkpoint record,
which is pushed on every stack and appended to the file.  Flushing the pages
and copying the directory (`Delta`) leave the modelled state as it is. -/
def Checkpoint (rm : RecoveryManager) : RecoveryManager :=
  let cl := Log.checkpointLog (rm.txStack.map (fun p => p.1))
  (writeToBuffer { rm with txStack := rm.txStack.map (fun p => (p.1, p.2 ++ [cl])) } cl).2

/-! ## Redo and undo of one record -/

/-- `Redo`: reapply a table or edit record.  Insert falls back to update and
update falls back to insert; delete has no fallback. -/
def Redo (rm : RecoveryManager) (log : Log) : Res :=
  match log with
  | .tableLog tblType tblName => db.HandleCreateTable rm tblType tblName
  | .editLog _ tablename .INSERT_ACTION key _ newval =>
    match db.HandleInsert rm tablename key newval with
    | (none, rm1) => (none, rm1)
    | (some _, rm1) => db.HandleUpdate rm1 tablename key newval
  | .editLog _ tablename .UPDATE_ACTION key _ newval =>
    match db.HandleUpdate rm tablename key newval with
    | (none, rm1) => (none, rm1)
    | (some _, rm1) => db.HandleInsert rm1 tablename key newval
  | .editLog _ tablename .DELETE_ACTION key _ _ => db.HandleDelete rm tablename key
  | _ => (some .onlyRedoEdit, rm)

/-- `Undo`: reverse an edit record through the logical entry points. -/
def Undo (rm : RecoveryManager) (log : Log) : Res :=
  match log with
  | .editLog id tablename .INSERT_ACTION key _ _ => HandleDelete rm tablename key id
  | .editLog id tablename .UPDATE_ACTION key oldval _ => HandleUpdate rm tablename key oldval id
  | .editLog id tablename .DELETE_ACTION key oldval _ => HandleInsert rm tablename key oldval id
  | _ => (some .onlyUndoEdit, rm)

/-! ## Crash recovery -/

/-- The analysis loop of `Recover` over the ids of the checkpoint record:
mark the id as running, then begin it in the transaction manager. -/
def beginAll : List Nat → Finset Nat → RecoveryManager →
    Option Err × Finset Nat × RecoveryManager
  | [], txs, rm => (none, txs, rm)
  | id :: ids, txs, rm =>
    match concurrency.Begin rm id with
    | (some e, rm1) => (some e, insert id txs, rm1)
    | (none, rm1) => beginAll ids (insert id txs) rm1

/-- The redo loop of `Recover`: `i` is the index of the head of the list in
the whole record list, `txs` the set of running transactions. -/
def redoLoop (checkpointPos : Nat) : Nat → List Log → Finset Nat → RecoveryManager →
    Option Err × Finset Nat × RecoveryManager
  | _, [], txs, rm => (none, txs, rm)
  | i, .startLog id :: rest, txs, rm =>
    match concurrency.Begin rm id with
    | (some e, rm1) => (some e, txs, rm1)
    | (none, rm1) => redoLoop checkpointPos (i + 1) rest (insert id txs) rm1
  | i, .tableLog tblType tblName :: rest, txs, rm =>
    match Redo rm (.tableLog tblType tblName) with
    | (some e, rm1) => (some e, txs, rm1)
    | (none, rm1) => redoLoop checkpointPos (i + 1) rest txs rm1
  | i, .editLog id tablename action key oldval newval :: rest, txs, rm =>
    match Redo rm (.editLog id tablename action key oldval newval) with
    | (some e, rm1) => (some e, txs, rm1)
    | (none, rm1) => redoLoop checkpointPos (i + 1) rest txs rm1
  | i, .commitLog id :: rest, txs, rm =>
    match concurrency.Commit rm id with
    | (some e, rm1) => (some e, txs, rm1)
    | (none, rm1) => redoLoop checkpointPos (i + 1) rest (txs.erase id) rm1
  | i, .checkpointLog _ :: rest, txs, rm =>
    if i = checkpointPos then redoLoop checkpointPos (i + 1) rest txs rm
    else (some .checkpointNotExpected, txs, rm)

/-- The undo loop of `Recover`, over the records in the order the loop visits
them (last record of the file first).  It stops as soon as `txs` is empty. -/
def undoLoop : List Log → Finset Nat → RecoveryManager →
    Option Err × Finset Nat × RecoveryManager
  | [], txs, rm => (none, txs, rm)
  | log :: rest, txs, rm =>
    if txs = ∅ then (none, txs, rm)
    else
      match log with
      | .startLog id =>
        if id ∈ txs then
          match concurrency.Commit rm id with
          | (some e, rm1) => (some e, txs, rm1)
          | (none, rm1) => undoLoop rest (txs.erase id) rm1
        else undoLoop rest txs rm
      | .editLog id tablename action key oldval newval =>
        if id ∈ txs then
          match Undo rm (.editLog id tablename action key oldval newval) with
          | (some e, rm1) => (some e, txs, rm1)
          | (none, rm1) => undoLoop rest txs rm1
        else undoLoop rest txs rm
      | _ => undoLoop rest txs rm

/-- How a run of `Recover` ends: it returns (an error or nil), or the read of
`logs[checkpointPos]` is out of range and the Go runtime stops the program. -/
inductive Outcome where
  | returned (err : Option Err)
  | indexOutOfRange
  deriving DecidableEq, Repr

/-- `Recover`.  The result of `rm.readLogs()` (the record list with the
position of the most recent checkpoint, or an error) is the argument `read`:
the reader is not part of the sources.  Besides the outcome and the manager,
the final value of the local set `txs` is returned. -/
def Recover (rm : RecoveryManager) (read : Except Err (List Log × Nat)) :
    Outcome × Finset Nat × RecoveryManager :=
  match read with
  | .error e => (.returned (some e), ∅, rm)
  | .ok (logs, checkpointPos) =>
    match logs.get? checkpointPos with
    | none => (.indexOutOfRange, ∅, rm)
    | some l0 =>
      let analysis : Option Err × Finset Nat × RecoveryManager :=
        match l0 with
        | .checkpointLog ids => beginAll ids ∅ rm
        | _ => (none, ∅, rm)
      match analysis with
      | (some e, txs, rm1) => (.returned (some e), txs, rm1)
      | (none, txs, rm1) =>
        match redoLoop checkpointPos checkpointPos (logs.drop checkpointPos) txs rm1 with
        | (some e, txs2, rm2) => (.returned (some e), txs2, rm2)
        | (none, txs2, rm2) =>
          match undoLoop logs.reverse txs2 rm2 with
          | (e, txs3, rm3) => (.returned e, txs3, rm3)

/-! ## Rollback -/

/-- The undo loop of `Rollback`, over the stack in the order the loop visits
it (top of the stack first): every edit record is undone, other records are
skipped, the first failure ends the loop. -/
def undoStack : List Log → RecoveryManager → Res
  | [], rm => (none, rm)
  | .editLog id tablename action key oldval newval :: rest, rm =>
    match Undo rm (.editLog id tablename action key oldval newval) with
    | (some e, rm1) => (some e, rm1)
    | (none, rm1) => undoStack rest rm1
  | _ :: rest, rm => undoStack rest rm

/-- The test `switch logs[0].(type)` of `Rollback`. -/
def startsTransaction : Log → Bool
  | .tableLog _ _ => true
  | .startLog _ => true
  | _ => false

/-- `Rollback`: abort one live transaction. -/
def Rollback (rm : RecoveryManager) (clientId : Nat) : Res :=
  match stackOf rm.txStack clientId with
  | [] => (some .noLogs, rm)
  | first :: more =>
    if startsTransaction first then
      match undoStack (first :: more).reverse rm with
      | (some e, rm1) => (some e, rm1)
      | (none, rm1) => concurrency.Commit (Commit rm1 clientId) clientId
    else (some .alreadyCommitted, rm)

/-! ## Vocabulary of the properties -/

/-- The store with `key` of table `t` bound to `v` (unbound for `none`); a
store without table `t` is left as it is.  Every successful engine operation
is one such write. -/
def Store.put (s : Store) (t : String) (key : Int) (v : Option Int) : Store :=
  match s t with
  | none => s
  | some m => s.setTable t (m.set key v)

/-- The effect of the logged edit itself on the store, as normal execution
applies it: insert, update or delete of the key through the storage engine.
Records other than edits have no effect on the store. -/
def applyEdit (s : Store) : Log → Except Err Store
  | .editLog _ t .INSERT_ACTION key _ newval => s.insert t key newval
  | .editLog _ t .UPDATE_ACTION key _ newval => s.update t key newval
  | .editLog _ t .DELETE_ACTION key _ _ => s.delete t key
  | _ => .ok s

/-- Apply the edits of a record list in list order, stopping at the first
failure. -/
def applyEdits : Store → List Log → Except Err Store
  | s, [] => .ok s
  | s, l :: rest =>
    match applyEdit s l with
    | .error e => .error e
    | .ok s1 => applyEdits s1 rest

/-- The storage-engine call that section 4.6 prescribes to reverse an edit
record: Insert -> delete the key, Update -> set the key back to the old value,
Delete -> insert the key with the old value.  Other records have none. -/
def inverseOf : Log → Option Call
  | .editLog _ t .INSERT_ACTION key _ _ => some (.delete t key)
  | .editLog _ t .UPDATE_ACTION key oldval _ => some (.update t key oldval)
  | .editLog _ t .DELETE_ACTION key oldval _ => some (.insert t key oldval)
  | _ => none

/-- The engine's answer to one call.  Calls to the transaction manager do not
concern the store. -/
def Store.run (s : Store) : Call → Except Err Store
  | .createTable tblType t => s.createTable tblType t
  | .insert t key val => s.insert t key val
  | .update t key val => s.update t key val
  | .delete t key => s.delete t key
  | .tmBegin _ => .ok s
  | .tmCommit _ => .ok s

/-- The engine's answer to a sequence of calls, none of which may fail. -/
def Store.runAll : Store → List Call → Except Err Store
  | s, [] => .ok s
  | s, c :: cs =>
    match s.run c with
    | .error e => .error e
    | .ok s1 => Store.runAll s1 cs

/-- The table and key an edit record touches. -/
def editKey : Log → Option (String × Int)
  | .editLog _ t _ key _ _ => some (t, key)
  | _ => none

/-- Whether a commit record of transaction `id` occurs in the list. -/
def hasCommit (id : Nat) : List Log → Bool
  | [] => false
  | .commitLog id1 :: rest => decide (id1 = id) || hasCommit id rest
  | _ :: rest => hasCommit id rest

/-- The edits of committed transactions: the edit records that are followed,
later in the list, by a commit record of their transaction.  Under the write
path's protocol an edit belongs to the transaction its id has open at that
point, so these are exactly the edits of the transactions that have a
CommitLog. -/
def keepCommitted : List Log → List Log
  | [] => []
  | .editLog id t a key oldval newval :: rest =>
    if hasCommit id rest then .editLog id t a key oldval newval :: keepCommitted rest
    else keepCommitted rest
  | _ :: rest => keepCommitted rest

/-- The transactions that are open after the records of the list, given the
set open before it. -/
def activeAfter : Finset Nat → List Log → Finset Nat
  | A, [] => A
  | A, .startLog id :: rest => activeAfter (insert id A) rest
  | A, .commitLog id :: rest => activeAfter (A.erase id) rest
  | A, _ :: rest => activeAfter A rest

/-- The write path's protocol on a list of Start/Edit/Commit records, given
the set `A` of open transactions: a transaction is started only while it is
not open, it edits and commits only while it is open (section 4.2: the caller
of `Edit` guarantees an active StartLog).  Table and checkpoint records are
not part of such a list. -/
def wellFormed : Finset Nat → List Log → Bool
  | _, [] => true
  | A, .startLog id :: rest => decide (id ∉ A) && wellFormed (insert id A) rest
  | A, .editLog id _ _ _ _ _ :: rest => decide (id ∈ A) && wellFormed A rest
  | A, .commitLog id :: rest => decide (id ∈ A) && wellFormed (A.erase id) rest
  | _, .tableLog _ _ :: _ => false
  | _, .checkpointLog _ :: _ => false

/-- The value an edit leaves under its key: the new value for Insert and
Update, none for Delete. -/
def written : Action → Int → Option Int
  | .INSERT_ACTION, newval => some newval
  | .UPDATE_ACTION, newval => some newval
  | .DELETE_ACTION, _ => none

/-- The value an edit must find under its key to record the real previous
value: none for Insert (the key is new), the recorded old value for Update and
Delete. -/
def before : Action → Int → Option Int
  | .INSERT_ACTION, _ => none
  | .UPDATE_ACTION, oldval => some oldval
  | .DELETE_ACTION, oldval => some oldval

/-- Each edit of the list, executed in order from store `s`, records the
key's real previous value: the table exists, an Insert finds the key absent,
an Update or Delete finds the key holding the recorded old value. -/
def recordsPrevious : Store → List Log → Bool
  | _, [] => true
  | s, .editLog _ t a key oldval newval :: rest =>
    (s t).isSome && decide (s.val t key = before a oldval) &&
    recordsPrevious (s.put t key (written a newval)) rest
  | s, _ :: rest => recordsPrevious s rest

/-- From here up to the next commit of transaction `id`, no other
transaction edits `key` of table `t`. -/
def quietUntilCommit (id : Nat) (t : String) (key : Int) : List Log → Bool
  | [] => true
  | .commitLog id1 :: rest => decide (id1 = id) || quietUntilCommit id t key rest
  | .editLog id1 t1 _ k1 _ _ :: rest =>
    (decide (t1 = t ∧ k1 = key → id1 = id)) && quietUntilCommit id t key rest
  | _ :: rest => quietUntilCommit id t key rest

/-- No transaction edits a key that another, still uncommitted transaction
has edited. -/
def isolated : List Log → Bool
  | [] => true
  | .editLog id t _ key _ _ :: rest => quietUntilCommit id t key rest && isolated rest
  | _ :: rest => isolated rest

/-- Every edit of `key` of table `t` in the list is made by transaction `id`. -/
def editedOnlyBy (id : Nat) (t : String) (key : Int) : List Log → Bool
  | [] => true
  | .editLog id1 t1 _ k1 _ _ :: rest =>
    (decide (t1 = t ∧ k1 = key → id1 = id)) && editedOnlyBy id t key rest
  | _ :: rest => editedOnlyBy id t key rest

/-- The storage-engine call by which normal execution, and redo on a store
that is in the state before the edit, applies an edit record. -/
def forwardOf : Log → Option Call
  | .editLog _ t .INSERT_ACTION key _ newval => some (.insert t key newval)
  | .editLog _ t .UPDATE_ACTION key _ newval => some (.update t key newval)
  | .editLog _ t .DELETE_ACTION key _ _ => some (.delete t key)
  | _ => none

/-- The collaborator calls of a redo pass that replays Start/Edit/Commit
records on the store they were first applied to: begin for a StartLog, the
edit's own operation for an EditLog, commit for a CommitLog, in file order. -/
def redoCalls : List Log → List Call
  | [] => []
  | .startLog id :: rest => .tmBegin id :: redoCalls rest
  | .commitLog id :: rest => .tmCommit id :: redoCalls rest
  | .editLog id t a key oldval newval :: rest =>
    (forwardOf (.editLog id t a key oldval newval)).toList ++ redoCalls rest
  | _ :: rest => redoCalls rest

/-- The collaborator calls of the undo pass on the log of a run, in issue
order: going through the log from its last record to its first, the inverse
of every edit that no CommitLog of its transaction follows, and the
transaction manager's commit at the StartLog of every transaction that no
CommitLog follows. -/
def undoCalls : List Log → List Call
  | [] => []
  | .editLog id t a key oldval newval :: rest =>
    undoCalls rest ++
      (if hasCommit id rest then []
       else (inverseOf (.editLog id t a key oldval newval)).toList)
  | .startLog id :: rest =>
    undoCalls rest ++ (if hasCommit id rest then [] else [.tmCommit id])
  | _ :: rest => undoCalls rest

/-- One call of the write path or of Rollback, as the execution layer issues
them. -/
inductive WriteCall where
  | start (id : Nat)
  | edit (id : Nat) (table : String) (action : Action) (key : Int) (oldval : Int) (newval : Int)
  | commit (id : Nat)
  | checkpoint
  | rollback (id : Nat)
  deriving DecidableEq, Repr

/-- The manager after a sequence of calls.  Rollback counts with the manager
it leaves, whether it returns an error or not. -/
def runCalls : RecoveryManager → List WriteCall → RecoveryManager
  | rm, [] => rm
  | rm, .start id :: rest => runCalls (Start rm id) rest
  | rm, .edit id table action key oldval newval :: rest =>
    runCalls (Edit rm id table action key oldval newval) rest
  | rm, .commit id :: rest => runCalls (Commit rm id) rest
  | rm, .checkpoint :: rest => runCalls (Checkpoint rm) rest
  | rm, .rollback id :: rest => runCalls (Rollback rm id).2 rest

/-- The set of transactions the transaction manager tracks after a sequence
of collaborator calls: begin adds the id, commit removes it, calls to the
storage engine leave the set alone. -/
def tmAfter : Finset Nat → List Call → Finset Nat
  | A, [] => A
  | A, .tmBegin id :: rest => tmAfter (insert id A) rest
  | A, .tmCommit id :: rest => tmAfter (A.erase id) rest
  | A, _ :: rest => tmAfter A rest

/-- Whether a call goes to the transaction manager. -/
def isTmCall : Call → Bool
  | .tmBegin _ => true
  | .tmCommit _ => true
  | _ => false

/-- The shape of the stack maps that the write path and Rollback produce from
the empty map: one entry per transaction id, and no entry with an empty
stack. -/
def stacksLive (m : List (Nat × List Log)) : Prop :=
  (m.map (fun p => p.1)).Nodup ∧ ∀ p ∈ m, p.2 ≠ []

/-- Whether a record is a Start, Edit or Commit record. -/
def isProtocol : Log → Bool
  | .startLog _ => true
  | .editLog _ _ _ _ _ _ => true
  | .commitLog _ => true
  | _ => false

/-- The Start/Edit/Commit records of a record list, in file order: table and
checkpoint records are left out. -/
def protocolRecords (L : List Log) : List Log :=
  L.filter isProtocol

/-- The names of the tables that the table records of a list create. -/
def tablesOf : List Log → List String
  | [] => []
  | .tableLog _ t :: rest => t :: tablesOf rest
  | _ :: rest => tablesOf rest

/-- The store with an empty table under each listed name that has no table
yet; the tables of the store are kept as they are. -/
def Store.withTables (s : Store) (ts : List String) : Store :=
  fun t =>
    match s t with
    | some m => some m
    | none => if t ∈ ts then some (fun _ => none) else none

/-- The effect of one record of a run on the store: a table record creates
the table, an edit record applies its edit, other records have none. -/
def applyRecord (s : Store) : Log → Except Err Store
  | .tableLog tblType t => s.createTable tblType t
  | l => applyEdit s l

/-- Apply the records of a list in list order, stopping at the first
failure. -/
def applyRecords : Store → List Log → Except Err Store
  | s, [] => .ok s
  | s, l :: rest =>
    match applyRecord s l with
    | .error e => .error e
    | .ok s1 => applyRecords s1 rest

/-- The records of the list, executed in order from store `s`, are what a run
of the write path logs: a table record is written for a table that does not
exist yet, and each edit records the key's real previous value (as in
`recordsPrevious`). -/
def recordsRun : Store → List Log → Bool
  | _, [] => true
  | s, .tableLog _ t :: rest =>
    (s t).isNone && recordsRun (s.setTable t (fun _ => none)) rest
  | s, .editLog _ t a key oldval newval :: rest =>
    (s t).isSome && decide (s.val t key = before a oldval) &&
    recordsRun (s.put t key (written a newval)) rest
  | s, _ :: rest => recordsRun s rest

/-- The collaborator calls of a redo pass that replays the records of a run
on the store they were first applied to: as `redoCalls`, with the table
creation for a table record. -/
def replayCalls : List Log → List Call
  | [] => []
  | .tableLog tblType t :: rest => .createTable tblType t :: replayCalls rest
  | .startLog id :: rest => .tmBegin id :: replayCalls rest
  | .commitLog id :: rest => .tmCommit id :: replayCalls rest
  | .editLog id t a key oldval newval :: rest =>
    (forwardOf (.editLog id t a key oldval newval)).toList ++ replayCalls rest
  | .checkpointLog _ :: rest => replayCalls rest

/-- Two managers agree in memory: same database, same transaction manager,
same log stacks, same history of collaborator calls.  The log file and its
health are left out. -/
def sameMemory (a b : RecoveryManager) : Prop :=
  a.d = b.d ∧ a.tm = b.tm ∧ a.txStack = b.txStack ∧ a.calls = b.calls

/-! ## Worked scenarios -/

/-- A store holding the single table `tbl`, with the given key/value content. -/
def tblStore (m : Rows) : Store :=
  fun t => if t = "tbl" then some m else none

/-- The recovery manager right after a restart: no transaction is tracked, no
log stack is kept, the log file holds `fd` and the database is `s`. -/
def restarted (s : Store) (fd : List Log) : RecoveryManager :=
  { d := s, tm := ∅, txStack := [], fd := fd, fdOk := true, syncOk := true, torn := [],
    calls := [] }

/-- A manager in normal operation.  Transaction 1 inserted key 5 (value 100),
saw a checkpoint, and updated key 6 from 7 to 8; transaction 2 inserted key 9.
Both are known to the transaction manager. -/
def live : RecoveryManager :=
  { d := tblStore (fun k => if k = 5 then some 100 else if k = 6 then some 8
                             else if k = 9 then some 1 else none),
    tm := {1, 2},
    txStack := [(1, [.startLog 1, .editLog 1 "tbl" .INSERT_ACTION 5 0 100, .checkpointLog [1],
                     .editLog 1 "tbl" .UPDATE_ACTION 6 7 8]),
                (2, [.startLog 2, .editLog 2 "tbl" .INSERT_ACTION 9 0 1])],
    fd := [.startLog 1, .editLog 1 "tbl" .INSERT_ACTION 5 0 100, .checkpointLog [1],
           .editLog 1 "tbl" .UPDATE_ACTION 6 7 8, .startLog 2,
           .editLog 2 "tbl" .INSERT_ACTION 9 0 1],
    fdOk := true,
    syncOk := true,
    torn := [],
    calls := [] }

end recovery

/-!
The doubly-linked list of `pkg/list/list.go`.

Objects live in a heap.  A list header or a link is named by its address, a
pointer is an address or nil (`none`), and allocation hands out the next
unused address.  Every method takes the heap and returns the heap it leaves;
a method whose receiver or operand may be nil returns `none` when it
dereferences nil.
-/

namespace strings

/-- Cut a character list at every occurrence of `sep`; empty pieces are kept
and the empty list gives one empty piece. -/
def splitChars (sep : Char) : List Char → List (List Char)
  | [] => [[]]
  | c :: cs =>
    if c = sep then [] :: splitChars sep cs
    else
      match splitChars sep cs with
      | [] => [[c]]
      | w :: ws => (c :: w) :: ws

/-- `strings.Split(s, sep)` for a separator of one character (the list REPL
only splits at `" "`). -/
def Split (s : String) (sep : Char) : List String :=
  (splitChars sep s.toList).map String.mk

end strings

namespace list

/-- A value stored in a link (`interface{}` in the source): the tests and the
REPL store strings and integers. -/
inductive Value where
  | str (s : String)
  | int (n : Int)
  deriving DecidableEq, Repr

/-- `Link` struct: the owning list, the neighbours and the value. -/
structure Link where
  list : Option Nat
  prev : Option Nat
  next : Option Nat
  value : Value

/-- `List` struct of the source, a header with the two end pointers (`List`
itself is the name of Lean's list type). -/
structure LinkedList where
  head : Option Nat
  tail : Option Nat

/-- The heap: the list headers and links by address, and the number of
headers and links allocated so far. -/
structure Heap where
  lists : Nat → LinkedList
  links : Nat → Link
  nLists : Nat
  nLinks : Nat

/-- Store a link at an address. -/
def Heap.setLink (h : Heap) (a : Nat) (k : Link) : Heap :=
  { h with links := fun b => if b = a then k else h.links b }

/-- Store a list header at an address. -/
def Heap.setList (h : Heap) (l : Nat) (hdr : LinkedList) : Heap :=
  { h with lists := fun b => if b = l then hdr else h.lists b }

/-- `NewList`: allocate a header with nil head and nil tail. -/
def NewList (h : Heap) : Heap × Nat :=
  ({ h.setList h.nLists { head := none, tail := none } with nLists := h.nLists + 1 }, h.nLists)

/-- `PeekHead`. -/
def PeekHead (h : Heap) (list : Nat) : Option Nat := (h.lists list).head

/-- `PeekTail`. -/
def PeekTail (h : Heap) (list : Nat) : Option Nat := (h.lists list).tail

/-- `PushHead`: allocate the new link in front of the old head, then the
three conditional pointer writes of the source in their order. -/
def PushHead (h : Heap) (list : Nat) (value : Value) : Heap × Nat :=
  let newlink := h.nLinks
  let h1 : Heap :=
    { h.setLink newlink
        { list := some list, prev := none, next := (h.lists list).head, value := value } with
      nLinks := h.nLinks + 1 }
  let h2 : Heap :=
    match (h1.lists list).head with
    | some hd => h1.setLink hd { h1.links hd with prev := some newlink }
    | none => h1
  let h3 : Heap := h2.setList list { h2.lists list with head := some newlink }
  let h4 : Heap :=
    if (h3.lists list).tail = none then
      h3.setList list { h3.lists list with tail := some newlink }
    else h3
  (h4, newlink)

/-- `PushTail`: the mirror image of `PushHead`. -/
def PushTail (h : Heap) (list : Nat) (value : Value) : Heap × Nat :=
  let newlink := h.nLinks
  let h1 : Heap :=
    { h.setLink newlink
        { list := some list, prev := (h.lists list).tail, next := none, value := value } with
      nLinks := h.nLinks + 1 }
  let h2 : Heap :=
    match (h1.lists list).tail with
    | some tl => h1.setLink tl { h1.links tl with next := some newlink }
    | none => h1
  let h3 : Heap := h2.setList list { h2.lists list with tail := some newlink }
  let h4 : Heap :=
    if (h3.lists list).head = none then
      h3.setList list { h3.lists list with head := some newlink }
    else h3
  (h4, newlink)

/-- `GetList`. -/
def GetList (h : Heap) (link : Nat) : Option Nat := (h.links link).list

/-- `GetKey`. -/
def GetKey (h : Heap) (link : Nat) : Value := (h.links link).value

/-- `SetKey`. -/
def SetKey (h : Heap) (link : Nat) (value : Value) : Heap :=
  h.setLink link { h.links link with value := value }

/-- `GetPrev`. -/
def GetPrev (h : Heap) (link : Nat) : Option Nat := (h.links link).prev

/-- `GetNext`. -/
def GetNext (h : Heap) (link : Nat) : Option Nat := (h.links link).next

/-- `PopSelf`, statement by statement; every pointer is read again from the
heap at the point where the source reads it.  The receiver is a pointer: the
result is `none` when the receiver, `link.list`, `link.next` or `link.prev`
is nil where the source dereferences it. -/
def PopSelf (h : Heap) (link : Option Nat) : Option Heap :=
  match link with
  | none => none
  | some a =>
    if (h.links a).prev = none ∧ (h.links a).next = none then
      match (h.links a).list with
      | none => none
      | some l =>
        let h1 := h.setList l { h.lists l with head := none }
        match (h1.links a).list with
        | none => none
        | some l1 => some (h1.setList l1 { h1.lists l1 with tail := none })
    else if (h.links a).prev = none then
      match (h.links a).next with
      | none => none
      | some n =>
        let h1 := h.setLink n { h.links n with prev := none }
        match (h1.links a).list with
        | none => none
        | some l => some (h1.setList l { h1.lists l with head := (h1.links a).next })
    else if (h.links a).next = none then
      match (h.links a).prev with
      | none => none
      | some p =>
        let h1 := h.setLink p { h.links p with next := none }
        match (h1.links a).list with
        | none => none
        | some l => some (h1.setList l { h1.lists l with tail := (h1.links a).prev })
    else
      match (h.links a).prev with
      | none => none
      | some prevlink =>
        let h1 := h.setLink prevlink { h.links prevlink with next := (h.links a).next }
        match (h1.links a).prev with
        | none => none
        | some p =>
          let h2 := h1.setLink p { h1.links p with next := (h1.links a).next }
          match (h2.links a).next with
          | none => none
          | some n =>
            let h3 := h2.setLink n { h2.links n with prev := some prevlink }
            some (h3.setLink a { h3.links a with list := none, next := none, prev := none })

/-- How a call can fail to return: the two Go runtime errors that the list
REPL can raise, and the fuel of the model running out. -/
inductive Fault where
  | indexOutOfRange
  | nilDereference
  | outOfFuel
  deriving DecidableEq, Repr

/-- The loop of `Find` from the cursor `cur` (the head of the local copy of
the header): return the first link on which `f` holds.  The predicate may
itself raise a runtime error; `fuel` bounds the number of iterations. -/
def findLoop (h : Heap) (f : Nat → Except Fault Bool) : Nat → Option Nat →
    Except Fault (Option Nat)
  | _, none => .ok none
  | 0, some _ => .error .outOfFuel
  | fuel + 1, some a =>
    match f a with
    | .error e => .error e
    | .ok true => .ok (some a)
    | .ok false => findLoop h f fuel (h.links a).next

/-- `Find`. -/
def Find (h : Heap) (list : Nat) (f : Nat → Except Fault Bool) (fuel : Nat) :
    Except Fault (Option Nat) :=
  findLoop h f fuel (h.lists list).head

/-- The error value a REPL handler returns on a malformed command. -/
inductive ReplErr where
  | notWellInformed
  deriving DecidableEq, Repr

/-- The handler that `ListRepl` registers for `list_remove`: on a command of
two space-separated tokens, find the first link whose value equals token
number 2 (counting from 0, as the source indexes) and pop the link that
`Find` returned; otherwise return the format error.  Reading a token that
does not exist and popping a nil link are runtime errors. -/
def list_remove (h : Heap) (list : Nat) (str : String) (fuel : Nat) :
    Except Fault (Option ReplErr × Heap) :=
  if (strings.Split str ' ').length = 2 then
    match Find h list
        (fun linkfind =>
          match (strings.Split str ' ').get? 2 with
          | none => .error .indexOutOfRange
          | some x => .ok (decide ((h.links linkfind).value = .str x)))
        fuel with
    | .error e => .error e
    | .ok found =>
      match PopSelf h found with
      | none => .error .nilDereference
      | some h1 => .ok (none, h1)
  else .ok (some .notWellInformed, h)

/-! ## The sequence of links of a list -/

/-- Follow `next` from a pointer until nil: the links visited, or `none` when
nil is not reached within `fuel` steps. -/
def walkNext (h : Heap) : Nat → Option Nat → Option (List Nat)
  | _, none => some []
  | 0, some _ => none
  | fuel + 1, some a => (walkNext h fuel (h.links a).next).map (fun rest => a :: rest)

/-- Follow `prev` from a pointer until nil. -/
def walkPrev (h : Heap) : Nat → Option Nat → Option (List Nat)
  | _, none => some []
  | 0, some _ => none
  | fuel + 1, some a => (walkPrev h fuel (h.links a).prev).map (fun rest => a :: rest)

/-- The head-to-tail sequence of links of a list: the walk along `next` from
the head.  A walk through distinct links cannot be longer than the number of
links allocated, which is the fuel; `none` means the walk did not end. -/
def linksOf (h : Heap) (list : Nat) : Option (List Nat) :=
  walkNext h h.nLinks (h.lists list).head

/-- The tail-to-head sequence of links: the walk along `prev` from the tail. -/
def linksBack (h : Heap) (list : Nat) : Option (List Nat) :=
  walkPrev h h.nLinks (h.lists list).tail

/-- The head-to-tail sequence of values of a list. -/
def valuesOf (h : Heap) (list : Nat) : Option (List Value) :=
  (linksOf h list).map (fun links => links.map (fun a => (h.links a).value))

/-! ## Runs of list operations -/

/-- One call on the list. -/
inductive Op where
  | pushHead (value : Value)
  | pushTail (value : Value)
  | popSelf (link : Nat)
  deriving DecidableEq, Repr

/-- The heap after one call; `none` when the call is a `PopSelf` on a link
that is not in the list at that moment, or when `PopSelf` dereferences nil. -/
def applyOp (h : Heap) (list : Nat) : Op → Option Heap
  | .pushHead value => some (PushHead h list value).1
  | .pushTail value => some (PushTail h list value).1
  | .popSelf link =>
    match linksOf h list with
    | some links => if link ∈ links then PopSelf h (some link) else none
    | none => none

/-- The heap after a sequence of calls on the list. -/
def runOps (h : Heap) (list : Nat) : List Op → Option Heap
  | [] => some h
  | op :: rest =>
    match applyOp h list op with
    | some h1 => runOps h1 list rest
    | none => none

/-- The heap with nothing allocated. -/
def emptyHeap : Heap :=
  { lists := fun _ => { head := none, tail := none },
    links := fun _ => { list := none, prev := none, next := none, value := .int 0 },
    nLists := 0, nLinks := 0 }

/-! ## Representation of a well-formed list -/

/-- The first element of a list of addresses, or `d` for the empty list. -/
def firstOr : List Nat → Option Nat → Option Nat
  | [], d => d
  | a :: _, _ => some a

/-- The last element of a list of addresses, or `d` for the empty list. -/
def lastOr : List Nat → Option Nat → Option Nat
  | [], d => d
  | a :: rest, _ => lastOr rest (some a)

/-- The links `as`, in this order, form a piece of list `l`: each belongs to
`l`, its `prev` is the link before it (`p` for the first) and its `next` the
link after it (`nxt` for the last). -/
def chain (h : Heap) (l : Nat) : Option Nat → List Nat → Option Nat → Prop
  | _, [], _ => True
  | p, a :: rest, nxt =>
    (h.links a).list = some l ∧ (h.links a).prev = p ∧ (h.links a).next = firstOr rest nxt ∧
      chain h l (some a) rest nxt

/-- List `l` is the doubly-linked list of the distinct, allocated links
`as`. -/
def WF (h : Heap) (l : Nat) (as : List Nat) : Prop :=
  (h.lists l).head = firstOr as none ∧ (h.lists l).tail = lastOr as none ∧
  as.Nodup ∧ (∀ a ∈ as, a < h.nLinks) ∧ chain h l none as none

end list

namespace recovery

/-! ## Facts about the store -/

theorem Store.ext_val {s s1 : Store} (htab : ∀ t, (s t).isSome = (s1 t).isSome)
    (hval : ∀ t key, s.val t key = s1.val t key) : s = s1 := by
  funext t
  have h1 := htab t
  have h2 := hval t
  unfold Store.val at h2
  cases hs : s t with
  | none =>
    cases hs1 : s1 t with
    | none => rfl
    | some m1 => simp [hs, hs1] at h1
  | some m =>
    cases hs1 : s1 t with
    | none => simp [hs, hs1] at h1
    | some m1 =>
      simp only [hs, hs1] at h2
      congr 1
      funext key
      exact h2 key

theorem Store.put_isSome (s : Store) (t : String) (key : Int) (v : Option Int) (t1 : String) :
    ((s.put t key v) t1).isSome = (s t1).isSome := by
  unfold Store.put
  cases hs : s t with
  | none => rfl
  | some m =>
    simp only [Store.setTable]
    by_cases h : t1 = t
    · subst h; simp [hs]
    · simp [h]

theorem Store.val_put_same (s : Store) (t : String) (key : Int) (v : Option Int)
    (h : (s t).isSome) : (s.put t key v).val t key = v := by
  unfold Store.put Store.val
  cases hs : s t with
  | none => simp [hs] at h
  | some m => simp [Store.setTable, Rows.set]

theorem Store.val_put_other (s : Store) (t : String) (key : Int) (v : Option Int)
    (t1 : String) (k1 : Int) (h : t1 ≠ t ∨ k1 ≠ key) :
    (s.put t key v).val t1 k1 = s.val t1 k1 := by
  unfold Store.put Store.val
  cases hs : s t with
  | none => rfl
  | some m =>
    simp only [Store.setTable]
    by_cases ht : t1 = t
    · subst ht
      have hk : k1 ≠ key := by
        rcases h with h | h
        · exact absurd rfl h
        · exact h
      simp [hs, Rows.set, hk]
    · simp [ht]

theorem Store.insert_eq_put (s : Store) (t : String) (key val : Int)
    (ht : (s t).isSome) (hk : s.val t key = none) :
    s.insert t key val = .ok (s.put t key (some val)) := by
  unfold Store.insert Store.put
  unfold Store.val at hk
  cases hs : s t with
  | none => simp [hs] at ht
  | some m =>
    simp only [hs] at hk
    simp [hk]

theorem Store.update_eq_put (s : Store) (t : String) (key val old : Int)
    (hk : s.val t key = some old) :
    s.update t key val = .ok (s.put t key (some val)) := by
  unfold Store.update Store.put
  unfold Store.val at hk
  cases hs : s t with
  | none => simp [hs] at hk
  | some m =>
    simp only [hs] at hk
    simp [hk]

theorem Store.delete_eq_put (s : Store) (t : String) (key old : Int)
    (hk : s.val t key = some old) :
    s.delete t key = .ok (s.put t key none) := by
  unfold Store.delete Store.put
  unfold Store.val at hk
  cases hs : s t with
  | none => simp [hs] at hk
  | some m =>
    simp only [hs] at hk
    simp [hk]

theorem Store.isSome_of_val {s : Store} {t : String} {key v : Int}
    (hk : s.val t key = some v) : (s t).isSome := by
  unfold Store.val at hk
  cases hs : s t with
  | none => simp [hs] at hk
  | some m => rfl

theorem Store.insert_present (s : Store) (t : String) (key val old : Int)
    (hk : s.val t key = some old) : s.insert t key val = .error .duplicateKey := by
  unfold Store.insert
  unfold Store.val at hk
  cases hs : s t with
  | none => simp [hs] at hk
  | some m =>
    simp only [hs] at hk
    simp [hk]

theorem Store.update_absent (s : Store) (t : String) (key val : Int)
    (ht : (s t).isSome) (hk : s.val t key = none) :
    s.update t key val = .error .noSuchKey := by
  unfold Store.update
  unfold Store.val at hk
  cases hs : s t with
  | none => simp [hs] at ht
  | some m =>
    simp only [hs] at hk
    simp [hk]

theorem Store.delete_absent (s : Store) (t : String) (key : Int)
    (ht : (s t).isSome) (hk : s.val t key = none) :
    s.delete t key = .error .noSuchKey := by
  unfold Store.delete
  unfold Store.val at hk
  cases hs : s t with
  | none => simp [hs] at ht
  | some m =>
    simp only [hs] at hk
    simp [hk]

/-! ## Facts about redo and undo of one record -/

theorem engineCall_frame (rm : RecoveryManager) (c : Call) (r : Except Err Store) :
    (engineCall rm c r).2.tm = rm.tm ∧ (engineCall rm c r).2.txStack = rm.txStack ∧
    (engineCall rm c r).2.fd = rm.fd ∧ (engineCall rm c r).2.fdOk = rm.fdOk ∧
    (engineCall rm c r).2.calls = rm.calls ++ [c] := by
  cases r <;> simp [engineCall]

theorem engineCall_ok (rm : RecoveryManager) (c : Call) (s : Store) :
    engineCall rm c (.ok s) = (none, { rm with d := s, calls := rm.calls ++ [c] }) := rfl

theorem engineCall_error (rm : RecoveryManager) (c : Call) (e : Err) :
    engineCall rm c (.error e) = (some e, { rm with calls := rm.calls ++ [c] }) := rfl

theorem Redo_insert (rm : RecoveryManager) (id : Nat) (t : String) (key old new : Int)
    (ht : (rm.d t).isSome) :
    (Redo rm (.editLog id t .INSERT_ACTION key old new)).1 = none ∧
    (Redo rm (.editLog id t .INSERT_ACTION key old new)).2.d = rm.d.put t key (some new) ∧
    (Redo rm (.editLog id t .INSERT_ACTION key old new)).2.tm = rm.tm := by
  cases hk : rm.d.val t key with
  | none =>
    simp [Redo, db.HandleInsert, Store.insert_eq_put rm.d t key new ht hk, engineCall_ok]
  | some v =>
    have hu : Store.update rm.d t key new = .ok (rm.d.put t key (some new)) :=
      Store.update_eq_put rm.d t key new v hk
    simp [Redo, db.HandleInsert, db.HandleUpdate, Store.insert_present rm.d t key new v hk,
      engineCall_error, hu, engineCall_ok]

theorem Redo_update (rm : RecoveryManager) (id : Nat) (t : String) (key old new : Int)
    (ht : (rm.d t).isSome) :
    (Redo rm (.editLog id t .UPDATE_ACTION key old new)).1 = none ∧
    (Redo rm (.editLog id t .UPDATE_ACTION key old new)).2.d = rm.d.put t key (some new) ∧
    (Redo rm (.editLog id t .UPDATE_ACTION key old new)).2.tm = rm.tm := by
  cases hk : rm.d.val t key with
  | none =>
    have hi : Store.insert rm.d t key new = .ok (rm.d.put t key (some new)) :=
      Store.insert_eq_put rm.d t key new ht hk
    simp [Redo, db.HandleInsert, db.HandleUpdate, Store.update_absent rm.d t key new ht hk,
      engineCall_error, hi, engineCall_ok]
  | some v =>
    simp [Redo, db.HandleUpdate, Store.update_eq_put rm.d t key new v hk, engineCall_ok]

theorem Redo_delete_present (rm : RecoveryManager) (id : Nat) (t : String) (key old new v : Int)
    (hk : rm.d.val t key = some v) :
    (Redo rm (.editLog id t .DELETE_ACTION key old new)).1 = none ∧
    (Redo rm (.editLog id t .DELETE_ACTION key old new)).2.d = rm.d.put t key none ∧
    (Redo rm (.editLog id t .DELETE_ACTION key old new)).2.tm = rm.tm := by
  simp [Redo, db.HandleDelete, Store.delete_eq_put rm.d t key v hk, engineCall_ok]

theorem Redo_delete_absent (rm : RecoveryManager) (id : Nat) (t : String) (key old new : Int)
    (ht : (rm.d t).isSome) (hk : rm.d.val t key = none) :
    Redo rm (.editLog id t .DELETE_ACTION key old new) =
      (some .noSuchKey, { rm with calls := rm.calls ++ [.delete t key] }) := by
  simp [Redo, db.HandleDelete, Store.delete_absent rm.d t key ht hk, engineCall_error]

theorem Store.put_put (s : Store) (t : String) (key : Int) (v w : Option Int) :
    (s.put t key v).put t key w = s.put t key w := by
  apply Store.ext_val
  · intro t1; simp [Store.put_isSome]
  · intro t1 k1
    by_cases h : t1 = t ∧ k1 = key
    · obtain ⟨rfl, rfl⟩ := h
      cases hs : (s t1).isSome with
      | true =>
        rw [Store.val_put_same _ _ _ _ (by rw [Store.put_isSome]; exact hs),
          Store.val_put_same _ _ _ _ hs]
      | false =>
        have : s t1 = none := by cases h1 : s t1 <;> simp_all
        simp [Store.put, this]
    · have h1 : t1 ≠ t ∨ k1 ≠ key := by
        by_cases ht : t1 = t
        · right; intro hk; exact h ⟨ht, hk⟩
        · left; exact ht
      rw [Store.val_put_other _ _ _ _ _ _ h1, Store.val_put_other _ _ _ _ _ _ h1,
        Store.val_put_other _ _ _ _ _ _ h1]

theorem Redo_edit_missing_table (rm : RecoveryManager) (id : Nat) (t : String) (a : Action)
    (key old new : Int) (ht : rm.d t = none) :
    (Redo rm (.editLog id t a key old new)).2.d = rm.d := by
  cases a <;>
    simp [Redo, db.HandleInsert, db.HandleUpdate, db.HandleDelete, Store.insert, Store.update,
      Store.delete, ht, engineCall]

/-- C7. Redo of an Insert or of an Update edit record on an existing table
returns no error and leaves the key mapped to the new value, whether or not the
key was there before; every other key and the set of tables are unchanged. -/
theorem redo_insert_update_create_or_set (rm : RecoveryManager) (id : Nat) (t : String)
    (a : Action) (key old new : Int) (ht : (rm.d t).isSome)
    (ha : a = .INSERT_ACTION ∨ a = .UPDATE_ACTION) :
    (Redo rm (.editLog id t a key old new)).1 = none ∧
    (Redo rm (.editLog id t a key old new)).2.d.val t key = some new ∧
    (∀ t1 k1, t1 ≠ t ∨ k1 ≠ key →
      (Redo rm (.editLog id t a key old new)).2.d.val t1 k1 = rm.d.val t1 k1) ∧
    (∀ t1, ((Redo rm (.editLog id t a key old new)).2.d t1).isSome = (rm.d t1).isSome) := by
  have key_fact : (Redo rm (.editLog id t a key old new)).1 = none ∧
      (Redo rm (.editLog id t a key old new)).2.d = rm.d.put t key (some new) := by
    rcases ha with rfl | rfl
    · exact ⟨(Redo_insert rm id t key old new ht).1, (Redo_insert rm id t key old new ht).2.1⟩
    · exact ⟨(Redo_update rm id t key old new ht).1, (Redo_update rm id t key old new ht).2.1⟩
  refine ⟨key_fact.1, ?_, ?_, ?_⟩
  · rw [key_fact.2]; exact Store.val_put_same _ _ _ _ ht
  · intro t1 k1 h; rw [key_fact.2]; exact Store.val_put_other _ _ _ _ _ _ h
  · intro t1; rw [key_fact.2]; exact Store.put_isSome _ _ _ _ _

/-- Witness of C7 on the table `tbl`: redo of an Update of the missing key 5. -/
theorem redo_insert_update_create_or_set_witness :
    (Redo (restarted (tblStore (fun _ => none)) []) (.editLog 1 "tbl" .UPDATE_ACTION 5 7 100)).1
      = none ∧
    (Redo (restarted (tblStore (fun _ => none)) [])
      (.editLog 1 "tbl" .UPDATE_ACTION 5 7 100)).2.d.val "tbl" 5 = some 100 :=
  let h := redo_insert_update_create_or_set (restarted (tblStore (fun _ => none)) []) 1 "tbl"
    .UPDATE_ACTION 5 7 100 (by decide) (Or.inr rfl)
  ⟨h.1, h.2.1⟩

/-- C9. Redoing the same edit record twice in a row leaves the same store as
redoing it once, for each of the three actions and whatever the second
application returns. -/
theorem redo_idempotent (rm : RecoveryManager) (id : Nat) (t : String) (a : Action)
    (key old new : Int) :
    (Redo (Redo rm (.editLog id t a key old new)).2 (.editLog id t a key old new)).2.d =
      (Redo rm (.editLog id t a key old new)).2.d := by
  cases hs : (rm.d t).isSome with
  | false =>
    have ht : rm.d t = none := by cases h1 : rm.d t <;> simp_all
    have h1 := Redo_edit_missing_table rm id t a key old new ht
    rw [Redo_edit_missing_table _ id t a key old new (by rw [h1]; exact ht)]
  | true =>
    cases a with
    | INSERT_ACTION =>
      have h1 := (Redo_insert rm id t key old new hs).2.1
      have hs1 : ((Redo rm (.editLog id t .INSERT_ACTION key old new)).2.d t).isSome := by
        rw [h1, Store.put_isSome]; exact hs
      rw [(Redo_insert _ id t key old new hs1).2.1, h1, Store.put_put]
    | UPDATE_ACTION =>
      have h1 := (Redo_update rm id t key old new hs).2.1
      have hs1 : ((Redo rm (.editLog id t .UPDATE_ACTION key old new)).2.d t).isSome := by
        rw [h1, Store.put_isSome]; exact hs
      rw [(Redo_update _ id t key old new hs1).2.1, h1, Store.put_put]
    | DELETE_ACTION =>
      cases hk : rm.d.val t key with
      | none =>
        have h1 : (Redo rm (.editLog id t .DELETE_ACTION key old new)).2.d = rm.d := by
          rw [Redo_delete_absent rm id t key old new hs hk]
        have h2 := Redo_delete_absent (Redo rm (.editLog id t .DELETE_ACTION key old new)).2
          id t key old new (by rw [h1]; exact hs) (by rw [h1]; exact hk)
        rw [h2]
      | some v =>
        have h1 := (Redo_delete_present rm id t key old new v hk).2.1
        have hs1 : ((Redo rm (.editLog id t .DELETE_ACTION key old new)).2.d t).isSome := by
          rw [h1, Store.put_isSome]; exact hs
        have hk1 : (Redo rm (.editLog id t .DELETE_ACTION key old new)).2.d.val t key = none := by
          rw [h1]; exact Store.val_put_same _ _ _ _ hs
        rw [Redo_delete_absent _ id t key old new hs1 hk1]

theorem Undo_insert (rm : RecoveryManager) (id : Nat) (t : String) (key old new v : Int)
    (hk : rm.d.val t key = some v) :
    Undo rm (.editLog id t .INSERT_ACTION key old new) =
      (none, { rm with d := rm.d.put t key none, calls := rm.calls ++ [.delete t key] }) := by
  simp [Undo, HandleDelete, Store.delete_eq_put rm.d t key v hk, engineCall_ok]

theorem Undo_update (rm : RecoveryManager) (id : Nat) (t : String) (key old new v : Int)
    (hk : rm.d.val t key = some v) :
    Undo rm (.editLog id t .UPDATE_ACTION key old new) =
      (none, { rm with d := rm.d.put t key (some old),
                       calls := rm.calls ++ [.update t key old] }) := by
  simp [Undo, HandleUpdate, Store.update_eq_put rm.d t key old v hk, engineCall_ok]

theorem Undo_delete (rm : RecoveryManager) (id : Nat) (t : String) (key old new : Int)
    (ht : (rm.d t).isSome) (hk : rm.d.val t key = none) :
    Undo rm (.editLog id t .DELETE_ACTION key old new) =
      (none, { rm with d := rm.d.put t key (some old),
                       calls := rm.calls ++ [.insert t key old] }) := by
  simp [Undo, HandleInsert, Store.insert_eq_put rm.d t key old ht hk, engineCall_ok]

/-- C10. Undo/redo inverse law on a store reached after the edit was applied.
Insert: undo then redo return no error and leave the key mapped to the new
value.  Update: undo leaves the key mapped to the old value, the following
redo leaves it mapped to the new value.  Delete: undo, on a store where the key
is absent, leaves the key mapped to the old value.  In each case every other
key keeps its value. -/
theorem undo_redo_inverse (rm : RecoveryManager) (id : Nat) (t : String) (key old new : Int) :
    (rm.d.val t key = some new →
      (Undo rm (.editLog id t .INSERT_ACTION key old new)).1 = none ∧
      (Redo (Undo rm (.editLog id t .INSERT_ACTION key old new)).2
        (.editLog id t .INSERT_ACTION key old new)).1 = none ∧
      (Redo (Undo rm (.editLog id t .INSERT_ACTION key old new)).2
        (.editLog id t .INSERT_ACTION key old new)).2.d.val t key = some new ∧
      ∀ t1 k1, t1 ≠ t ∨ k1 ≠ key →
        (Redo (Undo rm (.editLog id t .INSERT_ACTION key old new)).2
          (.editLog id t .INSERT_ACTION key old new)).2.d.val t1 k1 = rm.d.val t1 k1) ∧
    (rm.d.val t key = some new →
      (Undo rm (.editLog id t .UPDATE_ACTION key old new)).1 = none ∧
      (Undo rm (.editLog id t .UPDATE_ACTION key old new)).2.d.val t key = some old ∧
      (∀ t1 k1, t1 ≠ t ∨ k1 ≠ key →
        (Undo rm (.editLog id t .UPDATE_ACTION key old new)).2.d.val t1 k1 = rm.d.val t1 k1) ∧
      (Redo (Undo rm (.editLog id t .UPDATE_ACTION key old new)).2
        (.editLog id t .UPDATE_ACTION key old new)).1 = none ∧
      (Redo (Undo rm (.editLog id t .UPDATE_ACTION key old new)).2
        (.editLog id t .UPDATE_ACTION key old new)).2.d.val t key = some new ∧
      ∀ t1 k1, t1 ≠ t ∨ k1 ≠ key →
        (Redo (Undo rm (.editLog id t .UPDATE_ACTION key old new)).2
          (.editLog id t .UPDATE_ACTION key old new)).2.d.val t1 k1 = rm.d.val t1 k1) ∧
    ((rm.d t).isSome → rm.d.val t key = none →
      (Undo rm (.editLog id t .DELETE_ACTION key old new)).1 = none ∧
      (Undo rm (.editLog id t .DELETE_ACTION key old new)).2.d.val t key = some old ∧
      ∀ t1 k1, t1 ≠ t ∨ k1 ≠ key →
        (Undo rm (.editLog id t .DELETE_ACTION key old new)).2.d.val t1 k1 = rm.d.val t1 k1) := by
  refine ⟨?_, ?_, ?_⟩
  · intro hk
    have ht : (rm.d t).isSome := Store.isSome_of_val hk
    have hu := Undo_insert rm id t key old new new hk
    have ht1 : ((Undo rm (.editLog id t .INSERT_ACTION key old new)).2.d t).isSome := by
      rw [hu]; simpa [Store.put_isSome] using ht
    have hr := Redo_insert (Undo rm (.editLog id t .INSERT_ACTION key old new)).2 id t key old
      new ht1
    refine ⟨by rw [hu], hr.1, ?_, ?_⟩
    · rw [hr.2.1]; exact Store.val_put_same _ _ _ _ ht1
    · intro t1 k1 h
      rw [hr.2.1, Store.val_put_other _ _ _ _ _ _ h, hu]
      exact Store.val_put_other _ _ _ _ _ _ h
  · intro hk
    have ht : (rm.d t).isSome := Store.isSome_of_val hk
    have hu := Undo_update rm id t key old new new hk
    have ht1 : ((Undo rm (.editLog id t .UPDATE_ACTION key old new)).2.d t).isSome := by
      rw [hu]; simpa [Store.put_isSome] using ht
    have hr := Redo_update (Undo rm (.editLog id t .UPDATE_ACTION key old new)).2 id t key old
      new ht1
    refine ⟨by rw [hu], ?_, ?_, hr.1, ?_, ?_⟩
    · rw [hu]; exact Store.val_put_same _ _ _ _ ht
    · intro t1 k1 h
      rw [hu]; exact Store.val_put_other _ _ _ _ _ _ h
    · rw [hr.2.1]; exact Store.val_put_same _ _ _ _ ht1
    · intro t1 k1 h
      rw [hr.2.1, Store.val_put_other _ _ _ _ _ _ h, hu]
      exact Store.val_put_other _ _ _ _ _ _ h
  · intro ht hk
    have hu := Undo_delete rm id t key old new ht hk
    refine ⟨by rw [hu], ?_, ?_⟩
    · rw [hu]; exact Store.val_put_same _ _ _ _ ht
    · intro t1 k1 h
      rw [hu]; exact Store.val_put_other _ _ _ _ _ _ h

/-- Witness of C10: key 5 of `tbl` holding 200 after an insert or an update
to 200, and key 5 absent after a delete. -/
theorem undo_redo_inverse_witness :
    (Redo (Undo (restarted (tblStore (fun k => if k = 5 then some 200 else none)) [])
        (.editLog 1 "tbl" .INSERT_ACTION 5 0 200)).2
      (.editLog 1 "tbl" .INSERT_ACTION 5 0 200)).2.d.val "tbl" 5 = some 200 ∧
    (Undo (restarted (tblStore (fun k => if k = 5 then some 200 else none)) [])
      (.editLog 1 "tbl" .UPDATE_ACTION 5 100 200)).2.d.val "tbl" 5 = some 100 ∧
    (Undo (restarted (tblStore (fun _ => none)) [])
      (.editLog 1 "tbl" .DELETE_ACTION 5 100 0)).2.d.val "tbl" 5 = some 100 :=
  ⟨((undo_redo_inverse (restarted (tblStore (fun k => if k = 5 then some 200 else none)) [])
      1 "tbl" 5 0 200).1 (by decide)).2.2.1,
   ((undo_redo_inverse (restarted (tblStore (fun k => if k = 5 then some 200 else none)) [])
      1 "tbl" 5 100 200).2.1 (by decide)).2.1,
   ((undo_redo_inverse (restarted (tblStore (fun _ => none)) [])
      1 "tbl" 5 100 0).2.2 (by decide) (by decide)).2.1⟩

/-- C8, the code at the failing input.  Key 5 of `tbl` is absent; redo of a
Delete record for it returns the engine's `NoSuchKey`, and `Recover` on a log
whose redo range holds that record returns the same error. -/
theorem redo_delete_of_absent_key_errors :
    (Redo (restarted (tblStore (fun _ => none)) []) (.editLog 1 "tbl" .DELETE_ACTION 5 100 0)).1
      = some .noSuchKey ∧
    (Recover (restarted (tblStore (fun _ => none)) [])
      (.ok ([.startLog 1, .checkpointLog [1], .editLog 1 "tbl" .DELETE_ACTION 5 100 0], 1))).1
      = .returned (some .noSuchKey) := by
  constructor <;> decide

/-! ## Rollback -/

theorem Undo_eq_engineCall (rm : RecoveryManager) (id : Nat) (t : String) (a : Action)
    (key old new : Int) :
    ∃ c, inverseOf (.editLog id t a key old new) = some c ∧
      Undo rm (.editLog id t a key old new) = engineCall rm c (rm.d.run c) := by
  cases a
  · exact ⟨_, rfl, rfl⟩
  · exact ⟨_, rfl, rfl⟩
  · exact ⟨_, rfl, rfl⟩

theorem undoStack_frame (L : List Log) (rm : RecoveryManager) :
    (undoStack L rm).2.tm = rm.tm ∧ (undoStack L rm).2.txStack = rm.txStack ∧
    (undoStack L rm).2.fd = rm.fd ∧ (undoStack L rm).2.fdOk = rm.fdOk := by
  induction L generalizing rm with
  | nil => simp [undoStack]
  | cons l rest ih =>
    cases l with
    | editLog id t a key old new =>
      obtain ⟨c, -, hc⟩ := Undo_eq_engineCall rm id t a key old new
      have hf := engineCall_frame rm c (rm.d.run c)
      simp only [undoStack, hc]
      cases hr : engineCall rm c (rm.d.run c) with
      | mk e rm1 =>
        rw [hr] at hf
        cases e with
        | some e => simpa using ⟨hf.1, hf.2.1, hf.2.2.1, hf.2.2.2.1⟩
        | none =>
          have h2 := ih rm1
          simp only at hf ⊢
          exact ⟨h2.1.trans hf.1, h2.2.1.trans hf.2.1, h2.2.2.1.trans hf.2.2.1,
            h2.2.2.2.trans hf.2.2.2.1⟩
    | tableLog a b => simpa [undoStack] using ih rm
    | startLog a => simpa [undoStack] using ih rm
    | commitLog a => simpa [undoStack] using ih rm
    | checkpointLog a => simpa [undoStack] using ih rm

theorem undoStack_ok (L : List Log) (rm : RecoveryManager) (s1 : Store)
    (h : Store.runAll rm.d (L.filterMap inverseOf) = .ok s1) :
    undoStack L rm =
      (none, { rm with d := s1, calls := rm.calls ++ L.filterMap inverseOf }) := by
  induction L generalizing rm with
  | nil =>
    simp only [List.filterMap_nil, Store.runAll, Except.ok.injEq] at h
    subst h
    simp [undoStack]
  | cons l rest ih =>
    cases l with
    | editLog id t a key old new =>
      obtain ⟨c, hinv, hc⟩ := Undo_eq_engineCall rm id t a key old new
      rw [List.filterMap_cons_some hinv] at h ⊢
      simp only [Store.runAll] at h
      cases hrun : rm.d.run c with
      | error e => simp [hrun] at h
      | ok s2 =>
        simp only [hrun] at h
        simp only [undoStack, hc, hrun, engineCall_ok]
        rw [ih _ h]
        simp
    | tableLog a b => simpa [undoStack, inverseOf] using ih rm h
    | startLog a => simpa [undoStack, inverseOf] using ih rm h
    | commitLog a => simpa [undoStack, inverseOf] using ih rm h
    | checkpointLog a => simpa [undoStack, inverseOf] using ih rm h

/-- C3. Rollback of a live transaction whose stack starts with its StartLog:
when every inverse operation succeeds in the engine, the log file accepts the
write and the transaction manager knows the id, Rollback issues exactly the
inverses of the stack's edit records, last edit first (records that are not
edits, such as checkpoint markers, are skipped), then commits the id in the
transaction manager; it appends one CommitLog, removes the id's stack entry
and returns no error. -/
theorem rollback_undoes_edits_in_reverse (rm : RecoveryManager) (id : Nat) (rest : List Log)
    (s1 : Store) (hstack : stackOf rm.txStack id = .startLog id :: rest)
    (hundo : Store.runAll rm.d (rest.reverse.filterMap inverseOf) = .ok s1)
    (htm : id ∈ rm.tm) (hfd : rm.fdOk = true) :
    Rollback rm id =
      (none, { d := s1,
               tm := rm.tm.erase id,
               txStack := stackDelete rm.txStack id,
               fd := rm.fd ++ [.commitLog id],
               fdOk := rm.fdOk,
               syncOk := rm.syncOk,
               torn := rm.torn,
               calls := rm.calls ++ rest.reverse.filterMap inverseOf ++ [.tmCommit id] }) := by
  have hrev : (Log.startLog id :: rest).reverse.filterMap inverseOf =
      rest.reverse.filterMap inverseOf := by
    simp [List.filterMap_append, inverseOf]
  have h1 := undoStack_ok (Log.startLog id :: rest).reverse rm s1 (by rw [hrev]; exact hundo)
  rw [hrev] at h1
  unfold Rollback
  rw [hstack]
  simp only [startsTransaction, if_true]
  rw [h1]
  simp [Commit, writeToBuffer, hfd, concurrency.Commit, htm]

/-- Witness of C3 on the manager `live`: rolling back transaction 1 first sets
key 6 back to 7, then deletes key 5, across the checkpoint marker. -/
theorem rollback_undoes_edits_in_reverse_witness :
    (Rollback live 1).1 = none ∧
    (Rollback live 1).2.calls =
      [.update "tbl" 6 7, .delete "tbl" 5, .tmCommit 1] ∧
    (Rollback live 1).2.fd = live.fd ++ [.commitLog 1] ∧
    (Rollback live 1).2.txStack = [(2, [.startLog 2, .editLog 2 "tbl" .INSERT_ACTION 9 0 1])] :=
  have h := rollback_undoes_edits_in_reverse live 1
    [.editLog 1 "tbl" .INSERT_ACTION 5 0 100, .checkpointLog [1],
      .editLog 1 "tbl" .UPDATE_ACTION 6 7 8]
    ((live.d.put "tbl" 6 (some 7)).put "tbl" 5 none) rfl rfl (by decide) rfl
  ⟨by rw [h], by rw [h]; rfl, by rw [h], by rw [h]; rfl⟩

/-- C4. Rollback precondition errors.  With no stack entry or an empty stack
Rollback returns the "no logs" error; with a stack whose first record is
neither a StartLog nor a TableLog it returns the "already committed" error.
In both cases the manager is returned exactly as it was: nothing is appended
to the log file, the stack map is unchanged and no call has been issued to the
storage engine or the transaction manager. -/
theorem rollback_precondition_errors (rm : RecoveryManager) (id : Nat) :
    (rm.txStack.lookup id = none ∨ rm.txStack.lookup id = some [] →
      Rollback rm id = (some .noLogs, rm)) ∧
    (∀ first more, rm.txStack.lookup id = some (first :: more) →
      (∀ i, first ≠ .startLog i) → (∀ ty name, first ≠ .tableLog ty name) →
      Rollback rm id = (some .alreadyCommitted, rm)) := by
  constructor
  · intro h
    have : stackOf rm.txStack id = [] := by
      rcases h with h | h <;> simp [stackOf, h]
    simp [Rollback, this]
  · intro first more h hs ht
    have h1 : stackOf rm.txStack id = first :: more := by simp [stackOf, h]
    have h2 : startsTransaction first = false := by
      cases first with
      | startLog i => exact absurd rfl (hs i)
      | tableLog a b => exact absurd rfl (ht a b)
      | editLog _ _ _ _ _ _ => rfl
      | commitLog _ => rfl
      | checkpointLog _ => rfl
    simp [Rollback, h1, h2]

/-- Witness of C4: transaction 7 has no stack in `live`; a stack that starts
with a commit record is refused. -/
theorem rollback_precondition_errors_witness :
    Rollback live 7 = (some .noLogs, live) ∧
    Rollback { live with txStack := [(3, [.commitLog 3])] } 3 =
      (some .alreadyCommitted, { live with txStack := [(3, [.commitLog 3])] }) :=
  ⟨(rollback_precondition_errors live 7).1 (Or.inl (by decide)),
   (rollback_precondition_errors { live with txStack := [(3, [.commitLog 3])] } 3).2
     (.commitLog 3) [] (by decide) (by intro i h; cases h) (by intro a b h; cases h)⟩

theorem Store.run_error_ne_notRunning (s : Store) (c : Call) (e : Err)
    (h : s.run c = .error e) : e ≠ .notRunning := by
  cases c with
  | createTable ty t =>
    simp only [Store.run, Store.createTable] at h
    split at h <;> simp at h
    subst h; simp
  | insert t key val =>
    simp only [Store.run, Store.insert] at h
    split at h
    · simp at h; subst h; simp
    · split at h <;> simp at h; subst h; simp
  | update t key val =>
    simp only [Store.run, Store.update] at h
    split at h
    · simp at h; subst h; simp
    · split at h <;> simp at h; subst h; simp
  | delete t key =>
    simp only [Store.run, Store.delete] at h
    split at h
    · simp at h; subst h; simp
    · split at h <;> simp at h; subst h; simp
  | tmBegin i => simp [Store.run] at h
  | tmCommit i => simp [Store.run] at h

theorem undoStack_error_ne_notRunning (L : List Log) (rm : RecoveryManager) (e : Err)
    (h : (undoStack L rm).1 = some e) : e ≠ .notRunning := by
  induction L generalizing rm with
  | nil => simp [undoStack] at h
  | cons l rest ih =>
    cases l with
    | editLog id t a key old new =>
      obtain ⟨c, -, hc⟩ := Undo_eq_engineCall rm id t a key old new
      simp only [undoStack, hc] at h
      cases hrun : rm.d.run c with
      | error e1 =>
        simp only [hrun, engineCall_error, Option.some.injEq] at h
        subst h
        exact Store.run_error_ne_notRunning _ _ _ hrun
      | ok s2 =>
        simp only [hrun, engineCall_ok] at h
        exact ih _ h
    | tableLog a b => exact ih rm (by simpa [undoStack] using h)
    | startLog a => exact ih rm (by simpa [undoStack] using h)
    | commitLog a => exact ih rm (by simpa [undoStack] using h)
    | checkpointLog a => exact ih rm (by simpa [undoStack] using h)

theorem lookup_stackDelete_self (m : List (Nat × List Log)) (id : Nat) :
    (stackDelete m id).lookup id = none := by
  induction m with
  | nil => rfl
  | cons p m ih =>
    obtain ⟨i, l⟩ := p
    by_cases h : i = id
    · simpa [stackDelete, h] using ih
    · have h1 : (id == i) = false := by simpa using fun h2 => h h2.symm
      simpa [stackDelete, h, List.lookup_cons, h1] using ih

theorem lookup_stackDelete_other (m : List (Nat × List Log)) (id other : Nat)
    (hne : other ≠ id) : (stackDelete m id).lookup other = m.lookup other := by
  induction m with
  | nil => rfl
  | cons p m ih =>
    obtain ⟨i, l⟩ := p
    by_cases h : i = id
    · subst h
      have h1 : (other == i) = false := by simpa using hne
      simpa [stackDelete, List.lookup_cons, h1] using ih
    · by_cases h2 : other = i
      · subst h2
        simp [stackDelete, h, List.lookup_cons]
      · have h1 : (other == i) = false := by simpa using h2
        simpa [stackDelete, h, List.lookup_cons, h1] using ih

theorem Commit_frame (rm : RecoveryManager) (id : Nat) :
    (Commit rm id).d = rm.d ∧ (Commit rm id).tm = rm.tm ∧
    (Commit rm id).txStack = stackDelete rm.txStack id ∧ (Commit rm id).calls = rm.calls ∧
    (Commit rm id).fd = if rm.fdOk then rm.fd ++ [.commitLog id] else rm.fd := by
  unfold Commit writeToBuffer
  split <;> simp_all

theorem tmCommit_frame (rm : RecoveryManager) (id : Nat) :
    (concurrency.Commit rm id).2.d = rm.d ∧ (concurrency.Commit rm id).2.txStack = rm.txStack ∧
    (concurrency.Commit rm id).2.fd = rm.fd ∧
    (concurrency.Commit rm id).2.calls = rm.calls ++ [.tmCommit id] ∧
    (concurrency.Commit rm id).1 = if id ∈ rm.tm then none else some .notRunning := by
  unfold concurrency.Commit
  split <;> simp

/-- C5, the failing case.  In `live` with transaction 1 unknown to the
transaction manager, Rollback of 1 returns the manager's commit error, and
the log stack of 1, four records before the call, is gone after it. -/
theorem rollback_failed_commit_drops_stack :
    (Rollback { live with tm := {2} } 1).1 = some .notRunning ∧
    (stackOf ({ live with tm := {2} } : RecoveryManager).txStack 1).length = 4 ∧
    stackOf (Rollback { live with tm := {2} } 1).2.txStack 1 = [] := by
  refine ⟨by decide, by decide, by decide⟩

/-- C5 as amended.  When Rollback returns a precondition error or the error of
a failing undo, the stack map (so the stack of the id) and the log file are
exactly as before the call.  When it returns the error of the transaction
manager's commit, the commit record step has run before: the id's stack entry
has been removed and, the log file permitting, one CommitLog has been
appended. -/
theorem rollback_error_keeps_stack_until_commit (rm : RecoveryManager) (id : Nat) (e : Err)
    (h : (Rollback rm id).1 = some e) :
    (e ≠ .notRunning →
      (Rollback rm id).2.txStack = rm.txStack ∧ (Rollback rm id).2.fd = rm.fd) ∧
    (e = .notRunning →
      (Rollback rm id).2.txStack = stackDelete rm.txStack id ∧
      (Rollback rm id).2.txStack.lookup id = none ∧
      (Rollback rm id).2.fd = if rm.fdOk then rm.fd ++ [.commitLog id] else rm.fd) := by
  unfold Rollback at h ⊢
  cases hst : stackOf rm.txStack id with
  | nil =>
    simp only [hst, Option.some.injEq] at h ⊢
    subst h
    simp
  | cons first more =>
    simp only [hst] at h ⊢
    cases hfirst : startsTransaction first with
    | false =>
      simp only [hfirst, Bool.false_eq_true, if_false, Option.some.injEq] at h ⊢
      subst h
      simp
    | true =>
      simp only [hfirst, if_true] at h ⊢
      have hframe := undoStack_frame (first :: more).reverse rm
      have hne := undoStack_error_ne_notRunning (first :: more).reverse rm
      cases hu : undoStack (first :: more).reverse rm with
      | mk e1 rm1 =>
        rw [hu] at hframe
        simp only [hu] at h hne ⊢
        cases e1 with
        | some e2 =>
          simp only [Option.some.injEq] at h
          subst h
          simp only at hframe ⊢
          exact ⟨fun _ => ⟨hframe.2.1, hframe.2.2.1⟩, fun h3 => absurd h3 (hne e2 rfl)⟩
        | none =>
          simp only at hframe h ⊢
          have hc := tmCommit_frame (Commit rm1 id) id
          have hw := Commit_frame rm1 id
          rw [hc.2.2.2.2, hw.2.1] at h
          have hts : (concurrency.Commit (Commit rm1 id) id).2.txStack =
              stackDelete rm.txStack id := by
            rw [hc.2.1, hw.2.2.1, hframe.2.1]
          by_cases hin : id ∈ rm1.tm
          · simp [hin] at h
          · have he : e = .notRunning := by
              simp only [hin, if_false, Option.some.injEq] at h
              exact h.symm
            refine ⟨fun h3 => absurd he h3, fun _ => ⟨hts, ?_, ?_⟩⟩
            · rw [hts]
              exact lookup_stackDelete_self _ _
            · rw [hc.2.2.1, hw.2.2.2.2, hframe.2.2.1, hframe.2.2.2]

/-- Witness of C5 as amended: transaction 7 has no stack in `live`, and a
manager whose transaction manager does not know transaction 1. -/
theorem rollback_error_keeps_stack_until_commit_witness :
    ((Rollback live 7).1 = some .noLogs ∧
      (Rollback live 7).2.txStack = live.txStack ∧ (Rollback live 7).2.fd = live.fd) ∧
    ((Rollback { live with tm := {2} } 1).1 = some .notRunning ∧
      (Rollback { live with tm := {2} } 1).2.txStack.lookup 1 = none) :=
  ⟨⟨by decide,
    (rollback_error_keeps_stack_until_commit live 7 .noLogs (by decide)).1 (by decide)⟩,
   ⟨by decide,
    ((rollback_error_keeps_stack_until_commit { live with tm := {2} } 1 .notRunning
      (by decide)).2 rfl).2.1⟩⟩

theorem Store.insert_ok {s s1 : Store} {t : String} {key val : Int}
    (h : s.insert t key val = .ok s1) : s1 = s.put t key (some val) := by
  unfold Store.insert at h
  unfold Store.put
  cases hs : s t with
  | none => simp [hs] at h
  | some m =>
    simp only [hs] at h ⊢
    cases hk : m key with
    | none => simp only [hk, Except.ok.injEq] at h; exact h.symm
    | some v => simp [hk] at h

theorem Store.update_ok {s s1 : Store} {t : String} {key val : Int}
    (h : s.update t key val = .ok s1) : s1 = s.put t key (some val) := by
  unfold Store.update at h
  unfold Store.put
  cases hs : s t with
  | none => simp [hs] at h
  | some m =>
    simp only [hs] at h ⊢
    cases hk : m key with
    | none => simp [hk] at h
    | some v => simp only [hk, Except.ok.injEq] at h; exact h.symm

theorem Store.delete_ok {s s1 : Store} {t : String} {key : Int}
    (h : s.delete t key = .ok s1) : s1 = s.put t key none := by
  unfold Store.delete at h
  unfold Store.put
  cases hs : s t with
  | none => simp [hs] at h
  | some m =>
    simp only [hs] at h ⊢
    cases hk : m key with
    | none => simp [hk] at h
    | some v => simp only [hk, Except.ok.injEq] at h; exact h.symm

theorem engineCall_d (rm : RecoveryManager) (c : Call) (r : Except Err Store) :
    (engineCall rm c r).2.d = match r with
      | .ok s => s
      | .error _ => rm.d := by
  cases r <;> rfl

theorem Undo_val_other (rm : RecoveryManager) (l : Log) (t : String) (key : Int)
    (h : editKey l ≠ some (t, key)) : (Undo rm l).2.d.val t key = rm.d.val t key := by
  cases l with
  | editLog id t0 a k0 old new =>
    have hne : t ≠ t0 ∨ key ≠ k0 := by
      by_cases ht : t = t0
      · right
        intro hk
        apply h
        simp [editKey, ht, hk]
      · left; exact ht
    cases a with
    | INSERT_ACTION =>
      simp only [Undo, HandleDelete, engineCall_d]
      cases hr : rm.d.delete t0 k0 with
      | error e => rfl
      | ok s1 =>
        simp only
        rw [Store.delete_ok hr]
        exact Store.val_put_other _ _ _ _ _ _ hne
    | UPDATE_ACTION =>
      simp only [Undo, HandleUpdate, engineCall_d]
      cases hr : rm.d.update t0 k0 old with
      | error e => rfl
      | ok s1 =>
        simp only
        rw [Store.update_ok hr]
        exact Store.val_put_other _ _ _ _ _ _ hne
    | DELETE_ACTION =>
      simp only [Undo, HandleInsert, engineCall_d]
      cases hr : rm.d.insert t0 k0 old with
      | error e => rfl
      | ok s1 =>
        simp only
        rw [Store.insert_ok hr]
        exact Store.val_put_other _ _ _ _ _ _ hne
  | tableLog a b => rfl
  | startLog a => rfl
  | commitLog a => rfl
  | checkpointLog a => rfl

theorem undoStack_val_other (L : List Log) (rm : RecoveryManager) (t : String) (key : Int)
    (h : (t, key) ∉ L.filterMap editKey) : (undoStack L rm).2.d.val t key = rm.d.val t key := by
  induction L generalizing rm with
  | nil => rfl
  | cons l rest ih =>
    cases l with
    | editLog id t0 a k0 old new =>
      have hk : editKey (.editLog id t0 a k0 old new) = some (t0, k0) := rfl
      rw [List.filterMap_cons_some hk] at h
      have h1 : editKey (.editLog id t0 a k0 old new) ≠ some (t, key) := by
        rw [hk]
        intro h2
        apply h
        simp only [Option.some.injEq] at h2
        rw [h2]
        exact List.mem_cons_self _ _
      have h2 : (t, key) ∉ rest.filterMap editKey := fun h3 => h (List.mem_cons_of_mem _ h3)
      have hu := Undo_val_other rm (.editLog id t0 a k0 old new) t key h1
      simp only [undoStack]
      cases hr : Undo rm (.editLog id t0 a k0 old new) with
      | mk e rm1 =>
        rw [hr] at hu
        cases e with
        | some e => exact hu
        | none =>
          simp only
          rw [ih rm1 h2]
          exact hu
    | tableLog a b => exact ih rm (by simpa [editKey] using h)
    | startLog a => exact ih rm (by simpa [editKey] using h)
    | commitLog a => exact ih rm (by simpa [editKey] using h)
    | checkpointLog a => exact ih rm (by simpa [editKey] using h)

/-- C6. Rollback isolation.  For two distinct transactions A and B such that
no edit in the stack of A touches a key touched by an edit in the stack of B,
Rollback of A (whether it succeeds or fails) leaves the stack entry of B as it
was and leaves the stored value of every key edited by B unchanged. -/
theorem rollback_isolation (rm : RecoveryManager) (A B : Nat) (hAB : A ≠ B)
    (hdisj : ∀ tk, tk ∈ (stackOf rm.txStack A).filterMap editKey →
      tk ∉ (stackOf rm.txStack B).filterMap editKey) :
    (Rollback rm A).2.txStack.lookup B = rm.txStack.lookup B ∧
    ∀ t key, (t, key) ∈ (stackOf rm.txStack B).filterMap editKey →
      (Rollback rm A).2.d.val t key = rm.d.val t key := by
  unfold Rollback
  cases hst : stackOf rm.txStack A with
  | nil => simp
  | cons first more =>
    simp only
    cases hfirst : startsTransaction first with
    | false => simp
    | true =>
      simp only [if_true]
      have hframe := undoStack_frame (first :: more).reverse rm
      have hval : ∀ t key, (t, key) ∈ (stackOf rm.txStack B).filterMap editKey →
          (undoStack (first :: more).reverse rm).2.d.val t key = rm.d.val t key := by
        intro t key hB
        apply undoStack_val_other
        intro hA
        have hA1 : (t, key) ∈ (stackOf rm.txStack A).filterMap editKey := by
          rw [hst]
          rw [List.mem_filterMap] at hA ⊢
          obtain ⟨l, hl, hk⟩ := hA
          exact ⟨l, List.mem_reverse.mp hl, hk⟩
        exact hdisj _ hA1 hB
      cases hu : undoStack (first :: more).reverse rm with
      | mk e1 rm1 =>
        rw [hu] at hframe hval
        cases e1 with
        | some e2 => exact ⟨by rw [hframe.2.1], hval⟩
        | none =>
          simp only at hframe hval ⊢
          have hc := tmCommit_frame (Commit rm1 A) A
          have hw := Commit_frame rm1 A
          refine ⟨?_, ?_⟩
          · rw [hc.2.1, hw.2.2.1, hframe.2.1]
            exact lookup_stackDelete_other _ _ _ (Ne.symm hAB)
          · intro t key hB
            rw [hc.1, hw.1]
            exact hval t key hB

/-- Witness of C6 on `live`: transaction 1 edited keys 5 and 6, transaction 2
edited key 9; after Rollback of 1 the stack of 2 and the value of key 9 are as
before. -/
theorem rollback_isolation_witness :
    (Rollback live 1).2.txStack.lookup 2 = live.txStack.lookup 2 ∧
    (Rollback live 1).2.d.val "tbl" 9 = some 1 :=
  have h := rollback_isolation live 1 2 (by decide) (by decide)
  ⟨h.1, h.2 "tbl" 9 (by decide)⟩

/-! ## More facts about the store -/

theorem Store.put_self (s : Store) (t : String) (key : Int) :
    s.put t key (s.val t key) = s := by
  apply Store.ext_val
  · intro t1; exact Store.put_isSome _ _ _ _ _
  · intro t1 k1
    by_cases h : t1 = t ∧ k1 = key
    · obtain ⟨rfl, rfl⟩ := h
      cases hs : (s t1).isSome with
      | true => exact Store.val_put_same _ _ _ _ hs
      | false =>
        have : s t1 = none := by cases h1 : s t1 <;> simp_all
        simp [Store.put, this]
    · have h1 : t1 ≠ t ∨ k1 ≠ key := by
        by_cases ht : t1 = t
        · right; intro hk; exact h ⟨ht, hk⟩
        · left; exact ht
      exact Store.val_put_other _ _ _ _ _ _ h1

theorem Store.val_put (s : Store) (t : String) (key : Int) (v : Option Int)
    (t1 : String) (k1 : Int) :
    (s.put t key v).val t1 k1 =
      if t1 = t ∧ k1 = key ∧ (s t).isSome then v else s.val t1 k1 := by
  by_cases h : t1 = t ∧ k1 = key
  · obtain ⟨rfl, rfl⟩ := h
    cases hs : (s t1).isSome with
    | true => simp [Store.val_put_same _ _ _ _ hs]
    | false =>
      have : s t1 = none := by cases h1 : s t1 <;> simp_all
      simp [Store.put, this]
  · have h1 : t1 ≠ t ∨ k1 ≠ key := by
      by_cases ht : t1 = t
      · right; intro hk; exact h ⟨ht, hk⟩
      · left; exact ht
    rw [Store.val_put_other _ _ _ _ _ _ h1]
    have : ¬ (t1 = t ∧ k1 = key ∧ (s t).isSome) := fun h2 => h ⟨h2.1, h2.2.1⟩
    simp [this]

theorem Store.put_comm (s : Store) (t : String) (key : Int) (v : Option Int)
    (t1 : String) (k1 : Int) (w : Option Int) (h : t1 ≠ t ∨ k1 ≠ key) :
    (s.put t key v).put t1 k1 w = (s.put t1 k1 w).put t key v := by
  apply Store.ext_val
  · intro t2; simp [Store.put_isSome]
  · intro t2 k2
    simp only [Store.val_put, Store.put_isSome]
    by_cases h1 : t2 = t1 ∧ k2 = k1
    · obtain ⟨rfl, rfl⟩ := h1
      have h2 : ¬ (t2 = t ∧ k2 = key ∧ (s t).isSome) := by
        rintro ⟨a, b, -⟩
        rcases h with h | h
        · exact h a
        · exact h b
      simp [h2]
    · have h2 : ¬ (t2 = t1 ∧ k2 = k1 ∧ (s t1).isSome) := fun h3 => h1 ⟨h3.1, h3.2.1⟩
      simp [h2]

theorem Store.insert_eq_ite (s : Store) (t : String) (key val : Int) :
    s.insert t key val =
      if (s t).isSome then
        (if (s.val t key).isSome then .error .duplicateKey else .ok (s.put t key (some val)))
      else .error .noSuchTable := by
  unfold Store.insert Store.put Store.val
  cases hs : s t with
  | none => simp
  | some m => cases hk : m key <;> simp [hk]

theorem Store.update_eq_ite (s : Store) (t : String) (key val : Int) :
    s.update t key val =
      if (s t).isSome then
        (if (s.val t key).isSome then .ok (s.put t key (some val)) else .error .noSuchKey)
      else .error .noSuchTable := by
  unfold Store.update Store.put Store.val
  cases hs : s t with
  | none => simp
  | some m => cases hk : m key <;> simp [hk]

theorem Store.delete_eq_ite (s : Store) (t : String) (key : Int) :
    s.delete t key =
      if (s t).isSome then
        (if (s.val t key).isSome then .ok (s.put t key none) else .error .noSuchKey)
      else .error .noSuchTable := by
  unfold Store.delete Store.put Store.val
  cases hs : s t with
  | none => simp
  | some m => cases hk : m key <;> simp [hk]

/-- An edit that does not touch `key` of table `t` commutes with a write to
that key. -/
theorem applyEdit_put_comm (s : Store) (l : Log) (t : String) (key : Int) (v : Option Int)
    (h : editKey l ≠ some (t, key)) :
    applyEdit (s.put t key v) l = (applyEdit s l).map (fun u => u.put t key v) := by
  cases l with
  | editLog id t1 a k1 old new =>
    have hne : t1 ≠ t ∨ k1 ≠ key := by
      by_cases ht : t1 = t
      · right
        intro hk
        apply h
        simp [editKey, ht, hk]
      · left; exact ht
    have hne2 : t ≠ t1 ∨ key ≠ k1 := by
      rcases hne with h1 | h1
      · left; exact Ne.symm h1
      · right; exact Ne.symm h1
    have hv : (s.put t key v).val t1 k1 = s.val t1 k1 := Store.val_put_other _ _ _ _ _ _ hne
    cases a with
    | INSERT_ACTION =>
      simp only [applyEdit, Store.insert_eq_ite, Store.put_isSome, hv]
      split
      · split
        · rfl
        · simp [Except.map, Store.put_comm s t key v t1 k1 (some new) hne]
      · rfl
    | UPDATE_ACTION =>
      simp only [applyEdit, Store.update_eq_ite, Store.put_isSome, hv]
      split
      · split
        · simp [Except.map, Store.put_comm s t key v t1 k1 (some new) hne]
        · rfl
      · rfl
    | DELETE_ACTION =>
      simp only [applyEdit, Store.delete_eq_ite, Store.put_isSome, hv]
      split
      · split
        · simp [Except.map, Store.put_comm s t key v t1 k1 none hne]
        · rfl
      · rfl
  | tableLog a b => rfl
  | startLog a => rfl
  | commitLog a => rfl
  | checkpointLog a => rfl

theorem applyEdits_put_comm (K : List Log) (s : Store) (t : String) (key : Int)
    (v : Option Int) (h : ∀ l ∈ K, editKey l ≠ some (t, key)) :
    applyEdits (s.put t key v) K = (applyEdits s K).map (fun u => u.put t key v) := by
  induction K generalizing s with
  | nil => rfl
  | cons l rest ih =>
    simp only [applyEdits]
    rw [applyEdit_put_comm s l t key v (h l (List.mem_cons_self _ _))]
    cases hr : applyEdit s l with
    | error e => rfl
    | ok s1 =>
      simp only [Except.map]
      exact ih s1 (fun l1 hl1 => h l1 (List.mem_cons_of_mem _ hl1))

theorem applyEdit_frame (s s1 : Store) (l : Log) (h : applyEdit s l = .ok s1) :
    (∀ t, (s1 t).isSome = (s t).isSome) ∧
    (∀ t key, editKey l ≠ some (t, key) → s1.val t key = s.val t key) := by
  cases l with
  | editLog id t1 a k1 old new =>
    have hput : ∃ w, s1 = s.put t1 k1 w := by
      cases a with
      | INSERT_ACTION => exact ⟨_, Store.insert_ok h⟩
      | UPDATE_ACTION => exact ⟨_, Store.update_ok h⟩
      | DELETE_ACTION => exact ⟨_, Store.delete_ok h⟩
    obtain ⟨w, rfl⟩ := hput
    refine ⟨fun t => Store.put_isSome _ _ _ _ _, ?_⟩
    intro t key hk
    apply Store.val_put_other
    by_cases ht : t = t1
    · right
      intro hkk
      apply hk
      simp [editKey, ht, hkk]
    · left; exact ht
  | tableLog a b => simp only [applyEdit, Except.ok.injEq] at h; subst h; simp
  | startLog a => simp only [applyEdit, Except.ok.injEq] at h; subst h; simp
  | commitLog a => simp only [applyEdit, Except.ok.injEq] at h; subst h; simp
  | checkpointLog a => simp only [applyEdit, Except.ok.injEq] at h; subst h; simp

theorem applyEdits_frame (K : List Log) (s s1 : Store) (h : applyEdits s K = .ok s1) :
    (∀ t, (s1 t).isSome = (s t).isSome) ∧
    (∀ t key, (∀ l ∈ K, editKey l ≠ some (t, key)) → s1.val t key = s.val t key) := by
  induction K generalizing s with
  | nil =>
    simp only [applyEdits, Except.ok.injEq] at h
    subst h
    simp
  | cons l rest ih =>
    simp only [applyEdits] at h
    cases hr : applyEdit s l with
    | error e => simp [hr] at h
    | ok s2 =>
      simp only [hr] at h
      have h1 := applyEdit_frame s s2 l hr
      have h2 := ih s2 h
      refine ⟨fun t => (h2.1 t).trans (h1.1 t), ?_⟩
      intro t key hk
      rw [h2.2 t key (fun l1 hl1 => hk l1 (List.mem_cons_of_mem _ hl1))]
      exact h1.2 t key (hk l (List.mem_cons_self _ _))

/-! ## The undo loop of Recover -/

theorem undoLoop_empty (L : List Log) (rm : RecoveryManager) :
    undoLoop L ∅ rm = (none, ∅, rm) := by
  cases L with
  | nil => rfl
  | cons l rest => simp [undoLoop]

theorem undoLoop_append (L1 L2 : List Log) (txs : Finset Nat) (rm : RecoveryManager) :
    undoLoop (L1 ++ L2) txs rm =
      match undoLoop L1 txs rm with
      | (some e, txs1, rm1) => (some e, txs1, rm1)
      | (none, txs1, rm1) => undoLoop L2 txs1 rm1 := by
  induction L1 generalizing txs rm with
  | nil => rfl
  | cons l rest ih =>
    by_cases hempty : txs = ∅
    · subst hempty
      simp [undoLoop_empty]
    · cases l with
      | startLog id =>
        simp only [List.cons_append, undoLoop, hempty, if_false]
        by_cases hin : id ∈ txs
        · simp only [hin, if_true]
          cases hc : concurrency.Commit rm id with
          | mk e rm1 =>
            cases e with
            | some e => rfl
            | none => exact ih _ _
        · simp only [hin, if_false]
          exact ih _ _
      | editLog id t a key old new =>
        simp only [List.cons_append, undoLoop, hempty, if_false]
        by_cases hin : id ∈ txs
        · simp only [hin, if_true]
          cases hc : Undo rm (.editLog id t a key old new) with
          | mk e rm1 =>
            cases e with
            | some e => rfl
            | none => exact ih _ _
        · simp only [hin, if_false]
          exact ih _ _
      | tableLog a b =>
        simp only [List.cons_append, undoLoop, hempty, if_false]
        exact ih _ _
      | commitLog a =>
        simp only [List.cons_append, undoLoop, hempty, if_false]
        exact ih _ _
      | checkpointLog a =>
        simp only [List.cons_append, undoLoop, hempty, if_false]
        exact ih _ _

theorem undoLoop_single_other (l : Log) (txs : Finset Nat) (rm : RecoveryManager)
    (hs : ∀ id, l ≠ .startLog id) (he : editKey l = none) :
    undoLoop [l] txs rm = (none, txs, rm) := by
  by_cases hempty : txs = ∅
  · subst hempty; exact undoLoop_empty _ _
  · cases l with
    | startLog id => exact absurd rfl (hs id)
    | editLog id t a key old new => simp [editKey] at he
    | tableLog a b => simp [undoLoop, hempty]
    | commitLog a => simp [undoLoop, hempty]
    | checkpointLog a => simp [undoLoop, hempty]

/-! ## Facts about the run vocabulary -/

theorem hasCommit_append (id : Nat) (L1 L2 : List Log) :
    hasCommit id (L1 ++ L2) = (hasCommit id L1 || hasCommit id L2) := by
  induction L1 with
  | nil => simp [hasCommit]
  | cons l rest ih =>
    cases l <;> simp [hasCommit, ih, Bool.or_assoc]

theorem hasCommit_of_mem_keepCommitted (L : List Log) (l : Log) (h : l ∈ keepCommitted L) :
    ∃ id t a key old new, l = .editLog id t a key old new ∧ hasCommit id L = true := by
  induction L with
  | nil => simp [keepCommitted] at h
  | cons x rest ih =>
    cases x with
    | editLog id t a key old new =>
      simp only [keepCommitted] at h
      by_cases hc : hasCommit id rest = true
      · simp only [hc, if_true, List.mem_cons] at h
        rcases h with h | h
        · exact ⟨id, t, a, key, old, new, h, by simpa [hasCommit] using hc⟩
        · obtain ⟨i, t1, a1, k1, o1, n1, h1, h2⟩ := ih h
          exact ⟨i, t1, a1, k1, o1, n1, h1, by simpa [hasCommit] using h2⟩
      · simp only [hc] at h
        obtain ⟨i, t1, a1, k1, o1, n1, h1, h2⟩ := ih h
        exact ⟨i, t1, a1, k1, o1, n1, h1, by simpa [hasCommit] using h2⟩
    | tableLog a b =>
      obtain ⟨i, t1, a1, k1, o1, n1, h1, h2⟩ := ih (by simpa [keepCommitted] using h)
      exact ⟨i, t1, a1, k1, o1, n1, h1, by simpa [hasCommit] using h2⟩
    | startLog a =>
      obtain ⟨i, t1, a1, k1, o1, n1, h1, h2⟩ := ih (by simpa [keepCommitted] using h)
      exact ⟨i, t1, a1, k1, o1, n1, h1, by simpa [hasCommit] using h2⟩
    | commitLog a =>
      obtain ⟨i, t1, a1, k1, o1, n1, h1, h2⟩ := ih (by simpa [keepCommitted] using h)
      exact ⟨i, t1, a1, k1, o1, n1, h1, by simp [hasCommit, h2]⟩
    | checkpointLog a =>
      obtain ⟨i, t1, a1, k1, o1, n1, h1, h2⟩ := ih (by simpa [keepCommitted] using h)
      exact ⟨i, t1, a1, k1, o1, n1, h1, by simpa [hasCommit] using h2⟩

theorem mem_of_mem_keepCommitted (L : List Log) (l : Log) (h : l ∈ keepCommitted L) : l ∈ L := by
  induction L with
  | nil => simp [keepCommitted] at h
  | cons x rest ih =>
    cases x with
    | editLog id t a key old new =>
      simp only [keepCommitted] at h
      by_cases hc : hasCommit id rest = true
      · simp only [hc, if_true, List.mem_cons] at h
        rcases h with h | h
        · exact h ▸ List.mem_cons_self _ _
        · exact List.mem_cons_of_mem _ (ih h)
      · simp only [hc] at h
        exact List.mem_cons_of_mem _ (ih h)
    | tableLog a b => exact List.mem_cons_of_mem _ (ih (by simpa [keepCommitted] using h))
    | startLog a => exact List.mem_cons_of_mem _ (ih (by simpa [keepCommitted] using h))
    | commitLog a => exact List.mem_cons_of_mem _ (ih (by simpa [keepCommitted] using h))
    | checkpointLog a => exact List.mem_cons_of_mem _ (ih (by simpa [keepCommitted] using h))

/-- While a transaction that never commits holds a key, no edit of a
committed transaction touches that key. -/
theorem keepCommitted_quiet (id : Nat) (t : String) (key : Int) (L : List Log)
    (hq : quietUntilCommit id t key L = true) (hc : hasCommit id L = false) :
    ∀ l ∈ keepCommitted L, editKey l ≠ some (t, key) := by
  induction L with
  | nil => simp [keepCommitted]
  | cons x rest ih =>
    cases x with
    | editLog id1 t1 a k1 old new =>
      simp only [quietUntilCommit, Bool.and_eq_true, decide_eq_true_eq] at hq
      simp only [hasCommit] at hc
      intro l hl
      simp only [keepCommitted] at hl
      by_cases hc1 : hasCommit id1 rest = true
      · simp only [hc1, if_true, List.mem_cons] at hl
        rcases hl with hl | hl
        · subst hl
          intro hk
          simp only [editKey, Option.some.injEq, Prod.mk.injEq] at hk
          have := hq.1 hk
          subst this
          rw [hc] at hc1
          exact Bool.false_ne_true hc1
        · exact ih hq.2 hc l hl
      · simp only [hc1] at hl
        exact ih hq.2 hc l hl
    | commitLog id1 =>
      simp only [hasCommit, Bool.or_eq_false_iff, decide_eq_false_iff_not] at hc
      simp only [quietUntilCommit, Bool.or_eq_true, decide_eq_true_eq] at hq
      have hq1 : quietUntilCommit id t key rest = true := by
        rcases hq with hq | hq
        · exact absurd hq hc.1
        · exact hq
      simpa [keepCommitted] using ih hq1 hc.2
    | tableLog a b =>
      have h1 := ih (by simpa [quietUntilCommit] using hq) (by simpa [hasCommit] using hc)
      simpa [keepCommitted] using h1
    | startLog a =>
      have h1 := ih (by simpa [quietUntilCommit] using hq) (by simpa [hasCommit] using hc)
      simpa [keepCommitted] using h1
    | checkpointLog a =>
      have h1 := ih (by simpa [quietUntilCommit] using hq) (by simpa [hasCommit] using hc)
      simpa [keepCommitted] using h1

theorem applyEdit_of_recordsPrevious (s : Store) (id : Nat) (t : String) (a : Action)
    (key old new : Int) (rest : List Log)
    (h : recordsPrevious s (.editLog id t a key old new :: rest) = true) :
    applyEdit s (.editLog id t a key old new) = .ok (s.put t key (written a new)) ∧
    recordsPrevious (s.put t key (written a new)) rest = true ∧
    (s t).isSome ∧ s.val t key = before a old := by
  simp only [recordsPrevious, Bool.and_eq_true, decide_eq_true_eq] at h
  obtain ⟨⟨htab, hpre⟩, hrest⟩ := h
  refine ⟨?_, hrest, htab, hpre⟩
  cases a with
  | INSERT_ACTION => exact Store.insert_eq_put s t key new htab hpre
  | UPDATE_ACTION => exact Store.update_eq_put s t key new old hpre
  | DELETE_ACTION => exact Store.delete_eq_put s t key old hpre

theorem undoLoop_single_start (id : Nat) (txs : Finset Nat) (rm : RecoveryManager) :
    undoLoop [.startLog id] txs rm =
      if id ∈ txs then
        match concurrency.Commit rm id with
        | (some e, rm1) => (some e, txs, rm1)
        | (none, rm1) => (none, txs.erase id, rm1)
      else (none, txs, rm) := by
  by_cases hempty : txs = ∅
  · subst hempty; simp [undoLoop]
  · simp only [undoLoop, hempty, if_false]

theorem undoLoop_single_edit (id : Nat) (t : String) (a : Action) (key old new : Int)
    (txs : Finset Nat) (rm : RecoveryManager) :
    undoLoop [.editLog id t a key old new] txs rm =
      if id ∈ txs then
        match Undo rm (.editLog id t a key old new) with
        | (some e, rm1) => (some e, txs, rm1)
        | (none, rm1) => (none, txs, rm1)
      else (none, txs, rm) := by
  by_cases hempty : txs = ∅
  · subst hempty; simp [undoLoop]
  · simp only [undoLoop, hempty, if_false]

theorem tmCommit_ok (rm : RecoveryManager) (id : Nat) (h : id ∈ rm.tm) :
    concurrency.Commit rm id =
      (none, { rm with tm := rm.tm.erase id, calls := rm.calls ++ [.tmCommit id] }) := by
  simp [concurrency.Commit, h]

theorem tmBegin_ok (rm : RecoveryManager) (id : Nat) (h : id ∉ rm.tm) :
    concurrency.Begin rm id =
      (none, { rm with tm := insert id rm.tm, calls := rm.calls ++ [.tmBegin id] }) := by
  simp [concurrency.Begin, h]

/-- Undo of an edit of a transaction that never commits, on a store that holds
the committed later edits on top of the edit: the edit is taken back and the
committed later edits remain. -/
theorem Undo_loser_edit (s : Store) (rm1 : RecoveryManager) (id : Nat) (t : String)
    (a : Action) (key old new : Int) (K : List Log)
    (hK : ∀ l ∈ K, editKey l ≠ some (t, key))
    (ht : (s t).isSome)
    (hpre : s.val t key = before a old)
    (h2 : applyEdits (s.put t key (written a new)) K = .ok rm1.d) :
    ∃ rm2, Undo rm1 (.editLog id t a key old new) = (none, rm2) ∧
      applyEdits s K = .ok rm2.d ∧ rm2.tm = rm1.tm ∧
      rm2.calls = rm1.calls ++ (inverseOf (.editLog id t a key old new)).toList := by
  rw [applyEdits_put_comm K s t key _ hK] at h2
  cases hu : applyEdits s K with
  | error e => simp [hu, Except.map] at h2
  | ok u =>
    simp only [hu, Except.map, Except.ok.injEq] at h2
    have hfr := applyEdits_frame K s u hu
    have hut : (u t).isSome := by rw [hfr.1 t]; exact ht
    have huv : u.val t key = s.val t key := hfr.2 t key hK
    have hval : rm1.d.val t key = written a new := by
      rw [← h2]; exact Store.val_put_same _ _ _ _ hut
    have ht1 : (rm1.d t).isSome := by rw [← h2, Store.put_isSome]; exact hut
    cases a with
    | INSERT_ACTION =>
      simp only [written] at hval
      refine ⟨_, Undo_insert rm1 id t key old new new hval, ?_, rfl, rfl⟩
      simp only
      rw [← h2, Store.put_put]
      simp only [before] at hpre
      rw [← hpre, ← huv, Store.put_self]
    | UPDATE_ACTION =>
      simp only [written] at hval
      refine ⟨_, Undo_update rm1 id t key old new new hval, ?_, rfl, rfl⟩
      simp only
      rw [← h2, Store.put_put]
      simp only [before] at hpre
      rw [← hpre, ← huv, Store.put_self]
    | DELETE_ACTION =>
      simp only [written] at hval
      refine ⟨_, Undo_delete rm1 id t key old new ht1 hval, ?_, rfl, rfl⟩
      simp only
      rw [← h2, Store.put_put]
      simp only [before] at hpre
      rw [← hpre, ← huv, Store.put_self]

/-- The undo loop on the log of a run.  `L` is a list of Start/Edit/Commit
records that follows the protocol from the open set `A`, records real
previous values from store `s` and is isolated; the manager holds the store
of the end of the run and its transaction manager tracks the transactions
open at the end.  Then the loop, run over the reversed list, returns no
error and leaves the store that results from `s` by the committed edits
only; the transactions left in `txs` are those of `A` that never commit, and
the calls issued are `undoCalls L`. -/
theorem undoLoop_run (L : List Log) : ∀ (A : Finset Nat) (s : Store) (rm : RecoveryManager),
    wellFormed A L = true → recordsPrevious s L = true → isolated L = true →
    applyEdits s L = .ok rm.d → activeAfter A L ⊆ rm.tm →
    ∃ rm1, undoLoop L.reverse (activeAfter A L) rm =
        (none, A.filter (fun T => hasCommit T L = false), rm1) ∧
      applyEdits s (keepCommitted L) = .ok rm1.d ∧
      A.filter (fun T => hasCommit T L = false) ⊆ rm1.tm ∧
      rm1.calls = rm.calls ++ undoCalls L := by
  induction L with
  | nil =>
    intro A s rm _ _ _ hd htm
    refine ⟨rm, ?_, ?_, ?_, ?_⟩
    · simp [undoLoop, activeAfter, hasCommit]
    · simpa [keepCommitted] using hd
    · simpa [hasCommit, activeAfter] using htm
    · simp [undoCalls]
  | cons x rest ih =>
    intro A s rm hwf hprev hiso hd htm
    cases x with
    | startLog T =>
      simp only [wellFormed, Bool.and_eq_true, decide_eq_true_eq] at hwf
      obtain ⟨hT, hwf1⟩ := hwf
      have hprev1 : recordsPrevious s rest = true := by simpa [recordsPrevious] using hprev
      have hiso1 : isolated rest = true := by simpa [isolated] using hiso
      have hd1 : applyEdits s rest = .ok rm.d := by simpa [applyEdits, applyEdit] using hd
      obtain ⟨rm1, h1, h2, h3, h4c⟩ := ih (insert T A) s rm hwf1 hprev1 hiso1 hd1
        (by simpa [activeAfter] using htm)
      simp only [List.reverse_cons, activeAfter]
      rw [undoLoop_append, h1]
      simp only [undoLoop_single_start, hasCommit, keepCommitted]
      by_cases hc : hasCommit T rest = true
      · have hnot : T ∉ (insert T A).filter (fun T1 => hasCommit T1 rest = false) := by
          simp [hc]
        have heq : (insert T A).filter (fun T1 => hasCommit T1 rest = false) =
            A.filter (fun T1 => hasCommit T1 rest = false) := by
          ext a
          simp only [Finset.mem_filter, Finset.mem_insert]
          constructor
          · rintro ⟨h4 | h4, h5⟩
            · subst h4; rw [hc] at h5; exact absurd h5 (by simp)
            · exact ⟨h4, h5⟩
          · rintro ⟨h4, h5⟩; exact ⟨Or.inr h4, h5⟩
        simp only [hnot, if_false]
        exact ⟨rm1, by rw [heq], h2, by rw [← heq]; exact h3, by simp [undoCalls, hc, h4c]⟩
      · have hc1 : hasCommit T rest = false := by simpa using hc
        have hin : T ∈ (insert T A).filter (fun T1 => hasCommit T1 rest = false) := by
          simp [hc1]
        have heq : ((insert T A).filter (fun T1 => hasCommit T1 rest = false)).erase T =
            A.filter (fun T1 => hasCommit T1 rest = false) := by
          ext a
          simp only [Finset.mem_erase, Finset.mem_filter, Finset.mem_insert]
          constructor
          · rintro ⟨h4, h5 | h5, h6⟩
            · exact absurd h5 h4
            · exact ⟨h5, h6⟩
          · rintro ⟨h4, h5⟩
            exact ⟨fun h6 => hT (h6 ▸ h4), Or.inr h4, h5⟩
        simp only [hin, if_true]
        rw [tmCommit_ok rm1 T (h3 hin)]
        simp only
        refine ⟨{ rm1 with tm := rm1.tm.erase T, calls := rm1.calls ++ [.tmCommit T] },
          by rw [heq], h2, ?_, by simp [undoCalls, hc1, h4c]⟩
        rw [← heq]
        exact Finset.erase_subset_erase _ h3
    | commitLog T =>
      simp only [wellFormed, Bool.and_eq_true, decide_eq_true_eq] at hwf
      obtain ⟨hT, hwf1⟩ := hwf
      have hprev1 : recordsPrevious s rest = true := by simpa [recordsPrevious] using hprev
      have hiso1 : isolated rest = true := by simpa [isolated] using hiso
      have hd1 : applyEdits s rest = .ok rm.d := by simpa [applyEdits, applyEdit] using hd
      obtain ⟨rm1, h1, h2, h3, h4c⟩ := ih (A.erase T) s rm hwf1 hprev1 hiso1 hd1
        (by simpa [activeAfter] using htm)
      simp only [List.reverse_cons, activeAfter]
      rw [undoLoop_append, h1]
      simp only
      rw [undoLoop_single_other (.commitLog T) _ _ (by intro i h; cases h) rfl]
      have heq : (A.erase T).filter (fun T1 => hasCommit T1 rest = false) =
          A.filter (fun T1 => hasCommit T1 (.commitLog T :: rest) = false) := by
        ext a
        simp only [Finset.mem_filter, Finset.mem_erase, hasCommit, Bool.or_eq_false_iff,
          decide_eq_false_iff_not]
        constructor
        · rintro ⟨⟨h4, h5⟩, h6⟩; exact ⟨h5, fun h7 => h4 h7.symm, h6⟩
        · rintro ⟨h4, h5, h6⟩; exact ⟨⟨fun h7 => h5 h7.symm, h4⟩, h6⟩
      exact ⟨rm1, by rw [heq], by simpa [keepCommitted] using h2, by rw [← heq]; exact h3,
        by simp [undoCalls, h4c]⟩
    | editLog T t a key old new =>
      simp only [wellFormed, Bool.and_eq_true, decide_eq_true_eq] at hwf
      obtain ⟨hT, hwf1⟩ := hwf
      obtain ⟨happ, hprev1, htab, hpre⟩ := applyEdit_of_recordsPrevious s T t a key old new rest
        hprev
      simp only [isolated, Bool.and_eq_true] at hiso
      obtain ⟨hquiet, hiso1⟩ := hiso
      have hd1 : applyEdits (s.put t key (written a new)) rest = .ok rm.d := by
        simpa [applyEdits, happ] using hd
      obtain ⟨rm1, h1, h2, h3, h4c⟩ := ih A (s.put t key (written a new)) rm hwf1 hprev1 hiso1 hd1
        (by simpa [activeAfter] using htm)
      simp only [List.reverse_cons, activeAfter]
      rw [undoLoop_append, h1]
      simp only [undoLoop_single_edit, hasCommit, keepCommitted]
      by_cases hc : hasCommit T rest = true
      · have hnot : T ∉ A.filter (fun T1 => hasCommit T1 rest = false) := by
          simp [hc]
        simp only [hnot, if_false, hc, if_true]
        refine ⟨rm1, rfl, ?_, h3, by simp [undoCalls, hc, h4c]⟩
        simpa [applyEdits, happ] using h2
      · have hc1 : hasCommit T rest = false := by simpa using hc
        have hin : T ∈ A.filter (fun T1 => hasCommit T1 rest = false) := by
          simp [hc1, hT]
        simp only [hin, if_true, hc]
        obtain ⟨rm2, hu, hd2, htm2, hcalls2⟩ := Undo_loser_edit s rm1 T t a key old new
          (keepCommitted rest) (keepCommitted_quiet T t key rest hquiet hc1) htab hpre h2
        rw [hu]
        exact ⟨rm2, rfl, by simpa using hd2, by rw [htm2]; exact h3,
          by simp [undoCalls, hc1, hcalls2, h4c]⟩
    | tableLog a b => simp [wellFormed] at hwf
    | checkpointLog a => simp [wellFormed] at hwf

/-! ## The analysis and redo loops of Recover -/

theorem beginAll_ok (ids : List Nat) : ∀ (txs : Finset Nat) (rm : RecoveryManager),
    ids.Nodup → (∀ i ∈ ids, i ∉ rm.tm) →
    ∃ rm1, beginAll ids txs rm = (none, txs ∪ ids.toFinset, rm1) ∧ rm1.d = rm.d ∧
      rm1.tm = rm.tm ∪ ids.toFinset ∧ rm1.calls = rm.calls ++ ids.map Call.tmBegin := by
  induction ids with
  | nil => intro txs rm _ _; exact ⟨rm, by simp [beginAll], rfl, by simp, by simp⟩
  | cons id rest ih =>
    intro txs rm hnd hfresh
    rw [List.nodup_cons] at hnd
    have hid : id ∉ rm.tm := hfresh id (List.mem_cons_self _ _)
    simp only [beginAll, tmBegin_ok rm id hid]
    obtain ⟨rm1, h1, h2, h3, h4⟩ := ih (insert id txs)
      { rm with tm := insert id rm.tm, calls := rm.calls ++ [.tmBegin id] } hnd.2 (by
        intro i hi
        simp only [Finset.mem_insert, not_or]
        exact ⟨fun h => hnd.1 (h ▸ hi), hfresh i (List.mem_cons_of_mem _ hi)⟩)
    refine ⟨rm1, ?_, h2, ?_, ?_⟩
    · rw [h1]
      congr 2
      ext a
      simp only [Finset.mem_union, Finset.mem_insert, List.toFinset_cons]
      tauto
    · rw [h3]
      ext a
      simp only [Finset.mem_union, Finset.mem_insert, List.toFinset_cons]
      tauto
    · rw [h4]
      simp

theorem Redo_run_edit (rm : RecoveryManager) (id : Nat) (t : String) (a : Action)
    (key old new : Int) (ht : (rm.d t).isSome)
    (hdel : a = .DELETE_ACTION → rm.d.val t key = some old) :
    ∃ rm1, Redo rm (.editLog id t a key old new) = (none, rm1) ∧
      rm1.d = rm.d.put t key (written a new) ∧ rm1.tm = rm.tm := by
  cases a with
  | INSERT_ACTION =>
    have h := Redo_insert rm id t key old new ht
    cases hr : Redo rm (.editLog id t .INSERT_ACTION key old new) with
    | mk e rm1 =>
      rw [hr] at h
      simp only at h
      exact ⟨rm1, by rw [h.1], h.2.1, h.2.2⟩
  | UPDATE_ACTION =>
    have h := Redo_update rm id t key old new ht
    cases hr : Redo rm (.editLog id t .UPDATE_ACTION key old new) with
    | mk e rm1 =>
      rw [hr] at h
      simp only at h
      exact ⟨rm1, by rw [h.1], h.2.1, h.2.2⟩
  | DELETE_ACTION =>
    have h := Redo_delete_present rm id t key old new old (hdel rfl)
    cases hr : Redo rm (.editLog id t .DELETE_ACTION key old new) with
    | mk e rm1 =>
      rw [hr] at h
      simp only at h
      exact ⟨rm1, by rw [h.1], h.2.1, h.2.2⟩

/-- The redo loop on the records of a run.  `L` follows the protocol from the
open set `A` and records real previous values from store `s`, ending in store
`F`.  The manager's store has the tables of `s` and holds, under every key,
either the value of `s` or, where `s` has none, the value of `F`; its
transaction manager tracks `A`.  Then the loop returns no error and leaves
store `F`, with `txs` and the transaction manager at the set open after `L`. -/
theorem redoLoop_run (L : List Log) : ∀ (A : Finset Nat) (s F : Store) (rm : RecoveryManager)
    (pos i : Nat), wellFormed A L = true → recordsPrevious s L = true →
    applyEdits s L = .ok F → (∀ t, (rm.d t).isSome = (s t).isSome) →
    (∀ t key, rm.d.val t key = s.val t key ∨
      (s.val t key = none ∧ rm.d.val t key = F.val t key)) →
    rm.tm = A →
    ∃ rm1, redoLoop pos i L A rm = (none, activeAfter A L, rm1) ∧ rm1.d = F ∧
      rm1.tm = activeAfter A L := by
  induction L with
  | nil =>
    intro A s F rm pos i _ _ hF htab hval htm
    simp only [applyEdits, Except.ok.injEq] at hF
    subst hF
    refine ⟨rm, rfl, ?_, htm⟩
    apply Store.ext_val htab
    intro t key
    rcases hval t key with h | h
    · exact h
    · exact h.2
  | cons x rest ih =>
    intro A s F rm pos i hwf hprev hF htab hval htm
    cases x with
    | startLog T =>
      simp only [wellFormed, Bool.and_eq_true, decide_eq_true_eq] at hwf
      obtain ⟨hT, hwf1⟩ := hwf
      have hprev1 : recordsPrevious s rest = true := by simpa [recordsPrevious] using hprev
      have hF1 : applyEdits s rest = .ok F := by simpa [applyEdits, applyEdit] using hF
      simp only [redoLoop, tmBegin_ok rm T (by rw [htm]; exact hT), activeAfter]
      exact ih (insert T A) s F _ pos (i + 1) hwf1 hprev1 hF1 htab hval (by simp [htm])
    | commitLog T =>
      simp only [wellFormed, Bool.and_eq_true, decide_eq_true_eq] at hwf
      obtain ⟨hT, hwf1⟩ := hwf
      have hprev1 : recordsPrevious s rest = true := by simpa [recordsPrevious] using hprev
      have hF1 : applyEdits s rest = .ok F := by simpa [applyEdits, applyEdit] using hF
      simp only [redoLoop, tmCommit_ok rm T (by rw [htm]; exact hT), activeAfter]
      exact ih (A.erase T) s F _ pos (i + 1) hwf1 hprev1 hF1 htab hval (by simp [htm])
    | editLog T t a key old new =>
      simp only [wellFormed, Bool.and_eq_true, decide_eq_true_eq] at hwf
      obtain ⟨hT, hwf1⟩ := hwf
      obtain ⟨happ, hprev1, hst, hpre⟩ := applyEdit_of_recordsPrevious s T t a key old new rest
        hprev
      have hF1 : applyEdits (s.put t key (written a new)) rest = .ok F := by
        simpa [applyEdits, happ] using hF
      have hrt : (rm.d t).isSome := by rw [htab t]; exact hst
      have hdel : a = .DELETE_ACTION → rm.d.val t key = some old := by
        intro ha
        subst ha
        simp only [before] at hpre
        rcases hval t key with h | h
        · rw [h, hpre]
        · rw [hpre] at h; exact absurd h.1 (by simp)
      obtain ⟨rm1, hr, hd1, htm1⟩ := Redo_run_edit rm T t a key old new hrt hdel
      simp only [redoLoop, hr, activeAfter]
      apply ih A (s.put t key (written a new)) F rm1 pos (i + 1) hwf1 hprev1 hF1
      · intro t1; rw [hd1, Store.put_isSome, Store.put_isSome]; exact htab t1
      · intro t1 k1
        rw [hd1]
        by_cases h : t1 = t ∧ k1 = key
        · obtain ⟨rfl, rfl⟩ := h
          left
          rw [Store.val_put_same _ _ _ _ hrt, Store.val_put_same _ _ _ _ hst]
        · have h1 : t1 ≠ t ∨ k1 ≠ key := by
            by_cases ht : t1 = t
            · right; intro hk; exact h ⟨ht, hk⟩
            · left; exact ht
          rw [Store.val_put_other _ _ _ _ _ _ h1, Store.val_put_other _ _ _ _ _ _ h1]
          exact hval t1 k1
      · rw [htm1, htm]
    | tableLog a b => simp [wellFormed] at hwf
    | checkpointLog a => simp [wellFormed] at hwf

theorem Redo_exact (rm : RecoveryManager) (id : Nat) (t : String) (a : Action)
    (key old new : Int) (ht : (rm.d t).isSome) (hpre : rm.d.val t key = before a old) :
    Redo rm (.editLog id t a key old new) =
      (none, { rm with d := rm.d.put t key (written a new),
                       calls := rm.calls ++ (forwardOf (.editLog id t a key old new)).toList }) := by
  cases a with
  | INSERT_ACTION =>
    simp [Redo, db.HandleInsert, Store.insert_eq_put rm.d t key new ht hpre, engineCall_ok,
      written, forwardOf]
  | UPDATE_ACTION =>
    simp [Redo, db.HandleUpdate, Store.update_eq_put rm.d t key new old hpre, engineCall_ok,
      written, forwardOf]
  | DELETE_ACTION =>
    simp [Redo, db.HandleDelete, Store.delete_eq_put rm.d t key old hpre, engineCall_ok,
      written, forwardOf]

/-- The redo loop replaying the records of a run on the store the run
started from: no fallback is taken, the calls issued are `redoCalls L`. -/
theorem redoLoop_replay (L : List Log) : ∀ (A : Finset Nat) (s F : Store)
    (rm : RecoveryManager) (pos i : Nat), wellFormed A L = true → recordsPrevious s L = true →
    applyEdits s L = .ok F → rm.d = s → rm.tm = A →
    ∃ rm1, redoLoop pos i L A rm = (none, activeAfter A L, rm1) ∧ rm1.d = F ∧
      rm1.tm = activeAfter A L ∧ rm1.calls = rm.calls ++ redoCalls L := by
  induction L with
  | nil =>
    intro A s F rm pos i _ _ hF hd htm
    simp only [applyEdits, Except.ok.injEq] at hF
    subst hF
    exact ⟨rm, rfl, hd, htm, by simp [redoCalls]⟩
  | cons x rest ih =>
    intro A s F rm pos i hwf hprev hF hd htm
    cases x with
    | startLog T =>
      simp only [wellFormed, Bool.and_eq_true, decide_eq_true_eq] at hwf
      obtain ⟨hT, hwf1⟩ := hwf
      have hprev1 : recordsPrevious s rest = true := by simpa [recordsPrevious] using hprev
      have hF1 : applyEdits s rest = .ok F := by simpa [applyEdits, applyEdit] using hF
      simp only [redoLoop, tmBegin_ok rm T (by rw [htm]; exact hT), activeAfter]
      obtain ⟨rm1, h1, h2, h3, h4⟩ := ih (insert T A) s F
        { rm with tm := insert T rm.tm, calls := rm.calls ++ [.tmBegin T] } pos (i + 1) hwf1
        hprev1 hF1 hd (by simp [htm])
      exact ⟨rm1, h1, h2, h3, by rw [h4]; simp [redoCalls]⟩
    | commitLog T =>
      simp only [wellFormed, Bool.and_eq_true, decide_eq_true_eq] at hwf
      obtain ⟨hT, hwf1⟩ := hwf
      have hprev1 : recordsPrevious s rest = true := by simpa [recordsPrevious] using hprev
      have hF1 : applyEdits s rest = .ok F := by simpa [applyEdits, applyEdit] using hF
      simp only [redoLoop, tmCommit_ok rm T (by rw [htm]; exact hT), activeAfter]
      obtain ⟨rm1, h1, h2, h3, h4⟩ := ih (A.erase T) s F
        { rm with tm := rm.tm.erase T, calls := rm.calls ++ [.tmCommit T] } pos (i + 1) hwf1
        hprev1 hF1 hd (by simp [htm])
      exact ⟨rm1, h1, h2, h3, by rw [h4]; simp [redoCalls]⟩
    | editLog T t a key old new =>
      simp only [wellFormed, Bool.and_eq_true, decide_eq_true_eq] at hwf
      obtain ⟨hT, hwf1⟩ := hwf
      obtain ⟨happ, hprev1, hst, hpre⟩ := applyEdit_of_recordsPrevious s T t a key old new rest
        hprev
      have hF1 : applyEdits (s.put t key (written a new)) rest = .ok F := by
        simpa [applyEdits, happ] using hF
      subst hd
      simp only [redoLoop, Redo_exact rm T t a key old new hst hpre, activeAfter]
      obtain ⟨rm1, h1, h2, h3, h4⟩ := ih A (rm.d.put t key (written a new)) F
        { rm with d := rm.d.put t key (written a new),
                  calls := rm.calls ++ (forwardOf (.editLog T t a key old new)).toList }
        pos (i + 1) hwf1 hprev1 hF1 rfl htm
      exact ⟨rm1, h1, h2, h3, by rw [h4]; simp [redoCalls]⟩
    | tableLog a b => simp [wellFormed] at hwf
    | checkpointLog a => simp [wellFormed] at hwf

theorem applyEdits_of_recordsPrevious (L : List Log) : ∀ (s : Store),
    recordsPrevious s L = true → ∃ F, applyEdits s L = .ok F := by
  induction L with
  | nil => intro s _; exact ⟨s, rfl⟩
  | cons x rest ih =>
    intro s h
    cases x with
    | editLog T t a key old new =>
      obtain ⟨happ, hprev1, -, -⟩ := applyEdit_of_recordsPrevious s T t a key old new rest h
      obtain ⟨F, hF⟩ := ih _ hprev1
      exact ⟨F, by simpa [applyEdits, happ] using hF⟩
    | startLog a =>
      obtain ⟨F, hF⟩ := ih s (by simpa [recordsPrevious] using h)
      exact ⟨F, by simpa [applyEdits, applyEdit] using hF⟩
    | commitLog a =>
      obtain ⟨F, hF⟩ := ih s (by simpa [recordsPrevious] using h)
      exact ⟨F, by simpa [applyEdits, applyEdit] using hF⟩
    | tableLog a b =>
      obtain ⟨F, hF⟩ := ih s (by simpa [recordsPrevious] using h)
      exact ⟨F, by simpa [applyEdits, applyEdit] using hF⟩
    | checkpointLog a =>
      obtain ⟨F, hF⟩ := ih s (by simpa [recordsPrevious] using h)
      exact ⟨F, by simpa [applyEdits, applyEdit] using hF⟩

/-! ## Durability -/

/-- C1, the failing case.  The single call `Edit(T1, tbl, Insert, 5, _, 100)`
without a preceding `Start(T1)` records the real previous value and is
isolated; transaction 1 has no CommitLog.  Recover, run on that log against
the store of the crash, returns no error and leaves key 5 at 100: it is not
the store without the edits of uncommitted transactions. -/
theorem recover_keeps_edit_without_start :
    recordsPrevious (tblStore (fun _ => none))
      [.editLog 1 "tbl" .INSERT_ACTION 5 0 100] = true ∧
    isolated [.editLog 1 "tbl" .INSERT_ACTION 5 0 100] = true ∧
    hasCommit 1 [.editLog 1 "tbl" .INSERT_ACTION 5 0 100] = false ∧
    applyEdits (tblStore (fun _ => none)) [.editLog 1 "tbl" .INSERT_ACTION 5 0 100] =
      .ok ((tblStore (fun _ => none)).put "tbl" 5 (some 100)) ∧
    (Recover (restarted ((tblStore (fun _ => none)).put "tbl" 5 (some 100))
        [.editLog 1 "tbl" .INSERT_ACTION 5 0 100])
      (.ok ([.editLog 1 "tbl" .INSERT_ACTION 5 0 100], 0))).1 = .returned none ∧
    (Recover (restarted ((tblStore (fun _ => none)).put "tbl" 5 (some 100))
        [.editLog 1 "tbl" .INSERT_ACTION 5 0 100])
      (.ok ([.editLog 1 "tbl" .INSERT_ACTION 5 0 100], 0))).2.2.d.val "tbl" 5 = some 100 ∧
    ¬ (applyEdits (tblStore (fun _ => none))
        (keepCommitted [.editLog 1 "tbl" .INSERT_ACTION 5 0 100]) =
      .ok (Recover (restarted ((tblStore (fun _ => none)).put "tbl" 5 (some 100))
          [.editLog 1 "tbl" .INSERT_ACTION 5 0 100])
        (.ok ([.editLog 1 "tbl" .INSERT_ACTION 5 0 100], 0))).2.2.d) := by
  refine ⟨by decide, by decide, by decide, rfl, by decide, by decide, ?_⟩
  intro h
  have h1 : (tblStore (fun _ => none)).val "tbl" 5 =
      (Recover (restarted ((tblStore (fun _ => none)).put "tbl" 5 (some 100))
          [.editLog 1 "tbl" .INSERT_ACTION 5 0 100])
        (.ok ([.editLog 1 "tbl" .INSERT_ACTION 5 0 100], 0))).2.2.d.val "tbl" 5 :=
    congrArg (fun s => s.val "tbl" 5) (Except.ok.inj h)
  revert h1
  decide

/-- C1 as amended: durability for runs that follow the write path's
protocol.  `L` is a non-empty list of Start/Edit/Commit records in which a
transaction is started only while it is not open and edits or commits only
while it is open, each edit records the key's real previous value, and no
transaction edits a key that another still-uncommitted transaction has
edited; the run starts from a store `s0` without keys.  Recover, run on that
log (no checkpoint, position 0) against the store of the crash with a fresh
transaction manager, returns no error and leaves the store that results from
`s0` by applying, in log order, exactly the edits of the committed
transactions. -/
theorem recover_durability (s0 : Store) (L : List Log) (rm : RecoveryManager)
    (hne : L ≠ []) (hwf : wellFormed ∅ L = true) (hprev : recordsPrevious s0 L = true)
    (hiso : isolated L = true) (hempty : ∀ t key, s0.val t key = none)
    (hd : applyEdits s0 L = .ok rm.d) (htm : rm.tm = ∅) :
    (Recover rm (.ok (L, 0))).1 = .returned none ∧
    applyEdits s0 (keepCommitted L) = .ok (Recover rm (.ok (L, 0))).2.2.d := by
  obtain ⟨rm1, hr, hd1, htm1⟩ := redoLoop_run L ∅ s0 rm.d rm 0 0 hwf hprev hd
    (fun t => (applyEdits_frame L s0 rm.d hd).1 t)
    (fun t key => Or.inr ⟨hempty t key, rfl⟩) htm
  obtain ⟨rm2, hu, hd2, -, -⟩ := undoLoop_run L ∅ s0 rm1 hwf hprev hiso (by rw [hd1]; exact hd)
    (by rw [htm1])
  cases L with
  | nil => exact absurd rfl hne
  | cons x rest =>
    cases x with
    | startLog T =>
      have hrec : Recover rm (.ok (.startLog T :: rest, 0)) = (.returned none,
          (∅ : Finset Nat).filter (fun T1 => hasCommit T1 (.startLog T :: rest) = false),
          rm2) := by
        simp only [Recover, List.get?_cons_zero, List.drop_zero, hr, hu]
      rw [hrec]
      exact ⟨rfl, hd2⟩
    | editLog T t a key old new => simp [wellFormed] at hwf
    | commitLog T => simp [wellFormed] at hwf
    | tableLog a b => simp [wellFormed] at hwf
    | checkpointLog a => simp [wellFormed] at hwf

/-- Witness of C1 as amended, on the two scenarios of the specification:
`Start(T1); Insert 5 -> 100` leaves key 5 absent after recovery, and
`Start(T1); Insert 5 -> 100; Commit(T1)` leaves key 5 at 100. -/
theorem recover_durability_witness :
    ((Recover (restarted ((tblStore (fun _ => none)).put "tbl" 5 (some 100))
        [.startLog 1, .editLog 1 "tbl" .INSERT_ACTION 5 0 100])
      (.ok ([.startLog 1, .editLog 1 "tbl" .INSERT_ACTION 5 0 100], 0))).1 = .returned none ∧
     applyEdits (tblStore (fun _ => none))
        (keepCommitted [.startLog 1, .editLog 1 "tbl" .INSERT_ACTION 5 0 100]) =
      .ok (Recover (restarted ((tblStore (fun _ => none)).put "tbl" 5 (some 100))
          [.startLog 1, .editLog 1 "tbl" .INSERT_ACTION 5 0 100])
        (.ok ([.startLog 1, .editLog 1 "tbl" .INSERT_ACTION 5 0 100], 0))).2.2.d) ∧
    (Recover (restarted ((tblStore (fun _ => none)).put "tbl" 5 (some 100))
        [.startLog 1, .editLog 1 "tbl" .INSERT_ACTION 5 0 100])
      (.ok ([.startLog 1, .editLog 1 "tbl" .INSERT_ACTION 5 0 100], 0))).2.2.d.val "tbl" 5
      = none ∧
    ((Recover (restarted ((tblStore (fun _ => none)).put "tbl" 5 (some 100))
        [.startLog 1, .editLog 1 "tbl" .INSERT_ACTION 5 0 100, .commitLog 1])
      (.ok ([.startLog 1, .editLog 1 "tbl" .INSERT_ACTION 5 0 100, .commitLog 1], 0))).1
      = .returned none ∧
     applyEdits (tblStore (fun _ => none))
        (keepCommitted [.startLog 1, .editLog 1 "tbl" .INSERT_ACTION 5 0 100, .commitLog 1]) =
      .ok (Recover (restarted ((tblStore (fun _ => none)).put "tbl" 5 (some 100))
          [.startLog 1, .editLog 1 "tbl" .INSERT_ACTION 5 0 100, .commitLog 1])
        (.ok ([.startLog 1, .editLog 1 "tbl" .INSERT_ACTION 5 0 100, .commitLog 1], 0))).2.2.d) ∧
    (Recover (restarted ((tblStore (fun _ => none)).put "tbl" 5 (some 100))
        [.startLog 1, .editLog 1 "tbl" .INSERT_ACTION 5 0 100, .commitLog 1])
      (.ok ([.startLog 1, .editLog 1 "tbl" .INSERT_ACTION 5 0 100, .commitLog 1], 0))).2.2.d.val
      "tbl" 5 = some 100 :=
  have hempty : ∀ t key, (tblStore (fun _ => none)).val t key = none := by
    intro t key
    unfold Store.val tblStore
    by_cases h : t = "tbl" <;> simp [h]
  ⟨recover_durability (tblStore (fun _ => none))
      [.startLog 1, .editLog 1 "tbl" .INSERT_ACTION 5 0 100]
      (restarted ((tblStore (fun _ => none)).put "tbl" 5 (some 100))
        [.startLog 1, .editLog 1 "tbl" .INSERT_ACTION 5 0 100])
      (by decide) (by decide) (by decide) (by decide) hempty rfl rfl,
   by decide,
   recover_durability (tblStore (fun _ => none))
      [.startLog 1, .editLog 1 "tbl" .INSERT_ACTION 5 0 100, .commitLog 1]
      (restarted ((tblStore (fun _ => none)).put "tbl" 5 (some 100))
        [.startLog 1, .editLog 1 "tbl" .INSERT_ACTION 5 0 100, .commitLog 1])
      (by decide) (by decide) (by decide) (by decide) hempty rfl rfl,
   by decide⟩

/-! ## Recovery from a checkpoint -/

theorem activeAfter_append (L1 L2 : List Log) : ∀ (A : Finset Nat),
    activeAfter A (L1 ++ L2) = activeAfter (activeAfter A L1) L2 := by
  induction L1 with
  | nil => intro A; rfl
  | cons x rest ih =>
    intro A
    cases x <;> simp only [List.cons_append, activeAfter] <;> exact ih _

theorem wellFormed_append (L1 L2 : List Log) : ∀ (A : Finset Nat),
    wellFormed A (L1 ++ L2) = true →
    wellFormed A L1 = true ∧ wellFormed (activeAfter A L1) L2 = true := by
  induction L1 with
  | nil => intro A h; exact ⟨rfl, h⟩
  | cons x rest ih =>
    intro A h
    cases x with
    | startLog T =>
      simp only [List.cons_append, wellFormed, Bool.and_eq_true, decide_eq_true_eq] at h ⊢
      exact ⟨⟨h.1, (ih _ h.2).1⟩, (ih _ h.2).2⟩
    | commitLog T =>
      simp only [List.cons_append, wellFormed, Bool.and_eq_true, decide_eq_true_eq] at h ⊢
      exact ⟨⟨h.1, (ih _ h.2).1⟩, (ih _ h.2).2⟩
    | editLog T t a key old new =>
      simp only [List.cons_append, wellFormed, Bool.and_eq_true, decide_eq_true_eq] at h ⊢
      exact ⟨⟨h.1, (ih _ h.2).1⟩, (ih _ h.2).2⟩
    | tableLog a b => simp [wellFormed] at h
    | checkpointLog a => simp [wellFormed] at h

theorem applyEdits_append (L1 L2 : List Log) : ∀ (s m : Store),
    applyEdits s L1 = .ok m → applyEdits s (L1 ++ L2) = applyEdits m L2 := by
  induction L1 with
  | nil =>
    intro s m h
    simp only [applyEdits, Except.ok.injEq] at h
    subst h
    rfl
  | cons x rest ih =>
    intro s m h
    simp only [List.cons_append, applyEdits] at h ⊢
    cases hx : applyEdit s x with
    | error e => simp [hx] at h
    | ok s1 =>
      simp only [hx] at h ⊢
      exact ih s1 m h

theorem recordsPrevious_append (L1 L2 : List Log) : ∀ (s m : Store),
    recordsPrevious s (L1 ++ L2) = true → applyEdits s L1 = .ok m →
    recordsPrevious s L1 = true ∧ recordsPrevious m L2 = true := by
  induction L1 with
  | nil =>
    intro s m h hm
    simp only [applyEdits, Except.ok.injEq] at hm
    subst hm
    exact ⟨rfl, h⟩
  | cons x rest ih =>
    intro s m h hm
    cases x with
    | editLog T t a key old new =>
      obtain ⟨happ, hprev1, htab, hpre⟩ :=
        applyEdit_of_recordsPrevious s T t a key old new (rest ++ L2) h
      have hm1 : applyEdits (s.put t key (written a new)) rest = .ok m := by
        simpa [applyEdits, happ] using hm
      have h2 := ih _ m hprev1 hm1
      refine ⟨?_, h2.2⟩
      simp only [recordsPrevious, Bool.and_eq_true, decide_eq_true_eq]
      exact ⟨⟨htab, hpre⟩, h2.1⟩
    | startLog a =>
      exact ih s m (by simpa [recordsPrevious] using h) (by simpa [applyEdits, applyEdit] using hm)
    | commitLog a =>
      exact ih s m (by simpa [recordsPrevious] using h) (by simpa [applyEdits, applyEdit] using hm)
    | tableLog a b =>
      exact ih s m (by simpa [recordsPrevious] using h) (by simpa [applyEdits, applyEdit] using hm)
    | checkpointLog a =>
      exact ih s m (by simpa [recordsPrevious] using h) (by simpa [applyEdits, applyEdit] using hm)

/-- The undo loop passes over a checkpoint record without any effect. -/
theorem undoLoop_skip_checkpoint (X Y : List Log) (ids : List Nat) (txs : Finset Nat)
    (rm : RecoveryManager) :
    undoLoop (X ++ .checkpointLog ids :: Y) txs rm = undoLoop (X ++ Y) txs rm := by
  rw [undoLoop_append, undoLoop_append]
  cases hx : undoLoop X txs rm with
  | mk e r =>
    obtain ⟨txs1, rm1⟩ := r
    cases e with
    | some e => rfl
    | none =>
      simp only
      have h := undoLoop_append [.checkpointLog ids] Y txs1 rm1
      rw [undoLoop_single_other (.checkpointLog ids) _ _ (by intro i h; cases h) rfl] at h
      exact h

theorem editedOnlyBy_mem (T : Nat) (t : String) (key : Int) (L : List Log)
    (h : editedOnlyBy T t key L = true) (id : Nat) (a : Action) (old new : Int)
    (hm : Log.editLog id t a key old new ∈ L) : id = T := by
  induction L with
  | nil => simp at hm
  | cons x rest ih =>
    cases x with
    | editLog id1 t1 a1 k1 o1 n1 =>
      simp only [editedOnlyBy, Bool.and_eq_true, decide_eq_true_eq] at h
      simp only [List.mem_cons] at hm
      rcases hm with hm | hm
      · injection hm with h1 h2 h3 h4 h5 h6
        subst h1 h2 h4
        exact h.1 ⟨rfl, rfl⟩
      · exact ih h.2 hm
    | startLog b =>
      exact ih (by simpa [editedOnlyBy] using h) (by simpa using hm)
    | commitLog b =>
      exact ih (by simpa [editedOnlyBy] using h) (by simpa using hm)
    | tableLog b c =>
      exact ih (by simpa [editedOnlyBy] using h) (by simpa using hm)
    | checkpointLog b =>
      exact ih (by simpa [editedOnlyBy] using h) (by simpa using hm)

/-- The committed edits of a log leave alone every key that is edited only by
a transaction without CommitLog. -/
theorem keepCommitted_editedOnlyBy (T : Nat) (t : String) (key : Int) (L : List Log)
    (h : editedOnlyBy T t key L = true) (hc : hasCommit T L = false) :
    ∀ l ∈ keepCommitted L, editKey l ≠ some (t, key) := by
  intro l hl hk
  obtain ⟨id, t1, a, k1, old, new, rfl, hcom⟩ := hasCommit_of_mem_keepCommitted L l hl
  simp only [editKey, Option.some.injEq, Prod.mk.injEq] at hk
  obtain ⟨rfl, rfl⟩ := hk
  have := editedOnlyBy_mem T t1 k1 L h id a old new (mem_of_mem_keepCommitted L _ hl)
  subst this
  rw [hc] at hcom
  exact Bool.false_ne_true hcom

/-- C2, the failing case.  Transaction 1 inserts key 5 and is started a second
time before the checkpoint that lists it; it never commits.  The log has the
form of the claim (1 is in the active list, has a StartLog before the
checkpoint and no CommitLog after it), key 5 is edited only by transaction 1
and was absent before it.  Recover, run against the store of the checkpoint,
returns no error having issued no undo at all: the undo pass closes
transaction 1 at its last StartLog and stops, and key 5 still holds 100. -/
theorem recover_stops_at_last_start :
    (Recover (restarted ((tblStore (fun _ => none)).put "tbl" 5 (some 100)) [])
      (.ok ([.startLog 1, .editLog 1 "tbl" .INSERT_ACTION 5 0 100, .startLog 1,
             .checkpointLog [1]], 3))).1 = .returned none ∧
    (Recover (restarted ((tblStore (fun _ => none)).put "tbl" 5 (some 100)) [])
      (.ok ([.startLog 1, .editLog 1 "tbl" .INSERT_ACTION 5 0 100, .startLog 1,
             .checkpointLog [1]], 3))).2.2.calls = [.tmBegin 1, .tmCommit 1] ∧
    (Recover (restarted ((tblStore (fun _ => none)).put "tbl" 5 (some 100)) [])
      (.ok ([.startLog 1, .editLog 1 "tbl" .INSERT_ACTION 5 0 100, .startLog 1,
             .checkpointLog [1]], 3))).2.2.d.val "tbl" 5 = some 100 ∧
    (tblStore (fun _ => none)).val "tbl" 5 = none ∧
    editedOnlyBy 1 "tbl" 5
      [.startLog 1, .editLog 1 "tbl" .INSERT_ACTION 5 0 100, .startLog 1] = true ∧
    hasCommit 1 [.startLog 1, .editLog 1 "tbl" .INSERT_ACTION 5 0 100, .startLog 1] = false := by
  refine ⟨by decide, by decide, by decide, by decide, by decide, by decide⟩

/-! ## Logs with table and checkpoint records -/

theorem protocolRecords_append (L1 L2 : List Log) :
    protocolRecords (L1 ++ L2) = protocolRecords L1 ++ protocolRecords L2 := by
  simp [protocolRecords]

theorem protocolRecords_reverse (L : List Log) :
    protocolRecords L.reverse = (protocolRecords L).reverse := by
  simp [protocolRecords]

theorem activeAfter_protocol (L : List Log) : ∀ (A : Finset Nat),
    activeAfter A (protocolRecords L) = activeAfter A L := by
  induction L with
  | nil => intro A; rfl
  | cons x rest ih =>
    intro A
    simp only [protocolRecords] at ih
    cases x <;> simp [protocolRecords, isProtocol, activeAfter, ih]

theorem hasCommit_protocol (T : Nat) (L : List Log) :
    hasCommit T (protocolRecords L) = hasCommit T L := by
  induction L with
  | nil => rfl
  | cons x rest ih =>
    simp only [protocolRecords] at ih
    cases x <;> simp [protocolRecords, isProtocol, hasCommit, ih]

theorem keepCommitted_protocol (L : List Log) :
    keepCommitted (protocolRecords L) = keepCommitted L := by
  induction L with
  | nil => rfl
  | cons x rest ih =>
    have hc := fun T => hasCommit_protocol T rest
    simp only [protocolRecords] at ih hc
    cases x <;> simp [protocolRecords, isProtocol, keepCommitted, ih, hc]

theorem undoCalls_protocol (L : List Log) :
    undoCalls (protocolRecords L) = undoCalls L := by
  induction L with
  | nil => rfl
  | cons x rest ih =>
    have hc := fun T => hasCommit_protocol T rest
    simp only [protocolRecords] at ih hc
    cases x <;> simp [protocolRecords, isProtocol, undoCalls, ih, hc]

theorem quietUntilCommit_protocol (T : Nat) (t : String) (key : Int) (L : List Log) :
    quietUntilCommit T t key (protocolRecords L) = quietUntilCommit T t key L := by
  induction L with
  | nil => rfl
  | cons x rest ih =>
    simp only [protocolRecords] at ih
    cases x <;> simp [protocolRecords, isProtocol, quietUntilCommit, ih]

theorem isolated_protocol (L : List Log) :
    isolated (protocolRecords L) = isolated L := by
  induction L with
  | nil => rfl
  | cons x rest ih =>
    have hq := fun T t key => quietUntilCommit_protocol T t key rest
    simp only [protocolRecords] at ih hq
    cases x <;> simp [protocolRecords, isProtocol, isolated, ih, hq]

theorem recordsPrevious_protocol (L : List Log) : ∀ (s : Store),
    recordsPrevious s (protocolRecords L) = recordsPrevious s L := by
  induction L with
  | nil => intro s; rfl
  | cons x rest ih =>
    intro s
    simp only [protocolRecords] at ih
    cases x <;> simp [protocolRecords, isProtocol, recordsPrevious, ih]

theorem applyEdits_protocol (L : List Log) : ∀ (s : Store),
    applyEdits s (protocolRecords L) = applyEdits s L := by
  induction L with
  | nil => intro s; rfl
  | cons x rest ih =>
    intro s
    simp only [protocolRecords] at ih
    cases x with
    | editLog T t a key old new =>
      simp only [protocolRecords, List.filter, isProtocol, applyEdits]
      cases applyEdit s (.editLog T t a key old new) with
      | error e => rfl
      | ok s1 => exact ih s1
    | startLog T => simpa [protocolRecords, isProtocol, applyEdits, applyEdit] using ih s
    | commitLog T => simpa [protocolRecords, isProtocol, applyEdits, applyEdit] using ih s
    | tableLog a b => simpa [protocolRecords, isProtocol, applyEdits, applyEdit] using ih s
    | checkpointLog a => simpa [protocolRecords, isProtocol, applyEdits, applyEdit] using ih s

theorem undoLoop_skip_head (l : Log) (rest : List Log) (txs : Finset Nat)
    (rm : RecoveryManager) (hl : isProtocol l = false) :
    undoLoop (l :: rest) txs rm = undoLoop rest txs rm := by
  by_cases h : txs = ∅
  · subst h
    rw [undoLoop_empty, undoLoop_empty]
  · cases l with
    | tableLog a b => simp [undoLoop, h]
    | checkpointLog a => simp [undoLoop, h]
    | startLog a => simp [isProtocol] at hl
    | editLog a b c d e f => simp [isProtocol] at hl
    | commitLog a => simp [isProtocol] at hl

theorem undoLoop_protocol (L : List Log) : ∀ (txs : Finset Nat) (rm : RecoveryManager),
    undoLoop (protocolRecords L) txs rm = undoLoop L txs rm := by
  induction L with
  | nil => intro txs rm; rfl
  | cons x rest ih =>
    intro txs rm
    simp only [protocolRecords] at ih
    cases x with
    | tableLog a b =>
      rw [undoLoop_skip_head (.tableLog a b) rest txs rm rfl]
      simpa [protocolRecords, isProtocol] using ih txs rm
    | checkpointLog a =>
      rw [undoLoop_skip_head (.checkpointLog a) rest txs rm rfl]
      simpa [protocolRecords, isProtocol] using ih txs rm
    | startLog T =>
      simp only [protocolRecords, List.filter, isProtocol]
      unfold undoLoop
      simp only [ih]
    | editLog T t a key old new =>
      simp only [protocolRecords, List.filter, isProtocol]
      unfold undoLoop
      simp only [ih]
    | commitLog T =>
      simp only [protocolRecords, List.filter, isProtocol]
      unfold undoLoop
      simp only [ih]

theorem Store.withTables_val (s : Store) (ts : List String) (t : String) (key : Int) :
    (s.withTables ts).val t key = s.val t key := by
  unfold Store.val Store.withTables
  cases s t with
  | some m => rfl
  | none =>
    by_cases h : t ∈ ts <;> simp [h]

theorem Store.withTables_isSome (s : Store) (ts : List String) (t : String)
    (h : (s t).isSome) : ((s.withTables ts) t).isSome := by
  unfold Store.withTables
  cases hs : s t with
  | some m => rfl
  | none => rw [hs] at h; simp at h

theorem Store.withTables_put (s : Store) (ts : List String) (t : String) (key : Int)
    (v : Option Int) (h : (s t).isSome) :
    (s.put t key v).withTables ts = (s.withTables ts).put t key v := by
  cases hs : s t with
  | none => rw [hs] at h; simp at h
  | some m =>
    funext t1
    simp only [Store.put, Store.withTables, hs, Store.setTable]
    by_cases h1 : t1 = t
    · simp [h1]
    · simp [h1]

theorem Store.withTables_create (s : Store) (ts : List String) (t : String)
    (h : s t = none) (ht : t ∈ ts) :
    (s.setTable t (fun _ => none)).withTables ts = s.withTables ts := by
  funext t1
  simp only [Store.withTables, Store.setTable]
  by_cases h1 : t1 = t
  · subst h1
    simp [h, ht]
  · simp [h1]

theorem Store.withTables_self (s : Store) (ts : List String)
    (h : ∀ t ∈ ts, (s t).isSome) : s.withTables ts = s := by
  funext t
  simp only [Store.withTables]
  cases hs : s t with
  | some m => rfl
  | none =>
    by_cases ht : t ∈ ts
    · have := h t ht
      rw [hs] at this
      simp at this
    · simp [ht]

theorem applyEdit_real (s : Store) (T : Nat) (t : String) (a : Action) (key old new : Int)
    (htab : (s t).isSome) (hpre : s.val t key = before a old) :
    applyEdit s (.editLog T t a key old new) = .ok (s.put t key (written a new)) := by
  cases a with
  | INSERT_ACTION => exact Store.insert_eq_put s t key new htab hpre
  | UPDATE_ACTION => exact Store.update_eq_put s t key new old hpre
  | DELETE_ACTION => exact Store.delete_eq_put s t key old hpre

theorem applyRecords_append (L1 L2 : List Log) : ∀ (s m : Store),
    applyRecords s L1 = .ok m → applyRecords s (L1 ++ L2) = applyRecords m L2 := by
  induction L1 with
  | nil =>
    intro s m h
    simp only [applyRecords, Except.ok.injEq] at h
    subst h
    rfl
  | cons x rest ih =>
    intro s m h
    simp only [List.cons_append, applyRecords] at h ⊢
    cases hx : applyRecord s x with
    | error e => rw [hx] at h; simp at h
    | ok s1 =>
      rw [hx] at h
      exact ih s1 m h

/-- The records of a run can be executed: the store after them exists, keeps
every table of the start store and has every table the run creates. -/
theorem applyRecords_of_recordsRun (L : List Log) : ∀ (s : Store),
    recordsRun s L = true →
    ∃ F, applyRecords s L = .ok F ∧ (∀ t, (s t).isSome → (F t).isSome) ∧
      ∀ t ∈ tablesOf L, (F t).isSome := by
  induction L with
  | nil => intro s _; exact ⟨s, rfl, fun _ h => h, by simp [tablesOf]⟩
  | cons x rest ih =>
    intro s h
    cases x with
    | tableLog a b =>
      simp only [recordsRun, Bool.and_eq_true, Option.isNone_iff_eq_none] at h
      obtain ⟨hb, hrest⟩ := h
      obtain ⟨F, hF, hkeep, hnew⟩ := ih _ hrest
      refine ⟨F, ?_, ?_, ?_⟩
      · simpa [applyRecords, applyRecord, Store.createTable, hb] using hF
      · intro t ht
        apply hkeep
        simp only [Store.setTable]
        by_cases h1 : t = b
        · simp [h1]
        · simpa [h1] using ht
      · intro t ht
        simp only [tablesOf, List.mem_cons] at ht
        rcases ht with h1 | h1
        · apply hkeep
          simp [Store.setTable, h1]
        · exact hnew t h1
    | editLog T t a key old new =>
      simp only [recordsRun, Bool.and_eq_true, decide_eq_true_eq] at h
      obtain ⟨⟨htab, hpre⟩, hrest⟩ := h
      obtain ⟨F, hF, hkeep, hnew⟩ := ih _ hrest
      refine ⟨F, ?_, ?_, ?_⟩
      · simpa [applyRecords, applyRecord, applyEdit_real s T t a key old new htab hpre] using hF
      · intro t1 ht1
        apply hkeep
        rw [Store.put_isSome]
        exact ht1
      · simpa [tablesOf] using hnew
    | startLog a =>
      obtain ⟨F, hF, hkeep, hnew⟩ := ih s (by simpa [recordsRun] using h)
      exact ⟨F, by simpa [applyRecords, applyRecord, applyEdit] using hF, hkeep,
        by simpa [tablesOf] using hnew⟩
    | commitLog a =>
      obtain ⟨F, hF, hkeep, hnew⟩ := ih s (by simpa [recordsRun] using h)
      exact ⟨F, by simpa [applyRecords, applyRecord, applyEdit] using hF, hkeep,
        by simpa [tablesOf] using hnew⟩
    | checkpointLog a =>
      obtain ⟨F, hF, hkeep, hnew⟩ := ih s (by simpa [recordsRun] using h)
      exact ⟨F, by simpa [applyRecords, applyRecord, applyEdit] using hF, hkeep,
        by simpa [tablesOf] using hnew⟩

theorem recordsRun_append (L1 L2 : List Log) : ∀ (s m : Store),
    recordsRun s (L1 ++ L2) = true → applyRecords s L1 = .ok m →
    recordsRun s L1 = true ∧ recordsRun m L2 = true := by
  induction L1 with
  | nil =>
    intro s m h hm
    simp only [applyRecords, Except.ok.injEq] at hm
    subst hm
    exact ⟨rfl, h⟩
  | cons x rest ih =>
    intro s m h hm
    cases x with
    | tableLog a b =>
      simp only [List.cons_append, recordsRun, Bool.and_eq_true,
        Option.isNone_iff_eq_none] at h ⊢
      obtain ⟨hb, hrest⟩ := h
      have hm1 : applyRecords (s.setTable b (fun _ => none)) rest = .ok m := by
        simpa [applyRecords, applyRecord, Store.createTable, hb] using hm
      obtain ⟨h1, h2⟩ := ih _ m hrest hm1
      exact ⟨⟨hb, h1⟩, h2⟩
    | editLog T t a key old new =>
      simp only [List.cons_append, recordsRun, Bool.and_eq_true, decide_eq_true_eq] at h ⊢
      obtain ⟨⟨htab, hpre⟩, hrest⟩ := h
      have hm1 : applyRecords (s.put t key (written a new)) rest = .ok m := by
        simpa [applyRecords, applyRecord, applyEdit_real s T t a key old new htab hpre] using hm
      obtain ⟨h1, h2⟩ := ih _ m hrest hm1
      exact ⟨⟨⟨htab, hpre⟩, h1⟩, h2⟩
    | startLog a =>
      exact ih s m (by simpa [recordsRun] using h)
        (by simpa [applyRecords, applyRecord, applyEdit] using hm)
    | commitLog a =>
      exact ih s m (by simpa [recordsRun] using h)
        (by simpa [applyRecords, applyRecord, applyEdit] using hm)
    | checkpointLog a =>
      exact ih s m (by simpa [recordsRun] using h)
        (by simpa [applyRecords, applyRecord, applyEdit] using hm)

/-- A run with table records, seen from the store that has the run's tables
from the start: the edits record real previous values there as well, and
applying the edits alone gives the store of the run. -/
theorem recordsPrevious_withTables (L : List Log) : ∀ (s F : Store) (ts : List String),
    recordsRun s L = true → applyRecords s L = .ok F → (∀ t ∈ tablesOf L, t ∈ ts) →
    recordsPrevious (s.withTables ts) L = true ∧
      applyEdits (s.withTables ts) L = .ok (F.withTables ts) := by
  induction L with
  | nil =>
    intro s F ts _ hF _
    simp only [applyRecords, Except.ok.injEq] at hF
    subst hF
    exact ⟨rfl, rfl⟩
  | cons x rest ih =>
    intro s F ts h hF hts
    cases x with
    | tableLog a b =>
      simp only [recordsRun, Bool.and_eq_true, Option.isNone_iff_eq_none] at h
      obtain ⟨hb, hrest⟩ := h
      have hF1 : applyRecords (s.setTable b (fun _ => none)) rest = .ok F := by
        simpa [applyRecords, applyRecord, Store.createTable, hb] using hF
      have hbts : b ∈ ts := hts b (by simp [tablesOf])
      obtain ⟨h1, h2⟩ := ih _ F ts hrest hF1
        (fun t ht => hts t (by simp [tablesOf, ht]))
      rw [Store.withTables_create s ts b hb hbts] at h1 h2
      exact ⟨by simpa [recordsPrevious] using h1, by simpa [applyEdits, applyEdit] using h2⟩
    | editLog T t a key old new =>
      simp only [recordsRun, Bool.and_eq_true, decide_eq_true_eq] at h
      obtain ⟨⟨htab, hpre⟩, hrest⟩ := h
      have hF1 : applyRecords (s.put t key (written a new)) rest = .ok F := by
        simpa [applyRecords, applyRecord, applyEdit_real s T t a key old new htab hpre] using hF
      obtain ⟨h1, h2⟩ := ih _ F ts hrest hF1 (fun t1 ht => hts t1 (by simpa [tablesOf] using ht))
      rw [Store.withTables_put s ts t key _ htab] at h1 h2
      have htab1 := Store.withTables_isSome s ts t htab
      have hpre1 : (s.withTables ts).val t key = before a old := by
        rw [Store.withTables_val]; exact hpre
      refine ⟨?_, ?_⟩
      · simp only [recordsPrevious, Bool.and_eq_true, decide_eq_true_eq]
        exact ⟨⟨htab1, hpre1⟩, h1⟩
      · simp only [applyEdits, applyEdit_real _ T t a key old new htab1 hpre1]
        exact h2
    | startLog a =>
      obtain ⟨h1, h2⟩ := ih s F ts (by simpa [recordsRun] using h)
        (by simpa [applyRecords, applyRecord, applyEdit] using hF)
        (fun t ht => hts t (by simpa [tablesOf] using ht))
      exact ⟨by simpa [recordsPrevious] using h1, by simpa [applyEdits, applyEdit] using h2⟩
    | commitLog a =>
      obtain ⟨h1, h2⟩ := ih s F ts (by simpa [recordsRun] using h)
        (by simpa [applyRecords, applyRecord, applyEdit] using hF)
        (fun t ht => hts t (by simpa [tablesOf] using ht))
      exact ⟨by simpa [recordsPrevious] using h1, by simpa [applyEdits, applyEdit] using h2⟩
    | checkpointLog a =>
      obtain ⟨h1, h2⟩ := ih s F ts (by simpa [recordsRun] using h)
        (by simpa [applyRecords, applyRecord, applyEdit] using hF)
        (fun t ht => hts t (by simpa [tablesOf] using ht))
      exact ⟨by simpa [recordsPrevious] using h1, by simpa [applyEdits, applyEdit] using h2⟩

/-- The redo loop replaying the records of a run, table records included, on
the store the records were first applied to: every table is created, no
fallback is taken, the calls issued are `replayCalls L`. -/
theorem redoLoop_replay_tables (L : List Log) : ∀ (A : Finset Nat) (s F : Store)
    (rm : RecoveryManager) (pos i : Nat), wellFormed A (protocolRecords L) = true →
    (∀ ids, Log.checkpointLog ids ∉ L) → recordsRun s L = true →
    applyRecords s L = .ok F → rm.d = s → rm.tm = A →
    ∃ rm1, redoLoop pos i L A rm = (none, activeAfter A L, rm1) ∧ rm1.d = F ∧
      rm1.tm = activeAfter A L ∧ rm1.calls = rm.calls ++ replayCalls L := by
  induction L with
  | nil =>
    intro A s F rm pos i _ _ _ hF hd htm
    simp only [applyRecords, Except.ok.injEq] at hF
    subst hF
    exact ⟨rm, rfl, hd, htm, by simp [replayCalls]⟩
  | cons x rest ih =>
    intro A s F rm pos i hwf hcp hrun hF hd htm
    have hcp1 : ∀ ids, Log.checkpointLog ids ∉ rest :=
      fun ids hm => hcp ids (List.mem_cons_of_mem _ hm)
    simp only [protocolRecords] at ih
    cases x with
    | startLog T =>
      simp only [protocolRecords, List.filter, isProtocol, wellFormed, Bool.and_eq_true,
        decide_eq_true_eq] at hwf
      obtain ⟨hT, hwf1⟩ := hwf
      have hrun1 : recordsRun s rest = true := by simpa [recordsRun] using hrun
      have hF1 : applyRecords s rest = .ok F := by
        simpa [applyRecords, applyRecord, applyEdit] using hF
      simp only [redoLoop, tmBegin_ok rm T (by rw [htm]; exact hT), activeAfter]
      obtain ⟨rm1, h1, h2, h3, h4⟩ := ih (insert T A) s F
        { rm with tm := insert T rm.tm, calls := rm.calls ++ [.tmBegin T] } pos (i + 1) hwf1
        hcp1 hrun1 hF1 hd (by simp [htm])
      exact ⟨rm1, h1, h2, h3, by rw [h4]; simp [replayCalls]⟩
    | commitLog T =>
      simp only [protocolRecords, List.filter, isProtocol, wellFormed, Bool.and_eq_true,
        decide_eq_true_eq] at hwf
      obtain ⟨hT, hwf1⟩ := hwf
      have hrun1 : recordsRun s rest = true := by simpa [recordsRun] using hrun
      have hF1 : applyRecords s rest = .ok F := by
        simpa [applyRecords, applyRecord, applyEdit] using hF
      simp only [redoLoop, tmCommit_ok rm T (by rw [htm]; exact hT), activeAfter]
      obtain ⟨rm1, h1, h2, h3, h4⟩ := ih (A.erase T) s F
        { rm with tm := rm.tm.erase T, calls := rm.calls ++ [.tmCommit T] } pos (i + 1) hwf1
        hcp1 hrun1 hF1 hd (by simp [htm])
      exact ⟨rm1, h1, h2, h3, by rw [h4]; simp [replayCalls]⟩
    | editLog T t a key old new =>
      simp only [protocolRecords, List.filter, isProtocol, wellFormed, Bool.and_eq_true,
        decide_eq_true_eq] at hwf
      obtain ⟨hT, hwf1⟩ := hwf
      simp only [recordsRun, Bool.and_eq_true, decide_eq_true_eq] at hrun
      obtain ⟨⟨hst, hpre⟩, hrun1⟩ := hrun
      have hF1 : applyRecords (s.put t key (written a new)) rest = .ok F := by
        simpa [applyRecords, applyRecord, applyEdit_real s T t a key old new hst hpre] using hF
      subst hd
      simp only [redoLoop, Redo_exact rm T t a key old new hst hpre, activeAfter]
      obtain ⟨rm1, h1, h2, h3, h4⟩ := ih A (rm.d.put t key (written a new)) F
        { rm with d := rm.d.put t key (written a new),
                  calls := rm.calls ++ (forwardOf (.editLog T t a key old new)).toList }
        pos (i + 1) hwf1 hcp1 hrun1 hF1 rfl htm
      exact ⟨rm1, h1, h2, h3, by rw [h4]; simp [replayCalls]⟩
    | tableLog a b =>
      have hwf1 : wellFormed A (List.filter isProtocol rest) = true := by
        simpa [protocolRecords, isProtocol] using hwf
      simp only [recordsRun, Bool.and_eq_true, Option.isNone_iff_eq_none] at hrun
      obtain ⟨hb, hrun1⟩ := hrun
      have hF1 : applyRecords (s.setTable b (fun _ => none)) rest = .ok F := by
        simpa [applyRecords, applyRecord, Store.createTable, hb] using hF
      subst hd
      simp only [redoLoop, Redo, db.HandleCreateTable, Store.createTable, hb, engineCall,
        activeAfter]
      obtain ⟨rm1, h1, h2, h3, h4⟩ := ih A (rm.d.setTable b (fun _ => none)) F
        { rm with d := rm.d.setTable b (fun _ => none),
                  calls := rm.calls ++ [.createTable a b] }
        pos (i + 1) hwf1 hcp1 hrun1 hF1 rfl htm
      exact ⟨rm1, h1, h2, h3, by rw [h4]; simp [replayCalls]⟩
    | checkpointLog a =>
      exact absurd (List.mem_cons_self _ _) (hcp a)

theorem checkpoint_replay_core (s0 : Store) (L1 L2 : List Log) (active : List Nat)
    (rm : RecoveryManager)
    (hwf : wellFormed ∅ (protocolRecords (L1 ++ L2)) = true)
    (hcp : ∀ ids, Log.checkpointLog ids ∉ L2)
    (hrun : recordsRun s0 (L1 ++ L2) = true)
    (hiso : isolated (L1 ++ L2) = true)
    (hnd : active.Nodup) (hact : active.toFinset = activeAfter ∅ L1)
    (hd : applyRecords s0 L1 = .ok rm.d) (htm : rm.tm = ∅) :
    ∃ txs3 rm3,
      Recover rm (.ok (L1 ++ .checkpointLog active :: L2, L1.length)) =
        (.returned none, txs3, rm3) ∧
      applyEdits (s0.withTables (tablesOf (L1 ++ L2))) (keepCommitted (L1 ++ L2)) =
        .ok rm3.d ∧
      rm3.calls = rm.calls ++ active.map Call.tmBegin ++ replayCalls L2 ++
        undoCalls (L1 ++ L2) := by
  have hwfa := hwf
  rw [protocolRecords_append] at hwfa
  obtain ⟨-, hwf2⟩ := wellFormed_append (protocolRecords L1) (protocolRecords L2) ∅ hwfa
  rw [activeAfter_protocol] at hwf2
  obtain ⟨-, hrun2⟩ := recordsRun_append L1 L2 s0 rm.d hrun hd
  obtain ⟨F, hF, -, -⟩ := applyRecords_of_recordsRun L2 rm.d hrun2
  have hFull : applyRecords s0 (L1 ++ L2) = .ok F := by
    rw [applyRecords_append L1 L2 s0 rm.d hd]; exact hF
  obtain ⟨F1, hF1, -, hnew⟩ := applyRecords_of_recordsRun (L1 ++ L2) s0 hrun
  rw [hFull] at hF1
  simp only [Except.ok.injEq] at hF1
  subst hF1
  obtain ⟨hp, he⟩ := recordsPrevious_withTables (L1 ++ L2) s0 F (tablesOf (L1 ++ L2)) hrun
    hFull (fun _ h => h)
  rw [Store.withTables_self F _ hnew] at he
  obtain ⟨rm1, hb, hbd, hbtm, hbc⟩ := beginAll_ok active ∅ rm hnd
    (by intro i _; rw [htm]; simp)
  have htxs : (∅ : Finset Nat) ∪ active.toFinset = activeAfter ∅ L1 := by
    rw [Finset.empty_union, hact]
  rw [htxs] at hb
  obtain ⟨rm2, hr, hrd, hrtm, hrc⟩ := redoLoop_replay_tables L2 (activeAfter ∅ L1) rm.d F rm1
    L1.length (L1.length + 1) hwf2 hcp hrun2 hF hbd (by rw [hbtm, htm, htxs])
  rw [← activeAfter_append] at hr hrtm
  obtain ⟨rm3, hu, hud, -, huc⟩ := undoLoop_run (protocolRecords (L1 ++ L2)) ∅
    (s0.withTables (tablesOf (L1 ++ L2))) rm2 hwf
    (by rw [recordsPrevious_protocol]; exact hp)
    (by rw [isolated_protocol]; exact hiso)
    (by rw [applyEdits_protocol, hrd]; exact he)
    (by rw [activeAfter_protocol, hrtm])
  rw [activeAfter_protocol, ← protocolRecords_reverse, undoLoop_protocol] at hu
  simp only [hasCommit_protocol] at hu
  rw [keepCommitted_protocol] at hud
  rw [undoCalls_protocol] at huc
  have hget : (L1 ++ .checkpointLog active :: L2).get? L1.length =
      some (.checkpointLog active) := by
    rw [List.get?_eq_getElem?, List.getElem?_append_right (le_refl _)]
    simp
  have hdrop : (L1 ++ .checkpointLog active :: L2).drop L1.length =
      .checkpointLog active :: L2 := by
    simp
  have hrev : (L1 ++ .checkpointLog active :: L2).reverse =
      L2.reverse ++ .checkpointLog active :: L1.reverse := by
    simp
  have hrev2 : (L1 ++ L2).reverse = L2.reverse ++ L1.reverse := by simp
  rw [hrev2] at hu
  refine ⟨(∅ : Finset Nat).filter (fun T => hasCommit T (L1 ++ L2) = false), rm3, ?_, hud, ?_⟩
  · simp only [Recover, hget, hdrop, hb, redoLoop, if_true, hr, hrev, undoLoop_skip_checkpoint,
      hu]
  · rw [huc, hrc, hbc]

/-- C2 as amended: checkpoint correctness for logs written by a run that
follows the write path's protocol.  `L1` and `L2` are the records before and
after the checkpoint: `L1` may hold table records and earlier checkpoint
records, `L2` may hold table records and holds no checkpoint record (the
replay starts at the last one).  Over the Start/Edit/Commit records of
`L1 ++ L2` a transaction is started only while it is not open and edits or
commits only while it is open; executed from the store `s0` the run started
in, every table record creates a table that does not exist yet and every
edit records the key's real previous value; no transaction edits a key that
another still-uncommitted transaction has edited; the checkpoint record
lists, once each, the transactions open after `L1`.  Recover, run with replay
start at the checkpoint against the store as it stood there and a fresh
transaction manager, returns no error.  The calls it issues are: begin for
each listed transaction, the replay of `L2`, and then, going through the
whole log from its last record to its first, the inverse of every edit of an
uncommitted transaction (those before the checkpoint as well as those after
it) and the commit that closes the transaction at its StartLog.  It leaves
`s0` with the tables of the run and exactly the edits of the committed
transactions applied.  So for every listed transaction `T` without CommitLog,
each key edited only by `T` holds the value it had before the transaction. -/
theorem recover_from_checkpoint (s0 : Store) (L1 L2 : List Log) (active : List Nat)
    (rm : RecoveryManager)
    (hwf : wellFormed ∅ (protocolRecords (L1 ++ L2)) = true)
    (hcp : ∀ ids, Log.checkpointLog ids ∉ L2)
    (hrun : recordsRun s0 (L1 ++ L2) = true)
    (hiso : isolated (L1 ++ L2) = true)
    (hnd : active.Nodup) (hact : active.toFinset = activeAfter ∅ L1)
    (hd : applyRecords s0 L1 = .ok rm.d) (htm : rm.tm = ∅) :
    (Recover rm (.ok (L1 ++ .checkpointLog active :: L2, L1.length))).1 = .returned none ∧
    (Recover rm (.ok (L1 ++ .checkpointLog active :: L2, L1.length))).2.2.calls =
      rm.calls ++ active.map Call.tmBegin ++ replayCalls L2 ++ undoCalls (L1 ++ L2) ∧
    applyEdits (s0.withTables (tablesOf (L1 ++ L2))) (keepCommitted (L1 ++ L2)) =
      .ok (Recover rm (.ok (L1 ++ .checkpointLog active :: L2, L1.length))).2.2.d ∧
    ∀ T ∈ active, hasCommit T (L1 ++ L2) = false →
      ∀ t key, editedOnlyBy T t key (L1 ++ L2) = true →
        (Recover rm (.ok (L1 ++ .checkpointLog active :: L2, L1.length))).2.2.d.val t key =
          s0.val t key := by
  obtain ⟨txs3, rm3, hrec, hfin, hcalls⟩ :=
    checkpoint_replay_core s0 L1 L2 active rm hwf hcp hrun hiso hnd hact hd htm
  rw [hrec]
  refine ⟨rfl, hcalls, hfin, ?_⟩
  intro T _ hc t key honly
  rw [(applyEdits_frame _ _ rm3.d hfin).2 t key
    (keepCommitted_editedOnlyBy T t key (L1 ++ L2) honly hc)]
  exact Store.withTables_val s0 _ t key

/-- Witness of C2 as amended.  First the scenario of the specification, with
the table record of `tbl` at the head of the log and the empty store at the
start: key 5 committed with value 100 by transaction 2, checkpoint with
transaction 1 active, then `Edit(T1, Update, 5, 100 -> 200)` and a crash;
after Recover key 5 holds 100.  Second, a log with an earlier checkpoint
record before the replay start and a table record after it: transaction 1
inserts key 5, a first checkpoint is taken, it updates key 5, the second
checkpoint is the replay start, then table `t2` is created and transaction 1
inserts key 7 there.  Recover creates `t2`, redoes the insert, and undoes the
insert, the update and the insert before both checkpoints, in that order;
keys 5 and 7 are absent again. -/
theorem recover_from_checkpoint_witness :
    ((Recover (restarted ((tblStore (fun _ => none)).put "tbl" 5 (some 100)) [])
        (.ok ([.tableLog "btree" "tbl", .startLog 2, .editLog 2 "tbl" .INSERT_ACTION 5 0 100,
            .commitLog 2, .startLog 1]
          ++ .checkpointLog [1] :: [.editLog 1 "tbl" .UPDATE_ACTION 5 100 200], 5))).1
        = .returned none ∧
      (Recover (restarted ((tblStore (fun _ => none)).put "tbl" 5 (some 100)) [])
        (.ok ([.tableLog "btree" "tbl", .startLog 2, .editLog 2 "tbl" .INSERT_ACTION 5 0 100,
            .commitLog 2, .startLog 1]
          ++ .checkpointLog [1] :: [.editLog 1 "tbl" .UPDATE_ACTION 5 100 200], 5))).2.2.d.val
        "tbl" 5 = some 100) ∧
    ((Recover (restarted (((tblStore (fun _ => none)).put "tbl" 5 (some 100)).put
          "tbl" 5 (some 200)) [])
        (.ok ([.startLog 1, .editLog 1 "tbl" .INSERT_ACTION 5 0 100, .checkpointLog [1],
            .editLog 1 "tbl" .UPDATE_ACTION 5 100 200]
          ++ .checkpointLog [1] ::
            [.tableLog "btree" "t2", .editLog 1 "t2" .INSERT_ACTION 7 0 1], 4))).1
        = .returned none ∧
      (Recover (restarted (((tblStore (fun _ => none)).put "tbl" 5 (some 100)).put
          "tbl" 5 (some 200)) [])
        (.ok ([.startLog 1, .editLog 1 "tbl" .INSERT_ACTION 5 0 100, .checkpointLog [1],
            .editLog 1 "tbl" .UPDATE_ACTION 5 100 200]
          ++ .checkpointLog [1] ::
            [.tableLog "btree" "t2", .editLog 1 "t2" .INSERT_ACTION 7 0 1], 4))).2.2.calls
        = [.tmBegin 1, .createTable "btree" "t2", .insert "t2" 7 1, .delete "t2" 7,
           .update "tbl" 5 100, .delete "tbl" 5, .tmCommit 1] ∧
      (Recover (restarted (((tblStore (fun _ => none)).put "tbl" 5 (some 100)).put
          "tbl" 5 (some 200)) [])
        (.ok ([.startLog 1, .editLog 1 "tbl" .INSERT_ACTION 5 0 100, .checkpointLog [1],
            .editLog 1 "tbl" .UPDATE_ACTION 5 100 200]
          ++ .checkpointLog [1] ::
            [.tableLog "btree" "t2", .editLog 1 "t2" .INSERT_ACTION 7 0 1], 4))).2.2.d.val
        "tbl" 5 = (tblStore (fun _ => none)).val "tbl" 5 ∧
      (Recover (restarted (((tblStore (fun _ => none)).put "tbl" 5 (some 100)).put
          "tbl" 5 (some 200)) [])
        (.ok ([.startLog 1, .editLog 1 "tbl" .INSERT_ACTION 5 0 100, .checkpointLog [1],
            .editLog 1 "tbl" .UPDATE_ACTION 5 100 200]
          ++ .checkpointLog [1] ::
            [.tableLog "btree" "t2", .editLog 1 "t2" .INSERT_ACTION 7 0 1], 4))).2.2.d.val
        "t2" 7 = (tblStore (fun _ => none)).val "t2" 7) :=
  have h1 := recover_from_checkpoint (fun _ => none)
    [.tableLog "btree" "tbl", .startLog 2, .editLog 2 "tbl" .INSERT_ACTION 5 0 100,
      .commitLog 2, .startLog 1]
    [.editLog 1 "tbl" .UPDATE_ACTION 5 100 200] [1]
    (restarted ((tblStore (fun _ => none)).put "tbl" 5 (some 100)) [])
    (by decide) (by simp) (by decide) (by decide) (by decide) (by decide) rfl rfl
  have h2 := recover_from_checkpoint (tblStore (fun _ => none))
    [.startLog 1, .editLog 1 "tbl" .INSERT_ACTION 5 0 100, .checkpointLog [1],
      .editLog 1 "tbl" .UPDATE_ACTION 5 100 200]
    [.tableLog "btree" "t2", .editLog 1 "t2" .INSERT_ACTION 7 0 1] [1]
    (restarted (((tblStore (fun _ => none)).put "tbl" 5 (some 100)).put
      "tbl" 5 (some 200)) [])
    (by decide) (by simp) (by decide) (by decide) (by decide) (by decide) rfl rfl
  ⟨⟨h1.1, by decide⟩,
   ⟨h2.1, h2.2.1, h2.2.2.2 1 (by decide) (by decide) "tbl" 5 (by decide),
    h2.2.2.2 1 (by decide) (by decide) "t2" 7 (by decide)⟩⟩

/-! ## The write path -/

theorem lookup_stackSet_self (m : List (Nat × List Log)) (id : Nat) (logs : List Log) :
    (stackSet m id logs).lookup id = some logs := by
  simp [stackSet, List.lookup_cons]

theorem lookup_stackSet_other (m : List (Nat × List Log)) (id other : Nat) (logs : List Log)
    (hne : other ≠ id) : (stackSet m id logs).lookup other = m.lookup other := by
  have h1 : (other == id) = false := by simpa using hne
  simp only [stackSet, List.lookup_cons, h1]
  exact lookup_stackDelete_other m id other hne

theorem writeToBuffer_frame (rm : RecoveryManager) (l : Log) :
    (writeToBuffer rm l).2.d = rm.d ∧ (writeToBuffer rm l).2.tm = rm.tm ∧
    (writeToBuffer rm l).2.txStack = rm.txStack ∧ (writeToBuffer rm l).2.fdOk = rm.fdOk ∧
    (writeToBuffer rm l).2.calls = rm.calls ∧
    (writeToBuffer rm l).2.fd = (if rm.fdOk then rm.fd ++ [l] else rm.fd) ∧
    (writeToBuffer rm l).1 = (if rm.fdOk ∧ rm.syncOk then none else some .ioFailure) ∧
    (writeToBuffer rm l).2.syncOk = rm.syncOk := by
  unfold writeToBuffer
  split <;> simp_all

/-- C12. Write-path maintenance of the per-transaction log stack, for every
manager (so every stack map) and transaction id.  Start leaves the stack of
the id equal to its StartLog alone, Edit leaves it equal to the previous stack
with the new EditLog at the end, Commit removes the entry of the id; each
leaves the stack entry of every other id as it was and, on a log file that
accepts the write, appends exactly the one record of the matching kind. -/
theorem write_path_maintains_stacks (rm : RecoveryManager) (id : Nat) (table : String)
    (action : Action) (key oldval newval : Int) :
    (stackOf (Start rm id).txStack id = [.startLog id] ∧
      (∀ other, other ≠ id → (Start rm id).txStack.lookup other = rm.txStack.lookup other) ∧
      (Start rm id).fd = (if rm.fdOk then rm.fd ++ [.startLog id] else rm.fd)) ∧
    (stackOf (Edit rm id table action key oldval newval).txStack id =
        stackOf rm.txStack id ++ [.editLog id table action key oldval newval] ∧
      (∀ other, other ≠ id →
        (Edit rm id table action key oldval newval).txStack.lookup other =
          rm.txStack.lookup other) ∧
      (Edit rm id table action key oldval newval).fd =
        (if rm.fdOk then rm.fd ++ [.editLog id table action key oldval newval] else rm.fd)) ∧
    ((Commit rm id).txStack.lookup id = none ∧
      (∀ other, other ≠ id → (Commit rm id).txStack.lookup other = rm.txStack.lookup other) ∧
      (Commit rm id).fd = (if rm.fdOk then rm.fd ++ [.commitLog id] else rm.fd)) := by
  refine ⟨⟨?_, ?_, ?_⟩, ⟨?_, ?_, ?_⟩, ⟨?_, ?_, ?_⟩⟩
  · simp only [Start, stackOf, (writeToBuffer_frame _ _).2.2.1, lookup_stackSet_self]
    rfl
  · intro other hne
    simp only [Start, (writeToBuffer_frame _ _).2.2.1]
    exact lookup_stackSet_other _ _ _ _ hne
  · simp only [Start, (writeToBuffer_frame _ _).2.2.2.2.2.1]
  · simp only [Edit, stackOf, (writeToBuffer_frame _ _).2.2.1, lookup_stackSet_self]
    rfl
  · intro other hne
    simp only [Edit, (writeToBuffer_frame _ _).2.2.1]
    exact lookup_stackSet_other _ _ _ _ hne
  · simp only [Edit, (writeToBuffer_frame _ _).2.2.2.2.2.1]
  · rw [(Commit_frame rm id).2.2.1]
    exact lookup_stackDelete_self _ _
  · intro other hne
    rw [(Commit_frame rm id).2.2.1]
    exact lookup_stackDelete_other _ _ _ hne
  · exact (Commit_frame rm id).2.2.2.2

/-- C15, the failing case.  On the manager `live` with a log file whose
`Sync` fails, `writeToBuffer` returns the I/O error for the edit record, but
`Edit` hands back only the manager, with the log stacks and the file that the
same call leaves when the append succeeds: nothing tells the caller.  The same
for `Start`, `Commit` and `Table`; `Checkpoint` pushes its record on the
stack of transaction 2 and writes it.  With a file whose `WriteString` fails,
`writeToBuffer` again returns the error and `Start` and `Edit` again leave
the stacks of the successful call. -/
theorem write_path_drops_write_error :
    (writeToBuffer { live with syncOk := false } (.editLog 2 "tbl" .UPDATE_ACTION 9 1 2)).1
      = some .ioFailure ∧
    (Edit { live with syncOk := false } 2 "tbl" .UPDATE_ACTION 9 1 2).txStack =
      (Edit live 2 "tbl" .UPDATE_ACTION 9 1 2).txStack ∧
    (Edit { live with syncOk := false } 2 "tbl" .UPDATE_ACTION 9 1 2).fd =
      (Edit live 2 "tbl" .UPDATE_ACTION 9 1 2).fd ∧
    (Start { live with syncOk := false } 3).txStack = (Start live 3).txStack ∧
    (Start { live with syncOk := false } 3).fd = (Start live 3).fd ∧
    (Commit { live with syncOk := false } 2).txStack = (Commit live 2).txStack ∧
    (Commit { live with syncOk := false } 2).fd = (Commit live 2).fd ∧
    (Table { live with syncOk := false } "btree" "t2").fd = (Table live "btree" "t2").fd ∧
    (stackOf (Checkpoint { live with syncOk := false }).txStack 2).length =
      (stackOf live.txStack 2).length + 1 ∧
    (Checkpoint { live with syncOk := false }).fd.length = live.fd.length + 1 ∧
    (writeToBuffer { live with fdOk := false } (.startLog 3)).1 = some .ioFailure ∧
    (Start { live with fdOk := false } 3).txStack = (Start live 3).txStack ∧
    (Edit { live with fdOk := false } 2 "tbl" .UPDATE_ACTION 9 1 2).txStack =
      (Edit live 2 "tbl" .UPDATE_ACTION 9 1 2).txStack ∧
    stackOf (Edit { live with fdOk := false } 2 "tbl" .UPDATE_ACTION 9 1 2).txStack 2 =
      [.startLog 2, .editLog 2 "tbl" .INSERT_ACTION 9 0 1,
       .editLog 2 "tbl" .UPDATE_ACTION 9 1 2] := by
  refine ⟨by decide, by decide, by decide, by decide, by decide, by decide, by decide,
    by decide, by decide, by decide, by decide, by decide, by decide, by decide⟩

/-- C15 as amended.  When the write of the record fails, in `WriteString` or
in `Sync`, `writeToBuffer` returns the I/O error; each of Table, Edit, Start,
Commit and Checkpoint drops it.  The operation has no error result and
leaves the memory (database, transaction manager, log stacks with the change
of the operation made, call history) that the same call leaves on a file
that takes the write; for Checkpoint, whose record lists the ids in the
iteration order of the map: every stack has one checkpoint record pushed,
the same record on all, listing the ids of the stack map in some order. -/
theorem write_path_on_failed_write (rm : RecoveryManager)
    (hfail : rm.fdOk = false ∨ rm.syncOk = false)
    (id : Nat) (table : String) (action : Action) (key oldval newval : Int)
    (tblType tblName : String) (l : Log) :
    (writeToBuffer rm l).1 = some .ioFailure ∧
    sameMemory (Table rm tblType tblName)
      (Table { rm with fdOk := true, syncOk := true } tblType tblName) ∧
    sameMemory (Edit rm id table action key oldval newval)
      (Edit { rm with fdOk := true, syncOk := true } id table action key oldval newval) ∧
    sameMemory (Start rm id) (Start { rm with fdOk := true, syncOk := true } id) ∧
    sameMemory (Commit rm id) (Commit { rm with fdOk := true, syncOk := true } id) ∧
    ((Checkpoint rm).d = rm.d ∧ (Checkpoint rm).tm = rm.tm ∧
      (Checkpoint rm).calls = rm.calls ∧
      ∃ ids, ids.Perm (rm.txStack.map (fun p => p.1)) ∧
        (Checkpoint rm).txStack =
          rm.txStack.map (fun p => (p.1, p.2 ++ [.checkpointLog ids]))) := by
  refine ⟨?_, ?_, ?_, ?_, ?_, ?_, ?_, ?_, _, List.Perm.refl _, ?_⟩
  · rcases hfail with h | h
    · simp [writeToBuffer, h]
    · cases hw : rm.fdOk <;> simp [writeToBuffer, h, hw]
  all_goals
    try unfold sameMemory
    cases hw : rm.fdOk <;>
      simp [writeToBuffer, Table, Edit, Start, Commit, Checkpoint, hw]

/-- Witness of C15 as amended, on `live` with a log file whose `Sync` fails. -/
theorem write_path_on_failed_write_witness :
    (writeToBuffer { live with syncOk := false } (.startLog 3)).1 = some .ioFailure ∧
    sameMemory (Start { live with syncOk := false } 3) (Start live 3) :=
  have h := write_path_on_failed_write { live with syncOk := false } (Or.inr rfl) 3 "tbl"
    .INSERT_ACTION 0 0 0 "btree" "t2" (.startLog 3)
  ⟨h.1, h.2.2.2.1⟩

/-- C19, the code at the failing input.  On the empty record list with
position 0, the read of `logs[checkpointPos]` is out of range: the run ends
there instead of returning, with the manager untouched. -/
theorem recover_empty_log_out_of_range (rm : RecoveryManager) :
    Recover rm (.ok ([], 0)) = (.indexOutOfRange, ∅, rm) := by
  rfl

/-! ## Recover on arbitrary record lists -/

theorem redoLoop_later_checkpoint (pos : Nat) (L : List Log) :
    ∀ (i : Nat) (txs : Finset Nat) (rm : RecoveryManager), pos < i →
    (∃ ids, Log.checkpointLog ids ∈ L) → ∃ e, (redoLoop pos i L txs rm).1 = some e := by
  induction L with
  | nil => intro i txs rm _ h; obtain ⟨ids, h⟩ := h; simp at h
  | cons x rest ih =>
    intro i txs rm hi h
    obtain ⟨ids, hmem⟩ := h
    cases x with
    | checkpointLog a =>
      have hne : ¬ i = pos := by omega
      exact ⟨.checkpointNotExpected, by simp [redoLoop, hne]⟩
    | startLog T =>
      have hrest : ∃ ids, Log.checkpointLog ids ∈ rest := ⟨ids, by simpa using hmem⟩
      simp only [redoLoop]
      cases hb : concurrency.Begin rm T with
      | mk e rm1 =>
        cases e with
        | some e => exact ⟨e, rfl⟩
        | none => exact ih (i + 1) _ _ (by omega) hrest
    | commitLog T =>
      have hrest : ∃ ids, Log.checkpointLog ids ∈ rest := ⟨ids, by simpa using hmem⟩
      simp only [redoLoop]
      cases hb : concurrency.Commit rm T with
      | mk e rm1 =>
        cases e with
        | some e => exact ⟨e, rfl⟩
        | none => exact ih (i + 1) _ _ (by omega) hrest
    | editLog T t a key old new =>
      have hrest : ∃ ids, Log.checkpointLog ids ∈ rest := ⟨ids, by simpa using hmem⟩
      simp only [redoLoop]
      cases hb : Redo rm (.editLog T t a key old new) with
      | mk e rm1 =>
        cases e with
        | some e => exact ⟨e, rfl⟩
        | none => exact ih (i + 1) _ _ (by omega) hrest
    | tableLog a b =>
      have hrest : ∃ ids, Log.checkpointLog ids ∈ rest := ⟨ids, by simpa using hmem⟩
      simp only [redoLoop]
      cases hb : Redo rm (.tableLog a b) with
      | mk e rm1 =>
        cases e with
        | some e => exact ⟨e, rfl⟩
        | none => exact ih (i + 1) _ _ (by omega) hrest

theorem redoLoop_first_then_checkpoint (pos : Nat) (l0 : Log) (rest : List Log)
    (txs : Finset Nat) (rm : RecoveryManager) (h : ∃ ids, Log.checkpointLog ids ∈ rest) :
    ∃ e, (redoLoop pos pos (l0 :: rest) txs rm).1 = some e := by
  cases l0 with
  | checkpointLog a =>
    simp only [redoLoop, if_true]
    exact redoLoop_later_checkpoint pos rest (pos + 1) _ _ (by omega) h
  | startLog T =>
    simp only [redoLoop]
    cases hb : concurrency.Begin rm T with
    | mk e rm1 =>
      cases e with
      | some e => exact ⟨e, rfl⟩
      | none => exact redoLoop_later_checkpoint pos rest (pos + 1) _ _ (by omega) h
  | commitLog T =>
    simp only [redoLoop]
    cases hb : concurrency.Commit rm T with
    | mk e rm1 =>
      cases e with
      | some e => exact ⟨e, rfl⟩
      | none => exact redoLoop_later_checkpoint pos rest (pos + 1) _ _ (by omega) h
  | editLog T t a key old new =>
    simp only [redoLoop]
    cases hb : Redo rm (.editLog T t a key old new) with
    | mk e rm1 =>
      cases e with
      | some e => exact ⟨e, rfl⟩
      | none => exact redoLoop_later_checkpoint pos rest (pos + 1) _ _ (by omega) h
  | tableLog a b =>
    simp only [redoLoop]
    cases hb : Redo rm (.tableLog a b) with
    | mk e rm1 =>
      cases e with
      | some e => exact ⟨e, rfl⟩
      | none => exact redoLoop_later_checkpoint pos rest (pos + 1) _ _ (by omega) h

theorem drop_split_of_later (logs : List Log) : ∀ (P j : Nat) (x : Log), P < j →
    logs.get? j = some x →
    ∃ l0 rest, logs.get? P = some l0 ∧ logs.drop P = l0 :: rest ∧ x ∈ rest := by
  induction logs with
  | nil => intro P j x _ h; simp at h
  | cons a t ih =>
    intro P j x hlt h
    cases j with
    | zero => omega
    | succ j1 =>
      simp only [List.get?_cons_succ] at h
      cases P with
      | zero => exact ⟨a, t, rfl, rfl, List.get?_mem h⟩
      | succ P1 =>
        obtain ⟨l0, rest, h1, h2, h3⟩ := ih P1 j1 x (by omega) h
        exact ⟨l0, rest, by simpa using h1, by simpa using h2, h3⟩

/-- C13. A second checkpoint is fatal to recovery.  For every record list,
every replay start position P and every manager: if a CheckpointLog stands at
an index strictly greater than P, Recover returns an error. -/
theorem second_checkpoint_is_fatal (rm : RecoveryManager) (logs : List Log) (P j : Nat)
    (ids : List Nat) (hlater : P < j) (hcp : logs.get? j = some (.checkpointLog ids)) :
    ∃ e, (Recover rm (.ok (logs, P))).1 = .returned (some e) := by
  obtain ⟨l0, rest, h1, h2, h3⟩ := drop_split_of_later logs P j _ hlater hcp
  simp only [Recover, h1, h2]
  generalize (match l0 with
    | .checkpointLog ids => beginAll ids ∅ rm
    | _ => ((none : Option Err), (∅ : Finset Nat), rm)) = analysis
  obtain ⟨e, txs, rm1⟩ := analysis
  cases e with
  | some e => exact ⟨e, rfl⟩
  | none =>
    simp only
    obtain ⟨e, he⟩ := redoLoop_first_then_checkpoint P l0 rest txs rm1 ⟨ids, h3⟩
    cases hr : redoLoop P P (l0 :: rest) txs rm1 with
    | mk e1 r =>
      obtain ⟨txs2, rm2⟩ := r
      rw [hr] at he
      simp only at he
      subst he
      exact ⟨e, rfl⟩

/-- Witness of C13: a second checkpoint at index 3 with replay start 1. -/
theorem second_checkpoint_is_fatal_witness :
    ∃ e, (Recover (restarted (tblStore (fun _ => none)) [])
      (.ok ([.startLog 1, .checkpointLog [1], .editLog 1 "tbl" .INSERT_ACTION 5 0 100,
             .checkpointLog [1]], 1))).1 = .returned (some e) :=
  second_checkpoint_is_fatal (restarted (tblStore (fun _ => none)) [])
    [.startLog 1, .checkpointLog [1], .editLog 1 "tbl" .INSERT_ACTION 5 0 100,
     .checkpointLog [1]] 1 3 [1] (by decide) rfl

/-! ## The transaction manager along a run of Recover -/

theorem tmAfter_append (c1 c2 : List Call) : ∀ (A : Finset Nat),
    tmAfter A (c1 ++ c2) = tmAfter (tmAfter A c1) c2 := by
  induction c1 with
  | nil => intro A; rfl
  | cons c rest ih =>
    intro A
    cases c <;> simp only [List.cons_append, tmAfter] <;> exact ih _

theorem tmAfter_engine (cs : List Call) (h : ∀ c ∈ cs, isTmCall c = false) :
    ∀ (A : Finset Nat), tmAfter A cs = A := by
  induction cs with
  | nil => intro A; rfl
  | cons c rest ih =>
    intro A
    have hc := h c (List.mem_cons_self _ _)
    have hrest := ih (fun c1 hc1 => h c1 (List.mem_cons_of_mem _ hc1))
    cases c with
    | tmBegin id => simp [isTmCall] at hc
    | tmCommit id => simp [isTmCall] at hc
    | createTable a b => simpa [tmAfter] using hrest A
    | insert a b c => simpa [tmAfter] using hrest A
    | update a b c => simpa [tmAfter] using hrest A
    | delete a b => simpa [tmAfter] using hrest A

theorem mem_tmAfter_of_no_commit (id : Nat) (cs : List Call) : ∀ (B : Finset Nat),
    id ∈ B → Call.tmCommit id ∉ cs → id ∈ tmAfter B cs := by
  induction cs with
  | nil => intro B h _; exact h
  | cons c rest ih =>
    intro B h hno
    have hrest : Call.tmCommit id ∉ rest := fun h1 => hno (List.mem_cons_of_mem _ h1)
    cases c with
    | tmBegin i => exact ih _ (Finset.mem_insert_of_mem h) hrest
    | tmCommit i =>
      have hne : id ≠ i := by
        intro h1
        apply hno
        rw [h1]
        exact List.mem_cons_self _ _
      exact ih _ (Finset.mem_erase.mpr ⟨hne, h⟩) hrest
    | createTable a b => exact ih _ h hrest
    | insert a b c => exact ih _ h hrest
    | update a b c => exact ih _ h hrest
    | delete a b => exact ih _ h hrest

theorem mem_tmAfter_congr (id : Nat) (cs : List Call) : ∀ (A B : Finset Nat),
    (id ∈ A ↔ id ∈ B) → (id ∈ tmAfter A cs ↔ id ∈ tmAfter B cs) := by
  induction cs with
  | nil => intro A B h; exact h
  | cons c rest ih =>
    intro A B h
    cases c with
    | tmBegin i =>
      apply ih
      simp only [Finset.mem_insert]
      rw [h]
    | tmCommit i =>
      apply ih
      simp only [Finset.mem_erase]
      rw [h]
    | createTable a b => exact ih _ _ h
    | insert a b c => exact ih _ _ h
    | update a b c => exact ih _ _ h
    | delete a b => exact ih _ _ h

theorem tmBegin_frame (rm : RecoveryManager) (id : Nat) :
    (concurrency.Begin rm id).2.tm = insert id rm.tm ∧
    (concurrency.Begin rm id).2.calls = rm.calls ++ [.tmBegin id] := by
  unfold concurrency.Begin
  split
  · rename_i h
    simp [Finset.insert_eq_of_mem h]
  · simp

theorem tmCommit_tm (rm : RecoveryManager) (id : Nat) :
    (concurrency.Commit rm id).2.tm = rm.tm.erase id := by
  unfold concurrency.Commit
  split
  · simp
  · rename_i h
    simp [Finset.erase_eq_of_not_mem h]

theorem Redo_trace (rm : RecoveryManager) (l : Log) :
    ∃ cs, (Redo rm l).2.calls = rm.calls ++ cs ∧ (∀ c ∈ cs, isTmCall c = false) ∧
      (Redo rm l).2.tm = rm.tm := by
  cases l with
  | tableLog a b =>
    have h := engineCall_frame rm (.createTable a b) (rm.d.createTable a b)
    exact ⟨[.createTable a b], h.2.2.2.2, by simp [isTmCall], h.1⟩
  | editLog id t a key old new =>
    cases a with
    | INSERT_ACTION =>
      have h1 := engineCall_frame rm (.insert t key new) (rm.d.insert t key new)
      simp only [Redo, db.HandleInsert]
      cases hr : engineCall rm (.insert t key new) (rm.d.insert t key new) with
      | mk e rm1 =>
        rw [hr] at h1
        simp only at h1
        cases e with
        | none => exact ⟨[.insert t key new], h1.2.2.2.2, by simp [isTmCall], h1.1⟩
        | some e =>
          have h2 := engineCall_frame rm1 (.update t key new) (rm1.d.update t key new)
          refine ⟨[.insert t key new, .update t key new], ?_, by simp [isTmCall], ?_⟩
          · simp only [db.HandleUpdate]
            rw [h2.2.2.2.2, h1.2.2.2.2]
            simp
          · simp only [db.HandleUpdate]
            rw [h2.1, h1.1]
    | UPDATE_ACTION =>
      have h1 := engineCall_frame rm (.update t key new) (rm.d.update t key new)
      simp only [Redo, db.HandleUpdate]
      cases hr : engineCall rm (.update t key new) (rm.d.update t key new) with
      | mk e rm1 =>
        rw [hr] at h1
        simp only at h1
        cases e with
        | none => exact ⟨[.update t key new], h1.2.2.2.2, by simp [isTmCall], h1.1⟩
        | some e =>
          have h2 := engineCall_frame rm1 (.insert t key new) (rm1.d.insert t key new)
          refine ⟨[.update t key new, .insert t key new], ?_, by simp [isTmCall], ?_⟩
          · simp only [db.HandleInsert]
            rw [h2.2.2.2.2, h1.2.2.2.2]
            simp
          · simp only [db.HandleInsert]
            rw [h2.1, h1.1]
    | DELETE_ACTION =>
      have h := engineCall_frame rm (.delete t key) (rm.d.delete t key)
      exact ⟨[.delete t key], h.2.2.2.2, by simp [isTmCall], h.1⟩
  | startLog a => exact ⟨[], by simp [Redo], by simp, by simp [Redo]⟩
  | commitLog a => exact ⟨[], by simp [Redo], by simp, by simp [Redo]⟩
  | checkpointLog a => exact ⟨[], by simp [Redo], by simp, by simp [Redo]⟩

theorem Undo_trace (rm : RecoveryManager) (l : Log) :
    ∃ cs, (Undo rm l).2.calls = rm.calls ++ cs ∧ (∀ c ∈ cs, isTmCall c = false) ∧
      (Undo rm l).2.tm = rm.tm := by
  cases l with
  | editLog id t a key old new =>
    obtain ⟨c, hinv, hc⟩ := Undo_eq_engineCall rm id t a key old new
    have h := engineCall_frame rm c (rm.d.run c)
    rw [hc]
    refine ⟨[c], h.2.2.2.2, ?_, h.1⟩
    intro c1 hc1
    simp only [List.mem_singleton] at hc1
    subst hc1
    cases a <;> simp only [inverseOf, Option.some.injEq] at hinv <;> subst hinv <;> rfl
  | tableLog a b => exact ⟨[], by simp [Undo], by simp, by simp [Undo]⟩
  | startLog a => exact ⟨[], by simp [Undo], by simp, by simp [Undo]⟩
  | commitLog a => exact ⟨[], by simp [Undo], by simp, by simp [Undo]⟩
  | checkpointLog a => exact ⟨[], by simp [Undo], by simp, by simp [Undo]⟩

theorem beginAll_trace (ids : List Nat) : ∀ (txs : Finset Nat) (rm : RecoveryManager)
    (txs1 : Finset Nat) (rm1 : RecoveryManager),
    beginAll ids txs rm = (none, txs1, rm1) →
    ∃ cs, rm1.calls = rm.calls ++ cs ∧ rm1.tm = tmAfter rm.tm cs ∧ txs1 = tmAfter txs cs := by
  induction ids with
  | nil =>
    intro txs rm txs1 rm1 h
    simp only [beginAll, Prod.mk.injEq, true_and] at h
    obtain ⟨h1, h2⟩ := h
    subst h1; subst h2
    exact ⟨[], by simp, rfl, rfl⟩
  | cons id rest ih =>
    intro txs rm txs1 rm1 h
    have hf := tmBegin_frame rm id
    simp only [beginAll] at h
    cases hb : concurrency.Begin rm id with
    | mk e rmb =>
      rw [hb] at h hf
      simp only at hf
      cases e with
      | some e => simp at h
      | none =>
        simp only at h
        obtain ⟨cs, hc, ht, hx⟩ := ih _ _ _ _ h
        refine ⟨.tmBegin id :: cs, ?_, ?_, ?_⟩
        · rw [hc, hf.2]; simp
        · rw [ht, hf.1]; rfl
        · rw [hx]; rfl

theorem beginAll_members (ids : List Nat) : ∀ (txs : Finset Nat) (rm : RecoveryManager),
    ∀ x ∈ (beginAll ids txs rm).2.1, x ∈ txs ∨ x ∈ ids := by
  induction ids with
  | nil =>
    intro txs rm x hx
    exact Or.inl hx
  | cons id rest ih =>
    intro txs rm x hx
    simp only [beginAll] at hx
    cases hb : concurrency.Begin rm id with
    | mk e rmb =>
      rw [hb] at hx
      cases e with
      | some e =>
        simp only [Finset.mem_insert] at hx
        rcases hx with h | h
        · exact Or.inr (by rw [h]; exact List.mem_cons_self _ _)
        · exact Or.inl h
      | none =>
        simp only at hx
        rcases ih _ _ x hx with h | h
        · simp only [Finset.mem_insert] at h
          rcases h with h | h
          · exact Or.inr (by rw [h]; exact List.mem_cons_self _ _)
          · exact Or.inl h
        · exact Or.inr (List.mem_cons_of_mem _ h)

theorem redoLoop_trace (P : Nat) (L : List Log) : ∀ (i : Nat) (txs : Finset Nat)
    (rm : RecoveryManager) (txs1 : Finset Nat) (rm1 : RecoveryManager),
    redoLoop P i L txs rm = (none, txs1, rm1) →
    ∃ cs, rm1.calls = rm.calls ++ cs ∧ rm1.tm = tmAfter rm.tm cs ∧ txs1 = tmAfter txs cs := by
  induction L with
  | nil =>
    intro i txs rm txs1 rm1 h
    simp only [redoLoop, Prod.mk.injEq, true_and] at h
    obtain ⟨h1, h2⟩ := h
    subst h1; subst h2
    exact ⟨[], by simp, rfl, rfl⟩
  | cons l rest ih =>
    intro i txs rm txs1 rm1 h
    cases l with
    | startLog id =>
      have hf := tmBegin_frame rm id
      simp only [redoLoop] at h
      cases hb : concurrency.Begin rm id with
      | mk e rmb =>
        rw [hb] at h hf
        simp only at hf
        cases e with
        | some e => simp at h
        | none =>
          simp only at h
          obtain ⟨cs, hc, ht, hx⟩ := ih _ _ _ _ _ h
          refine ⟨.tmBegin id :: cs, ?_, ?_, ?_⟩
          · rw [hc, hf.2]; simp
          · rw [ht, hf.1]; rfl
          · rw [hx]; rfl
    | commitLog id =>
      have hf := tmCommit_frame rm id
      have hm := tmCommit_tm rm id
      simp only [redoLoop] at h
      cases hb : concurrency.Commit rm id with
      | mk e rmb =>
        rw [hb] at h hf hm
        simp only at hf hm
        cases e with
        | some e => simp at h
        | none =>
          simp only at h
          obtain ⟨cs, hc, ht, hx⟩ := ih _ _ _ _ _ h
          refine ⟨.tmCommit id :: cs, ?_, ?_, ?_⟩
          · rw [hc, hf.2.2.2.1]; simp
          · rw [ht, hm]; rfl
          · rw [hx]; rfl
    | tableLog a b =>
      obtain ⟨c0, hc0, he0, ht0⟩ := Redo_trace rm (.tableLog a b)
      simp only [redoLoop] at h
      cases hb : Redo rm (.tableLog a b) with
      | mk e rmb =>
        rw [hb] at h hc0 ht0
        simp only at hc0 ht0
        cases e with
        | some e => simp at h
        | none =>
          simp only at h
          obtain ⟨cs, hc, ht, hx⟩ := ih _ _ _ _ _ h
          refine ⟨c0 ++ cs, ?_, ?_, ?_⟩
          · rw [hc, hc0]; simp
          · rw [ht, ht0, tmAfter_append, tmAfter_engine c0 he0]
          · rw [hx, tmAfter_append, tmAfter_engine c0 he0]
    | editLog id t a key old new =>
      obtain ⟨c0, hc0, he0, ht0⟩ := Redo_trace rm (.editLog id t a key old new)
      simp only [redoLoop] at h
      cases hb : Redo rm (.editLog id t a key old new) with
      | mk e rmb =>
        rw [hb] at h hc0 ht0
        simp only at hc0 ht0
        cases e with
        | some e => simp at h
        | none =>
          simp only at h
          obtain ⟨cs, hc, ht, hx⟩ := ih _ _ _ _ _ h
          refine ⟨c0 ++ cs, ?_, ?_, ?_⟩
          · rw [hc, hc0]; simp
          · rw [ht, ht0, tmAfter_append, tmAfter_engine c0 he0]
          · rw [hx, tmAfter_append, tmAfter_engine c0 he0]
    | checkpointLog ids =>
      simp only [redoLoop] at h
      split at h
      · exact ih _ _ _ _ _ h
      · simp at h

theorem redoLoop_members (P : Nat) (L : List Log) : ∀ (i : Nat) (txs : Finset Nat)
    (rm : RecoveryManager),
    ∀ x ∈ (redoLoop P i L txs rm).2.1, x ∈ txs ∨ Log.startLog x ∈ L := by
  induction L with
  | nil =>
    intro i txs rm x hx
    exact Or.inl hx
  | cons l rest ih =>
    intro i txs rm x hx
    have hrest : ∀ (j : Nat) (t : Finset Nat) (m : RecoveryManager),
        (∀ y ∈ t, y ∈ txs ∨ Log.startLog y ∈ l :: rest) →
        x ∈ (redoLoop P j rest t m).2.1 → x ∈ txs ∨ Log.startLog x ∈ l :: rest := by
      intro j t m ht hx1
      rcases ih j t m x hx1 with h | h
      · exact ht x h
      · exact Or.inr (List.mem_cons_of_mem _ h)
    cases l with
    | startLog id =>
      simp only [redoLoop] at hx
      cases hb : concurrency.Begin rm id with
      | mk e rmb =>
        rw [hb] at hx
        cases e with
        | some e => exact Or.inl hx
        | none =>
          refine hrest _ _ _ ?_ hx
          intro y hy
          simp only [Finset.mem_insert] at hy
          rcases hy with h | h
          · exact Or.inr (by rw [h]; exact List.mem_cons_self _ _)
          · exact Or.inl h
    | commitLog id =>
      simp only [redoLoop] at hx
      cases hb : concurrency.Commit rm id with
      | mk e rmb =>
        rw [hb] at hx
        cases e with
        | some e => exact Or.inl hx
        | none =>
          refine hrest _ _ _ ?_ hx
          intro y hy
          exact Or.inl (Finset.mem_of_mem_erase hy)
    | tableLog a b =>
      simp only [redoLoop] at hx
      cases hb : Redo rm (.tableLog a b) with
      | mk e rmb =>
        rw [hb] at hx
        cases e with
        | some e => exact Or.inl hx
        | none => exact hrest _ _ _ (fun y hy => Or.inl hy) hx
    | editLog id t a key old new =>
      simp only [redoLoop] at hx
      cases hb : Redo rm (.editLog id t a key old new) with
      | mk e rmb =>
        rw [hb] at hx
        cases e with
        | some e => exact Or.inl hx
        | none => exact hrest _ _ _ (fun y hy => Or.inl hy) hx
    | checkpointLog ids =>
      simp only [redoLoop] at hx
      split at hx
      · exact hrest _ _ _ (fun y hy => Or.inl hy) hx
      · exact Or.inl hx

theorem undoLoop_trace (L : List Log) : ∀ (txs : Finset Nat)
    (rm : RecoveryManager) (txs1 : Finset Nat) (rm1 : RecoveryManager),
    undoLoop L txs rm = (none, txs1, rm1) →
    (∃ cs, rm1.calls = rm.calls ++ cs ∧ rm1.tm = tmAfter rm.tm cs ∧ txs1 = tmAfter txs cs) ∧
    (∀ x ∈ txs1, x ∈ txs ∧ Log.startLog x ∉ L) := by
  induction L with
  | nil =>
    intro txs rm txs1 rm1 h
    simp only [undoLoop, Prod.mk.injEq, true_and] at h
    obtain ⟨h1, h2⟩ := h
    subst h1; subst h2
    exact ⟨⟨[], by simp, rfl, rfl⟩, fun x hx => ⟨hx, by simp⟩⟩
  | cons l rest ih =>
    intro txs rm txs1 rm1 h
    unfold undoLoop at h
    split at h
    · rename_i hempty
      simp only [Prod.mk.injEq, true_and] at h
      obtain ⟨h1, h2⟩ := h
      subst h1; subst h2
      refine ⟨⟨[], by simp, rfl, rfl⟩, fun x hx => ?_⟩
      rw [hempty] at hx
      simp at hx
    · cases l with
      | startLog id =>
        simp only at h
        split at h
        · rename_i hin
          have hf := tmCommit_frame rm id
          have hm := tmCommit_tm rm id
          cases hb : concurrency.Commit rm id with
          | mk e rmb =>
            rw [hb] at h hf hm
            simp only at hf hm
            cases e with
            | some e => simp at h
            | none =>
              simp only at h
              obtain ⟨⟨cs, hc, ht, hx⟩, hmem⟩ := ih _ _ _ _ h
              refine ⟨⟨.tmCommit id :: cs, ?_, ?_, ?_⟩, ?_⟩
              · rw [hc, hf.2.2.2.1]; simp
              · rw [ht, hm]; rfl
              · rw [hx]; rfl
              · intro x hx1
                obtain ⟨h1, h2⟩ := hmem x hx1
                have h3 := Finset.mem_erase.mp h1
                refine ⟨h3.2, ?_⟩
                simp only [List.mem_cons, Log.startLog.injEq, not_or]
                exact ⟨h3.1, h2⟩
        · rename_i hnin
          obtain ⟨htr, hmem⟩ := ih _ _ _ _ h
          refine ⟨htr, ?_⟩
          intro x hx1
          obtain ⟨h1, h2⟩ := hmem x hx1
          refine ⟨h1, ?_⟩
          simp only [List.mem_cons, Log.startLog.injEq, not_or]
          exact ⟨fun hxe => hnin (hxe ▸ h1), h2⟩
      | editLog id t a key old new =>
        simp only at h
        split at h
        · obtain ⟨c0, hc0, he0, ht0⟩ := Undo_trace rm (.editLog id t a key old new)
          cases hb : Undo rm (.editLog id t a key old new) with
          | mk e rmb =>
            rw [hb] at h hc0 ht0
            simp only at hc0 ht0
            cases e with
            | some e => simp at h
            | none =>
              simp only at h
              obtain ⟨⟨cs, hc, ht, hx⟩, hmem⟩ := ih _ _ _ _ h
              refine ⟨⟨c0 ++ cs, ?_, ?_, ?_⟩, ?_⟩
              · rw [hc, hc0]; simp
              · rw [ht, ht0, tmAfter_append, tmAfter_engine c0 he0]
              · rw [hx, tmAfter_append, tmAfter_engine c0 he0]
              · intro x hx1
                obtain ⟨h1, h2⟩ := hmem x hx1
                exact ⟨h1, by simp [h2]⟩
        · obtain ⟨htr, hmem⟩ := ih _ _ _ _ h
          refine ⟨htr, ?_⟩
          intro x hx1
          obtain ⟨h1, h2⟩ := hmem x hx1
          exact ⟨h1, by simp [h2]⟩
      | tableLog a b =>
        simp only at h
        obtain ⟨htr, hmem⟩ := ih _ _ _ _ h
        refine ⟨htr, ?_⟩
        intro x hx1
        obtain ⟨h1, h2⟩ := hmem x hx1
        exact ⟨h1, by simp [h2]⟩
      | commitLog a =>
        simp only at h
        obtain ⟨htr, hmem⟩ := ih _ _ _ _ h
        refine ⟨htr, ?_⟩
        intro x hx1
        obtain ⟨h1, h2⟩ := hmem x hx1
        exact ⟨h1, by simp [h2]⟩
      | checkpointLog a =>
        simp only at h
        obtain ⟨htr, hmem⟩ := ih _ _ _ _ h
        refine ⟨htr, ?_⟩
        intro x hx1
        obtain ⟨h1, h2⟩ := hmem x hx1
        exact ⟨h1, by simp [h2]⟩

/-- C14. Recovery closes every transaction it opened.  The transaction manager
is the set `tm` of active ids.  Take a record list in which every id listed in
the checkpoint record at the replay start has a start record earlier in the
file, and suppose `Recover` returns no error.  Then the working set `txs` is
empty at the end; and in the calls `cs` that the run made, every begin of an id
is followed later by a commit of that id, and no id that the run began is
active in the transaction manager at the end. -/
theorem recover_closes_transactions (rm : RecoveryManager) (logs : List Log) (P : Nat)
    (hstart : ∀ ids, logs.get? P = some (.checkpointLog ids) →
      ∀ id ∈ ids, Log.startLog id ∈ logs.take P)
    (hok : (Recover rm (.ok (logs, P))).1 = .returned none) :
    (Recover rm (.ok (logs, P))).2.1 = ∅ ∧
    ∃ cs, (Recover rm (.ok (logs, P))).2.2.calls = rm.calls ++ cs ∧
      (∀ c1 id c2, cs = c1 ++ Call.tmBegin id :: c2 → Call.tmCommit id ∈ c2) ∧
      (∀ id, Call.tmBegin id ∈ cs → id ∉ (Recover rm (.ok (logs, P))).2.2.tm) := by
  -- the three phases of a run that returns no error
  have hphases : ∃ txs1 rm1 txs2 rm2 txs3 rm3,
      (∀ x ∈ txs1, ∃ ids, logs.get? P = some (.checkpointLog ids) ∧ x ∈ ids) ∧
      (∃ cs, rm1.calls = rm.calls ++ cs ∧ rm1.tm = tmAfter rm.tm cs ∧
        txs1 = tmAfter ∅ cs) ∧
      redoLoop P P (logs.drop P) txs1 rm1 = (none, txs2, rm2) ∧
      undoLoop logs.reverse txs2 rm2 = (none, txs3, rm3) ∧
      Recover rm (.ok (logs, P)) = (.returned none, txs3, rm3) := by
    unfold Recover at hok ⊢
    simp only at hok ⊢
    cases hg : logs.get? P with
    | none =>
      rw [hg] at hok
      simp at hok
    | some l0 =>
      rw [hg] at hok
      simp only at hok ⊢
      have han : ∃ txs1 rm1,
          (match l0 with
            | .checkpointLog ids => beginAll ids ∅ rm
            | _ => ((none : Option Err), (∅ : Finset Nat), rm)) = (none, txs1, rm1) ∧
          (∀ x ∈ txs1, ∃ ids, some l0 = some (.checkpointLog ids) ∧ x ∈ ids) ∧
          (∃ cs, rm1.calls = rm.calls ++ cs ∧ rm1.tm = tmAfter rm.tm cs ∧
            txs1 = tmAfter ∅ cs) := by
        cases l0 with
        | checkpointLog ids =>
          simp only at hok ⊢
          cases hb : beginAll ids ∅ rm with
          | mk e r =>
            obtain ⟨t1, m1⟩ := r
            rw [hb] at hok
            cases e with
            | some e => simp at hok
            | none =>
              refine ⟨t1, m1, rfl, ?_, beginAll_trace ids ∅ rm t1 m1 hb⟩
              intro x hx
              have := beginAll_members ids ∅ rm x (by rw [hb]; exact hx)
              rcases this with h | h
              · simp at h
              · exact ⟨ids, rfl, h⟩
        | tableLog a b => exact ⟨∅, rm, rfl, by simp, [], by simp, rfl, rfl⟩
        | editLog a b c d e f => exact ⟨∅, rm, rfl, by simp, [], by simp, rfl, rfl⟩
        | startLog a => exact ⟨∅, rm, rfl, by simp, [], by simp, rfl, rfl⟩
        | commitLog a => exact ⟨∅, rm, rfl, by simp, [], by simp, rfl, rfl⟩
      obtain ⟨txs1, rm1, hana, hmem1, htr1⟩ := han
      rw [hana] at hok ⊢
      simp only at hok ⊢
      cases hr : redoLoop P P (logs.drop P) txs1 rm1 with
      | mk e r =>
        obtain ⟨txs2, rm2⟩ := r
        rw [hr] at hok
        cases e with
        | some e => simp at hok
        | none =>
          simp only at hok ⊢
          cases hu : undoLoop logs.reverse txs2 rm2 with
          | mk e r =>
            obtain ⟨txs3, rm3⟩ := r
            rw [hu] at hok
            simp only [Outcome.returned.injEq] at hok
            subst hok
            exact ⟨txs1, rm1, txs2, rm2, txs3, rm3, hmem1, htr1, hr, hu, rfl⟩
  obtain ⟨txs1, rm1, txs2, rm2, txs3, rm3, hmem1, ⟨ca, hca, hta, hxa⟩, hredo, hundo, hrec⟩ :=
    hphases
  obtain ⟨cr, hcr, htr, hxr⟩ := redoLoop_trace P _ _ _ _ _ _ hredo
  obtain ⟨⟨cu, hcu, htu, hxu⟩, hmemu⟩ := undoLoop_trace _ _ _ _ _ hundo
  rw [hrec]
  simp only
  -- the working set is empty at the end
  have hempty : txs3 = ∅ := by
    apply Finset.eq_empty_of_forall_not_mem
    intro x hx
    obtain ⟨h2, hno⟩ := hmemu x hx
    apply hno
    rw [List.mem_reverse]
    have := redoLoop_members P (logs.drop P) P txs1 rm1 x (by rw [hredo]; exact h2)
    rcases this with h | h
    · obtain ⟨ids, hids, hxin⟩ := hmem1 x h
      exact List.mem_of_mem_take (hstart ids hids x hxin)
    · exact List.mem_of_mem_drop h
  -- the calls of the whole run
  have hcalls : rm3.calls = rm.calls ++ (ca ++ cr ++ cu) := by
    rw [hcu, hcr, hca]; simp
  have htm : rm3.tm = tmAfter rm.tm (ca ++ cr ++ cu) := by
    rw [htu, htr, hta, tmAfter_append, tmAfter_append]
  have htxs : tmAfter ∅ (ca ++ cr ++ cu) = ∅ := by
    rw [tmAfter_append, tmAfter_append, ← hxa, ← hxr, ← hxu]
    exact hempty
  have hclosed : ∀ c1 id c2, ca ++ cr ++ cu = c1 ++ Call.tmBegin id :: c2 →
      Call.tmCommit id ∈ c2 := by
    intro c1 id c2 hsplit
    by_contra hno
    have h1 : id ∈ tmAfter ∅ (c1 ++ Call.tmBegin id :: c2) := by
      rw [tmAfter_append]
      exact mem_tmAfter_of_no_commit id c2 _ (Finset.mem_insert_self _ _) hno
    rw [← hsplit, htxs] at h1
    simp at h1
  refine ⟨hempty, ca ++ cr ++ cu, hcalls, hclosed, ?_⟩
  intro id hbegin hactive
  obtain ⟨c1, c2, hsplit⟩ := List.append_of_mem hbegin
  have h1 : id ∈ tmAfter ∅ (c1 ++ Call.tmBegin id :: c2) := by
    rw [tmAfter_append]
    rw [htm, hsplit, tmAfter_append] at hactive
    exact (mem_tmAfter_congr id c2 (insert id (tmAfter rm.tm c1)) (insert id (tmAfter ∅ c1))
      (by simp)).mp hactive
  rw [← hsplit, htxs] at h1
  simp at h1

theorem recover_closes_transactions_witness :
    (Recover (restarted (tblStore (fun _ => none)) [])
      (.ok ([.startLog 1, .checkpointLog [1], .editLog 1 "tbl" .INSERT_ACTION 5 0 100], 1))).1
      = .returned none ∧
    (Recover (restarted (tblStore (fun _ => none)) [])
      (.ok ([.startLog 1, .checkpointLog [1], .editLog 1 "tbl" .INSERT_ACTION 5 0 100],
        1))).2.1 = ∅ ∧
    ∃ cs, (Recover (restarted (tblStore (fun _ => none)) [])
      (.ok ([.startLog 1, .checkpointLog [1], .editLog 1 "tbl" .INSERT_ACTION 5 0 100],
        1))).2.2.calls = (restarted (tblStore (fun _ => none)) []).calls ++ cs ∧
      (∀ c1 id c2, cs = c1 ++ Call.tmBegin id :: c2 → Call.tmCommit id ∈ c2) ∧
      (∀ id, Call.tmBegin id ∈ cs → id ∉ (Recover (restarted (tblStore (fun _ => none)) [])
        (.ok ([.startLog 1, .checkpointLog [1], .editLog 1 "tbl" .INSERT_ACTION 5 0 100],
          1))).2.2.tm) :=
  ⟨by decide,
   recover_closes_transactions (restarted (tblStore (fun _ => none)) [])
    [.startLog 1, .checkpointLog [1], .editLog 1 "tbl" .INSERT_ACTION 5 0 100] 1
    (by
      intro ids h id hid
      simp only [List.get?, Option.some.injEq, Log.checkpointLog.injEq] at h
      subst h
      simp only [List.mem_singleton] at hid
      subst hid
      decide)
    (by decide)⟩

/-! ## Checkpoint on the stack maps of a run -/

theorem stacksLive_delete (m : List (Nat × List Log)) (id : Nat) (h : stacksLive m) :
    stacksLive (stackDelete m id) := by
  refine ⟨?_, ?_⟩
  · exact List.Nodup.sublist (List.Sublist.map _ (List.filter_sublist m)) h.1
  · intro p hp
    exact h.2 p (List.mem_of_mem_filter hp)

theorem stacksLive_set (m : List (Nat × List Log)) (id : Nat) (logs : List Log)
    (h : stacksLive m) (hne : logs ≠ []) : stacksLive (stackSet m id logs) := by
  have hd := stacksLive_delete m id h
  refine ⟨?_, ?_⟩
  · simp only [stackSet, List.map_cons, List.nodup_cons]
    refine ⟨?_, hd.1⟩
    intro hmem
    obtain ⟨p, hp, hpid⟩ := List.mem_map.mp hmem
    have := (List.mem_filter.mp hp).2
    simp only [ne_eq, decide_not, Bool.not_eq_eq_eq_not, Bool.not_true,
      decide_eq_false_iff_not] at this
    exact this hpid
  · intro p hp
    simp only [stackSet, List.mem_cons] at hp
    rcases hp with hp | hp
    · rw [hp]; exact hne
    · exact hd.2 p hp

theorem stacksLive_push (m : List (Nat × List Log)) (cl : Log) (h : stacksLive m) :
    stacksLive (m.map (fun p => (p.1, p.2 ++ [cl]))) := by
  refine ⟨?_, ?_⟩
  · rw [List.map_map]
    exact h.1
  · intro p hp
    obtain ⟨q, -, hq⟩ := List.mem_map.mp hp
    rw [← hq]
    simp

theorem lookup_push (cl : Log) (id : Nat) (m : List (Nat × List Log)) :
    (m.map (fun p => (p.1, p.2 ++ [cl]))).lookup id =
      (m.lookup id).map (fun s => s ++ [cl]) := by
  induction m with
  | nil => rfl
  | cons p m ih =>
    obtain ⟨i, l⟩ := p
    simp only [List.map_cons, List.lookup_cons]
    cases id == i
    · exact ih
    · rfl

theorem lookup_some_mem (id : Nat) (l : List Log) (m : List (Nat × List Log)) :
    m.lookup id = some l → (id, l) ∈ m := by
  induction m with
  | nil => simp
  | cons p m ih =>
    obtain ⟨i, l1⟩ := p
    by_cases h : id = i
    · subst h
      simp only [List.lookup_cons, beq_self_eq_true, Option.some.injEq, List.mem_cons,
        Prod.mk.injEq, true_and]
      intro h1
      exact Or.inl h1.symm
    · have h1 : (id == i) = false := by simpa using h
      simp only [List.lookup_cons, h1, List.mem_cons, Prod.mk.injEq, h, false_and, false_or]
      exact ih

theorem mem_keys_lookup (id : Nat) (m : List (Nat × List Log)) :
    id ∈ m.map (fun p => p.1) → ∃ l, m.lookup id = some l := by
  induction m with
  | nil => simp
  | cons p m ih =>
    obtain ⟨i, l1⟩ := p
    by_cases h : id = i
    · subst h
      intro _
      exact ⟨l1, by simp [List.lookup_cons]⟩
    · have h1 : (id == i) = false := by simpa using h
      simp only [List.map_cons, List.mem_cons, h, false_or, List.lookup_cons, h1]
      exact ih

theorem Rollback_stacks (rm : RecoveryManager) (id : Nat) :
    (Rollback rm id).2.txStack = rm.txStack ∨
    (Rollback rm id).2.txStack = stackDelete rm.txStack id := by
  unfold Rollback
  split
  · exact Or.inl rfl
  · rename_i first more hs
    split
    · have hf := undoStack_frame (first :: more).reverse rm
      cases hu : undoStack (first :: more).reverse rm with
      | mk e rm1 =>
        rw [hu] at hf
        simp only at hf
        cases e with
        | some e => exact Or.inl hf.2.1
        | none =>
          right
          simp only
          rw [(tmCommit_frame _ id).2.1, (Commit_frame rm1 id).2.2.1, hf.2.1]
    · exact Or.inl rfl

theorem stacksLive_run (calls : List WriteCall) : ∀ (rm : RecoveryManager),
    stacksLive rm.txStack → stacksLive (runCalls rm calls).txStack := by
  induction calls with
  | nil => intro rm h; exact h
  | cons c rest ih =>
    intro rm h
    cases c with
    | start id =>
      apply ih
      simp only [Start]
      rw [(writeToBuffer_frame _ _).2.2.1]
      exact stacksLive_set _ _ _ h (by simp)
    | edit id table action key oldval newval =>
      apply ih
      simp only [Edit]
      rw [(writeToBuffer_frame _ _).2.2.1]
      exact stacksLive_set _ _ _ h (by simp)
    | commit id =>
      apply ih
      rw [(Commit_frame rm id).2.2.1]
      exact stacksLive_delete _ _ h
    | checkpoint =>
      apply ih
      simp only [Checkpoint]
      rw [(writeToBuffer_frame _ _).2.2.1]
      exact stacksLive_push _ _ h
    | rollback id =>
      apply ih
      rcases Rollback_stacks rm id with h1 | h1
      · rw [h1]; exact h
      · rw [h1]; exact stacksLive_delete _ _ h

/-- C11. Checkpoint records exactly the active transactions.  Let `rm` be the
manager after any sequence of Start, Edit, Commit, Checkpoint and Rollback
calls from a manager with the empty stack map.  Then the id list `ids` of the
record that Checkpoint builds names each id once and names exactly the ids
whose log stack is non-empty; that one record is what Checkpoint appends to
the log file (when the write goes through, and nothing otherwise); the stack
of every listed id becomes the old stack with that record at the end; and
every entry of the stack map after the call is the entry before the call
with the record pushed, so no entry is created and none removed. -/
theorem checkpoint_records_active (rm0 : RecoveryManager) (calls : List WriteCall)
    (h0 : rm0.txStack = []) :
    ∃ ids : List Nat, ids.Nodup ∧
      (∀ id, id ∈ ids ↔ stackOf (runCalls rm0 calls).txStack id ≠ []) ∧
      (Checkpoint (runCalls rm0 calls)).fd =
        (if (runCalls rm0 calls).fdOk then (runCalls rm0 calls).fd ++ [.checkpointLog ids]
         else (runCalls rm0 calls).fd) ∧
      (∀ id ∈ ids, stackOf (Checkpoint (runCalls rm0 calls)).txStack id =
        stackOf (runCalls rm0 calls).txStack id ++ [.checkpointLog ids]) ∧
      (∀ id, (Checkpoint (runCalls rm0 calls)).txStack.lookup id =
        ((runCalls rm0 calls).txStack.lookup id).map (fun s => s ++ [.checkpointLog ids])) := by
  have hlive : stacksLive (runCalls rm0 calls).txStack := by
    apply stacksLive_run
    rw [h0]
    exact ⟨List.nodup_nil, by simp⟩
  generalize runCalls rm0 calls = rm at hlive ⊢
  have hlook : ∀ id, (Checkpoint rm).txStack.lookup id =
      (rm.txStack.lookup id).map
        (fun s => s ++ [.checkpointLog (rm.txStack.map (fun p => p.1))]) := by
    intro id
    simp only [Checkpoint]
    rw [(writeToBuffer_frame _ _).2.2.1]
    exact lookup_push _ id rm.txStack
  have hmem : ∀ id, id ∈ rm.txStack.map (fun p => p.1) ↔ stackOf rm.txStack id ≠ [] := by
    intro id
    constructor
    · intro hin
      obtain ⟨l, hl⟩ := mem_keys_lookup id rm.txStack hin
      simp only [stackOf, hl, Option.getD_some]
      exact hlive.2 _ (lookup_some_mem id l rm.txStack hl)
    · intro hne
      cases hl : rm.txStack.lookup id with
      | none => simp [stackOf, hl] at hne
      | some l =>
        exact List.mem_map.mpr ⟨(id, l), lookup_some_mem id l rm.txStack hl, rfl⟩
  refine ⟨rm.txStack.map (fun p => p.1), hlive.1, hmem, ?_, ?_, hlook⟩
  · simp only [Checkpoint]
    exact (writeToBuffer_frame _ _).2.2.2.2.2.1
  · intro id hid
    have hne := (hmem id).mp hid
    simp only [stackOf, hlook id]
    cases hl : rm.txStack.lookup id with
    | none => simp [stackOf, hl] at hne
    | some l => simp

theorem checkpoint_records_active_witness :
    ∃ ids : List Nat, ids.Nodup ∧
      (∀ id, id ∈ ids ↔ stackOf (runCalls (restarted (tblStore (fun _ => none)) [])
        [.start 1, .edit 1 "tbl" .INSERT_ACTION 5 0 100, .start 2, .commit 2]).txStack id
          ≠ []) ∧
      (Checkpoint (runCalls (restarted (tblStore (fun _ => none)) [])
        [.start 1, .edit 1 "tbl" .INSERT_ACTION 5 0 100, .start 2, .commit 2])).fd =
        (if (runCalls (restarted (tblStore (fun _ => none)) [])
          [.start 1, .edit 1 "tbl" .INSERT_ACTION 5 0 100, .start 2, .commit 2]).fdOk
         then (runCalls (restarted (tblStore (fun _ => none)) [])
          [.start 1, .edit 1 "tbl" .INSERT_ACTION 5 0 100, .start 2, .commit 2]).fd
            ++ [.checkpointLog ids]
         else (runCalls (restarted (tblStore (fun _ => none)) [])
          [.start 1, .edit 1 "tbl" .INSERT_ACTION 5 0 100, .start 2, .commit 2]).fd) ∧
      (∀ id ∈ ids, stackOf (Checkpoint (runCalls (restarted (tblStore (fun _ => none)) [])
        [.start 1, .edit 1 "tbl" .INSERT_ACTION 5 0 100, .start 2, .commit 2])).txStack id =
        stackOf (runCalls (restarted (tblStore (fun _ => none)) [])
          [.start 1, .edit 1 "tbl" .INSERT_ACTION 5 0 100, .start 2, .commit 2]).txStack id
            ++ [.checkpointLog ids]) ∧
      (∀ id, (Checkpoint (runCalls (restarted (tblStore (fun _ => none)) [])
        [.start 1, .edit 1 "tbl" .INSERT_ACTION 5 0 100, .start 2, .commit 2])).txStack.lookup
          id =
        ((runCalls (restarted (tblStore (fun _ => none)) [])
          [.start 1, .edit 1 "tbl" .INSERT_ACTION 5 0 100, .start 2, .commit 2]).txStack.lookup
            id).map (fun s => s ++ [.checkpointLog ids])) :=
  checkpoint_records_active (restarted (tblStore (fun _ => none)) [])
    [.start 1, .edit 1 "tbl" .INSERT_ACTION 5 0 100, .start 2, .commit 2] rfl

end recovery

namespace list

/-! ## Facts about the list representation -/

@[simp] theorem setLink_links (h : Heap) (a : Nat) (k : Link) (b : Nat) :
    (h.setLink a k).links b = if b = a then k else h.links b := rfl

@[simp] theorem setLink_lists (h : Heap) (a : Nat) (k : Link) :
    (h.setLink a k).lists = h.lists := rfl

@[simp] theorem setLink_nLinks (h : Heap) (a : Nat) (k : Link) :
    (h.setLink a k).nLinks = h.nLinks := rfl

@[simp] theorem setList_lists (h : Heap) (l : Nat) (hdr : LinkedList) (b : Nat) :
    (h.setList l hdr).lists b = if b = l then hdr else h.lists b := rfl

@[simp] theorem setList_links (h : Heap) (l : Nat) (hdr : LinkedList) :
    (h.setList l hdr).links = h.links := rfl

@[simp] theorem setList_nLinks (h : Heap) (l : Nat) (hdr : LinkedList) :
    (h.setList l hdr).nLinks = h.nLinks := rfl

theorem firstOr_append (xs ys : List Nat) (d : Option Nat) :
    firstOr (xs ++ ys) d = firstOr xs (firstOr ys d) := by
  cases xs <;> rfl

theorem lastOr_append (xs ys : List Nat) : ∀ (d : Option Nat),
    lastOr (xs ++ ys) d = lastOr ys (lastOr xs d) := by
  induction xs with
  | nil => intro d; rfl
  | cons a xs ih => intro d; exact ih (some a)

theorem lastOr_some (xs : List Nat) : ∀ (b : Nat),
    ∃ t, lastOr xs (some b) = some t ∧ (t = b ∨ t ∈ xs) := by
  induction xs with
  | nil => intro b; exact ⟨b, rfl, Or.inl rfl⟩
  | cons a xs ih =>
    intro b
    obtain ⟨t, ht, hmem⟩ := ih a
    refine ⟨t, ht, Or.inr ?_⟩
    rcases hmem with h | h
    · rw [h]; exact List.mem_cons_self _ _
    · exact List.mem_cons_of_mem _ h

theorem lastOr_eq_none (xs : List Nat) : lastOr xs none = none ↔ xs = [] := by
  cases xs with
  | nil => simp [lastOr]
  | cons a xs =>
    obtain ⟨t, ht, -⟩ := lastOr_some xs a
    simp [lastOr, ht]

theorem firstOr_eq_none (xs : List Nat) : firstOr xs none = none ↔ xs = [] := by
  cases xs <;> simp [firstOr]

theorem chain_frame (h h1 : Heap) (l : Nat) (as : List Nat) : ∀ (p nxt : Option Nat),
    (∀ a ∈ as, h1.links a = h.links a) → chain h l p as nxt → chain h1 l p as nxt := by
  induction as with
  | nil => intro p nxt _ _; trivial
  | cons a rest ih =>
    intro p nxt hsame hc
    have ha := hsame a (List.mem_cons_self _ _)
    obtain ⟨h1l, h1p, h1n, hrest⟩ := hc
    refine ⟨by rw [ha]; exact h1l, by rw [ha]; exact h1p, by rw [ha]; exact h1n, ?_⟩
    exact ih _ _ (fun b hb => hsame b (List.mem_cons_of_mem _ hb)) hrest

theorem chain_append (h : Heap) (l : Nat) (xs ys : List Nat) (nxt : Option Nat) :
    ∀ (p : Option Nat), chain h l p (xs ++ ys) nxt ↔
      chain h l p xs (firstOr ys nxt) ∧ chain h l (lastOr xs p) ys nxt := by
  induction xs with
  | nil => intro p; simp [chain, lastOr]
  | cons a xs ih =>
    intro p
    constructor
    · intro hc
      have hc1 : chain h l p (a :: (xs ++ ys)) nxt := hc
      obtain ⟨h1, h2, h3, h4⟩ := hc1
      have h5 := (ih (some a)).mp h4
      exact ⟨⟨h1, h2, by rw [← firstOr_append]; exact h3, h5.1⟩, h5.2⟩
    · rintro ⟨⟨h1, h2, h3, h4⟩, h5⟩
      have h6 : chain h l p (a :: (xs ++ ys)) nxt :=
        ⟨h1, h2, by rw [firstOr_append]; exact h3, (ih (some a)).mpr ⟨h4, h5⟩⟩
      exact h6

theorem length_le_of_bounded (as : List Nat) (n : Nat) (hnd : as.Nodup)
    (hlt : ∀ a ∈ as, a < n) : as.length ≤ n := by
  have h1 : as.toFinset ⊆ Finset.range n := by
    intro a ha
    simp only [List.mem_toFinset] at ha
    simpa using hlt a ha
  have h2 := Finset.card_le_card h1
  rw [List.toFinset_card_of_nodup hnd, Finset.card_range] at h2
  exact h2

theorem walkNext_chain (h : Heap) (l : Nat) (as : List Nat) : ∀ (p : Option Nat) (fuel : Nat),
    chain h l p as none → as.length ≤ fuel → walkNext h fuel (firstOr as none) = some as := by
  induction as with
  | nil => intro p fuel _ _; cases fuel <;> rfl
  | cons a rest ih =>
    intro p fuel hc hlen
    cases fuel with
    | zero => simp at hlen
    | succ f =>
      obtain ⟨-, -, hn, hrest⟩ := hc
      show (walkNext h f (h.links a).next).map (fun rest => a :: rest) = some (a :: rest)
      rw [hn, ih (some a) f hrest (by simpa using hlen)]
      rfl

theorem walkPrev_chain (h : Heap) (l : Nat) (as : List Nat) : ∀ (nxt : Option Nat) (fuel : Nat),
    chain h l none as nxt → as.length ≤ fuel →
    walkPrev h fuel (lastOr as none) = some as.reverse := by
  induction as using List.reverseRecOn with
  | nil => intro nxt fuel _ _; cases fuel <;> rfl
  | append_singleton xs t ih =>
    intro nxt fuel hc hlen
    cases fuel with
    | zero => simp at hlen
    | succ f =>
      rw [chain_append] at hc
      obtain ⟨hxs, _, hp, -, -⟩ := hc
      have hl : lastOr (xs ++ [t]) none = some t := by rw [lastOr_append]; rfl
      rw [hl]
      show (walkPrev h f (h.links t).prev).map (fun rest => t :: rest) = some (xs ++ [t]).reverse
      rw [hp, ih _ f hxs (by simpa using hlen)]
      simp

theorem WF_linksOf (h : Heap) (l : Nat) (as : List Nat) (hwf : WF h l as) :
    linksOf h l = some as := by
  obtain ⟨hh, -, hnd, hlt, hc⟩ := hwf
  unfold linksOf
  rw [hh]
  exact walkNext_chain h l as none _ hc (length_le_of_bounded as _ hnd hlt)

theorem WF_linksBack (h : Heap) (l : Nat) (as : List Nat) (hwf : WF h l as) :
    linksBack h l = some as.reverse := by
  obtain ⟨-, ht, hnd, hlt, hc⟩ := hwf
  unfold linksBack
  rw [ht]
  exact walkPrev_chain h l as none _ hc (length_le_of_bounded as _ hnd hlt)

theorem WF_new (h0 : Heap) : WF (NewList h0).1 (NewList h0).2 [] := by
  refine ⟨?_, ?_, List.nodup_nil, by simp, trivial⟩ <;> simp [NewList, firstOr, lastOr]

theorem PushHead_spec (h : Heap) (l : Nat) (v : Value) (as : List Nat) (hwf : WF h l as) :
    (PushHead h l v).2 = h.nLinks ∧ WF (PushHead h l v).1 l (h.nLinks :: as) ∧
    ((PushHead h l v).1.links h.nLinks).value = v ∧
    (∀ a ∈ as, ((PushHead h l v).1.links a).value = (h.links a).value) := by
  obtain ⟨hh, ht, hnd, hlt, hc⟩ := hwf
  cases as with
  | nil =>
    simp only [firstOr, lastOr] at hh ht
    refine ⟨rfl, ⟨?_, ?_, by simp, ?_, ?_⟩, ?_, by simp⟩
    · simp [PushHead, hh, ht, firstOr]
    · simp [PushHead, hh, ht, lastOr]
    · simp [PushHead, hh, ht]
    · simp [PushHead, hh, ht, chain, firstOr]
    · simp [PushHead, hh, ht]
  | cons b rest =>
    obtain ⟨t, htl, -⟩ := lastOr_some rest b
    simp only [firstOr] at hh
    simp only [lastOr, htl] at ht
    have hb : b < h.nLinks := hlt b (List.mem_cons_self _ _)
    have hbne : b ≠ h.nLinks := Nat.ne_of_lt hb
    have hfresh : h.nLinks ∉ b :: rest := fun hm => Nat.lt_irrefl _ (hlt _ hm)
    obtain ⟨hbl, hbp, hbn, hrest⟩ := hc
    refine ⟨rfl, ⟨?_, ?_, ?_, ?_, ?_⟩, ?_, ?_⟩
    · simp [PushHead, hh, ht, firstOr]
    · simp [PushHead, hh, ht, lastOr, htl]
    · exact List.nodup_cons.mpr ⟨hfresh, hnd⟩
    · intro a ha
      have h1 : (PushHead h l v).1.nLinks = h.nLinks + 1 := by simp [PushHead, hh, ht]
      rw [h1]
      rcases List.mem_cons.mp ha with h2 | h2
      · rw [h2]; exact Nat.lt_succ_self _
      · exact Nat.lt_succ_of_lt (hlt a h2)
    · have hn : (PushHead h l v).1.links h.nLinks =
          { list := some l, prev := none, next := some b, value := v } := by
        simp [PushHead, hh, ht, hbne.symm]
      have hbk : (PushHead h l v).1.links b = { h.links b with prev := some h.nLinks } := by
        simp [PushHead, hh, ht, hbne]
      refine ⟨by rw [hn], by rw [hn], by rw [hn]; rfl, ?_, ?_, ?_, ?_⟩
      · rw [hbk]; exact hbl
      · rw [hbk]
      · rw [hbk]; exact hbn
      · apply chain_frame h _ l rest _ _ _ hrest
        intro a ha
        have ha1 : a ≠ h.nLinks := Nat.ne_of_lt (hlt a (List.mem_cons_of_mem _ ha))
        have ha2 : a ≠ b := fun he => (List.nodup_cons.mp hnd).1 (he ▸ ha)
        simp [PushHead, hh, ht, ha1, ha2]
    · simp [PushHead, hh, ht, hbne.symm]
    · intro a ha
      have ha1 : a ≠ h.nLinks := Nat.ne_of_lt (hlt a ha)
      by_cases ha2 : a = b
      · subst ha2
        simp [PushHead, hh, ht, ha1]
      · simp [PushHead, hh, ht, ha1, ha2]

theorem firstOr_of_ne_nil (as : List Nat) (d d1 : Option Nat) (hne : as ≠ []) :
    firstOr as d = firstOr as d1 := by
  cases as with
  | nil => exact absurd rfl hne
  | cons a rest => rfl

theorem PushTail_spec (h : Heap) (l : Nat) (v : Value) (as : List Nat) (hwf : WF h l as) :
    (PushTail h l v).2 = h.nLinks ∧ WF (PushTail h l v).1 l (as ++ [h.nLinks]) ∧
    ((PushTail h l v).1.links h.nLinks).value = v ∧
    (∀ a ∈ as, ((PushTail h l v).1.links a).value = (h.links a).value) := by
  obtain ⟨hh, ht, hnd, hlt, hc⟩ := hwf
  rcases List.eq_nil_or_concat as with hnil | ⟨xs, t, hcat⟩
  · subst hnil
    simp only [firstOr, lastOr] at hh ht
    refine ⟨rfl, ⟨?_, ?_, by simp, ?_, ?_⟩, ?_, by simp⟩
    · simp [PushTail, hh, ht, firstOr]
    · simp [PushTail, hh, ht, lastOr]
    · simp [PushTail, hh, ht]
    · simp [PushTail, hh, ht, chain, firstOr]
    · simp [PushTail, hh, ht]
  · rw [List.concat_eq_append] at hcat
    subst hcat
    have hne : xs ++ [t] ≠ [] := by simp
    obtain ⟨hd, hhd⟩ : ∃ hd, firstOr (xs ++ [t]) none = some hd := by
      cases hx : firstOr (xs ++ [t]) none with
      | none => exact absurd ((firstOr_eq_none _).mp hx) hne
      | some hd => exact ⟨hd, rfl⟩
    have htl : lastOr (xs ++ [t]) none = some t := by rw [lastOr_append]; rfl
    rw [hhd] at hh
    rw [htl] at ht
    have htlt : t < h.nLinks := hlt t (by simp)
    have htne : t ≠ h.nLinks := Nat.ne_of_lt htlt
    have hfresh : h.nLinks ∉ xs ++ [t] := fun hm => Nat.lt_irrefl _ (hlt _ hm)
    rw [chain_append] at hc
    obtain ⟨hxs, htl1, htp, htn, -⟩ := hc
    have hn : (PushTail h l v).1.links h.nLinks =
        { list := some l, prev := some t, next := none, value := v } := by
      simp [PushTail, hh, ht, htne.symm]
    have htk : (PushTail h l v).1.links t = { h.links t with next := some h.nLinks } := by
      simp [PushTail, hh, ht, htne]
    refine ⟨rfl, ⟨?_, ?_, ?_, ?_, ?_⟩, ?_, ?_⟩
    · rw [firstOr_of_ne_nil _ none (firstOr [h.nLinks] none) (by simp), ← firstOr_append] at hhd
      rw [hhd]
      simp [PushTail, hh, ht]
    · rw [lastOr_append]
      simp [PushTail, hh, ht, lastOr]
    · rw [List.nodup_append]
      refine ⟨hnd, by simp, ?_⟩
      intro a ha hb
      simp only [List.mem_singleton] at hb
      exact hfresh (hb ▸ ha)
    · intro a ha
      have h1 : (PushTail h l v).1.nLinks = h.nLinks + 1 := by simp [PushTail, hh, ht]
      rw [h1]
      rcases List.mem_append.mp ha with h2 | h2
      · exact Nat.lt_succ_of_lt (hlt a h2)
      · simp only [List.mem_singleton] at h2
        rw [h2]; exact Nat.lt_succ_self _
    · rw [chain_append, chain_append]
      refine ⟨⟨?_, ?_⟩, ?_⟩
      · apply chain_frame h _ l xs _ _ _ hxs
        intro a ha
        have ha1 : a ≠ h.nLinks := Nat.ne_of_lt (hlt a (by simp [ha]))
        have ha2 : a ≠ t := by
          intro he
          have := List.nodup_append.mp hnd
          exact this.2.2 ha (by simp [he])
        simp [PushTail, hh, ht, ha1, ha2]
      · refine ⟨by rw [htk]; exact htl1, by rw [htk]; exact htp, by rw [htk]; rfl, trivial⟩
      · rw [htl]
        exact ⟨by rw [hn], by rw [hn], by rw [hn]; rfl, trivial⟩
    · rw [hn]
    · intro a ha
      have ha1 : a ≠ h.nLinks := Nat.ne_of_lt (hlt a ha)
      by_cases ha2 : a = t
      · subst ha2
        simp [PushTail, hh, ht, ha1]
      · simp [PushTail, hh, ht, ha1, ha2]

theorem PopSelf_spec (h : Heap) (l : Nat) (xs ys : List Nat) (a : Nat)
    (hwf : WF h l (xs ++ a :: ys)) :
    ∃ h1, PopSelf h (some a) = some h1 ∧ WF h1 l (xs ++ ys) ∧
      (∀ b, (h1.links b).value = (h.links b).value) := by
  obtain ⟨hh, ht, hnd, hlt, hc⟩ := hwf
  rw [chain_append] at hc
  obtain ⟨hxs, hal, hap, han, hys⟩ := hc
  rw [firstOr_append] at hh
  rw [lastOr_append] at ht
  have hnd1 := List.nodup_append.mp hnd
  have hnd2 := List.nodup_cons.mp hnd1.2.1
  have hlt1 : ∀ b ∈ xs ++ ys, b < h.nLinks := by
    intro b hb
    apply hlt
    rcases List.mem_append.mp hb with h1 | h1
    · exact List.mem_append_left _ h1
    · exact List.mem_append_right _ (List.mem_cons_of_mem _ h1)
  have hndnew : (xs ++ ys).Nodup := by
    rw [List.nodup_append]
    exact ⟨hnd1.1, hnd2.2, fun b hb1 hb2 => hnd1.2.2 hb1 (List.mem_cons_of_mem _ hb2)⟩
  rcases List.eq_nil_or_concat xs with hnil | ⟨xs1, x, hcat⟩
  · subst hnil
    cases ys with
    | nil =>
      have hap1 : (h.links a).prev = none := hap
      have han1 : (h.links a).next = none := han
      cases hpop : PopSelf h (some a) with
      | none => simp [PopSelf, hap1, han1, hal] at hpop
      | some h1 =>
        simp [PopSelf, hap1, han1, hal] at hpop
        subst hpop
        refine ⟨_, rfl, ⟨?_, ?_, hndnew, ?_, ?_⟩, ?_⟩
        · simp [firstOr]
        · simp [lastOr]
        · simp
        · trivial
        · intro b; simp
    | cons y ys1 =>
      have hap1 : (h.links a).prev = none := hap
      have han1 : (h.links a).next = some y := han
      have hay : a ≠ y := fun he => hnd2.1 (he ▸ List.mem_cons_self _ _)
      obtain ⟨hyl, hyp, hyn, hys1⟩ := hys
      have hnd3 := List.nodup_cons.mp hnd2.2
      cases hpop : PopSelf h (some a) with
      | none => simp [PopSelf, hap1, han1, hal, hay] at hpop
      | some h1 =>
        simp [PopSelf, hap1, han1, hal, hay] at hpop
        subst hpop
        refine ⟨_, rfl, ⟨?_, ?_, hndnew, ?_, ?_⟩, ?_⟩
        · simp [firstOr]
        · simpa [lastOr] using ht
        · simpa using hlt1
        · refine ⟨?_, ?_, ?_, ?_⟩
          · simpa using hyl
          · simp
          · simpa using hyn
          · apply chain_frame h _ l ys1 _ _ _ hys1
            intro b hb
            have hby : b ≠ y := fun he => hnd3.1 (he ▸ hb)
            simp [hby]
        · intro b
          by_cases hb : b = y
          · subst hb; simp
          · simp [hb]
  · rw [List.concat_eq_append] at hcat
    subst hcat
    have hap1 : (h.links a).prev = some x := by rw [hap, lastOr_append]; rfl
    rw [chain_append] at hxs
    obtain ⟨hxs1, hxl, hxp, hxn, -⟩ := hxs
    have hxn1 : (h.links x).next = some a := hxn
    have hxa : x ≠ a :=
      fun he => hnd1.2.2 (show x ∈ xs1 ++ [x] by simp) (by rw [he]; exact List.mem_cons_self _ _)
    have hnd4 := List.nodup_append.mp hnd1.1
    have hhead : (h.lists l).head = firstOr (xs1 ++ [x]) none := by
      rw [hh]
      exact firstOr_of_ne_nil _ _ _ (by simp)
    cases ys with
    | nil =>
      have han1 : (h.links a).next = none := han
      cases hpop : PopSelf h (some a) with
      | none => simp [PopSelf, hap1, han1, hal, hxa.symm] at hpop
      | some h1 =>
        simp [PopSelf, hap1, han1, hal, hxa.symm] at hpop
        subst hpop
        rw [List.append_nil]
        refine ⟨_, rfl, ⟨?_, ?_, hnd1.1, ?_, ?_⟩, ?_⟩
        · simpa using hhead
        · rw [lastOr_append]
          simp [lastOr]
        · intro b hb
          simpa using hlt b (List.mem_append_left _ hb)
        · rw [chain_append]
          refine ⟨?_, ?_, ?_, ?_, trivial⟩
          · apply chain_frame h _ l xs1 _ _ _ hxs1
            intro b hb
            have hbx : b ≠ x := fun he => hnd4.2.2 hb (by simp [he])
            simp [hbx]
          · simpa using hxl
          · simpa using hxp
          · simp [firstOr]
        · intro b
          by_cases hb : b = x
          · subst hb; simp
          · simp [hb]
    | cons y ys1 =>
      have han1 : (h.links a).next = some y := han
      have hay : a ≠ y := fun he => hnd2.1 (he ▸ List.mem_cons_self _ _)
      have hxy : x ≠ y :=
        fun he => hnd1.2.2 (show x ∈ xs1 ++ [x] by simp) (by rw [he]; simp)
      obtain ⟨hyl, hyp, hyn, hys1⟩ := hys
      have hnd3 := List.nodup_cons.mp hnd2.2
      cases hpop : PopSelf h (some a) with
      | none => simp [PopSelf, hap1, han1, hal, hxa, hxa.symm, hay, hay.symm, hxy, hxy.symm] at hpop
      | some h1 =>
        simp [PopSelf, hap1, han1, hal, hxa, hxa.symm, hay, hay.symm, hxy, hxy.symm] at hpop
        subst hpop
        refine ⟨_, rfl, ⟨?_, ?_, hndnew, ?_, ?_⟩, ?_⟩
        · rw [firstOr_append, firstOr_of_ne_nil _ _ (firstOr (a :: y :: ys1) none) (by simp)]
          simpa using hh
        · rw [lastOr_append]
          simpa [lastOr] using ht
        · simpa using hlt1
        · rw [chain_append, chain_append]
          refine ⟨⟨?_, ?_, ?_, ?_, trivial⟩, ?_, ?_, ?_, ?_⟩
          · apply chain_frame h _ l xs1 _ _ _ hxs1
            intro b hb
            have hbx : b ≠ x := fun he => hnd4.2.2 hb (by simp [he])
            have hba : b ≠ a :=
              fun he => hnd1.2.2 (List.mem_append_left _ hb) (by rw [he]; simp)
            have hby : b ≠ y :=
              fun he => hnd1.2.2 (List.mem_append_left _ hb) (by rw [he]; simp)
            simp [hbx, hba, hby]
          · simpa [hxa, hxy] using hxl
          · simpa [hxa, hxy] using hxp
          · simp [hxa, hxy, firstOr]
          · simpa [hay.symm, hxy.symm] using hyl
          · rw [lastOr_append]
            simp [hay.symm, hxy.symm, lastOr]
          · simpa [hay.symm, hxy.symm] using hyn
          · apply chain_frame h _ l ys1 _ _ _ hys1
            intro b hb
            have hby : b ≠ y := fun he => hnd3.1 (he ▸ hb)
            have hba : b ≠ a := fun he => hnd2.1 (List.mem_cons_of_mem _ (he ▸ hb))
            have hbx : b ≠ x := fun he => hnd1.2.2 (by simp [he])
              (List.mem_cons_of_mem _ (List.mem_cons_of_mem _ hb))
            simp [hbx, hba, hby]
        · intro b
          by_cases hba : b = a
          · subst hba; simp
          · by_cases hby : b = y
            · subst hby; simp [hba, hxy.symm]
            · by_cases hbx : b = x
              · subst hbx; simp [hba, hby]
              · simp [hba, hby, hbx]

theorem runOps_WF (l : Nat) (ops : List Op) : ∀ (h : Heap) (as : List Nat), WF h l as →
    ∀ h1, runOps h l ops = some h1 → ∃ as1, WF h1 l as1 := by
  induction ops with
  | nil =>
    intro h as hwf h1 hrun
    simp only [runOps, Option.some.injEq] at hrun
    subst hrun
    exact ⟨as, hwf⟩
  | cons op rest ih =>
    intro h as hwf h1 hrun
    simp only [runOps] at hrun
    cases hop : applyOp h l op with
    | none => rw [hop] at hrun; simp at hrun
    | some h2 =>
      rw [hop] at hrun
      simp only at hrun
      cases op with
      | pushHead v =>
        simp only [applyOp, Option.some.injEq] at hop
        subst hop
        exact ih _ _ (PushHead_spec h l v as hwf).2.1 h1 hrun
      | pushTail v =>
        simp only [applyOp, Option.some.injEq] at hop
        subst hop
        exact ih _ _ (PushTail_spec h l v as hwf).2.1 h1 hrun
      | popSelf a =>
        simp only [applyOp, WF_linksOf h l as hwf] at hop
        split at hop
        · rename_i hmem
          obtain ⟨xs, ys, hsplit⟩ := List.append_of_mem hmem
          subst hsplit
          obtain ⟨h3, hpop, hwf3, -⟩ := PopSelf_spec h l xs ys a hwf
          rw [hpop] at hop
          simp only [Option.some.injEq] at hop
          subst hop
          exact ih _ _ hwf3 h1 hrun
        · simp at hop

theorem built_WF (h0 hs : Heap) (l : Nat) (ops : List Op) (h : Heap)
    (hnew : NewList h0 = (hs, l)) (hrun : runOps hs l ops = some h) : ∃ as, WF h l as := by
  have h1 := WF_new h0
  rw [hnew] at h1
  exact runOps_WF l ops hs [] h1 h hrun

theorem WF_valuesOf (h : Heap) (l : Nat) (as : List Nat) (hwf : WF h l as) :
    valuesOf h l = some (as.map (fun a => (h.links a).value)) := by
  unfold valuesOf
  rw [WF_linksOf h l as hwf]
  rfl

theorem erase_mid (xs ys : List Nat) (a : Nat) (hnd : (xs ++ a :: ys).Nodup) :
    (xs ++ a :: ys).erase a = xs ++ ys := by
  have h1 := List.nodup_append.mp hnd
  have hnot : a ∉ xs := fun hm => h1.2.2 hm (List.mem_cons_self _ _)
  rw [List.erase_append_right _ hnot, List.erase_cons_head]

theorem WF_ends (h : Heap) (l : Nat) (as : List Nat) (hwf : WF h l as) :
    (PeekHead h l = none ↔ PeekTail h l = none) ∧
    (∀ a, PeekHead h l = some a → GetPrev h a = none) ∧
    (∀ a, PeekTail h l = some a → GetNext h a = none) := by
  obtain ⟨hh, ht, hnd, hlt, hc⟩ := hwf
  unfold PeekHead PeekTail GetPrev GetNext
  refine ⟨?_, ?_, ?_⟩
  · rw [hh, ht, firstOr_eq_none, lastOr_eq_none]
  · intro a ha
    rw [hh] at ha
    cases as with
    | nil => simp [firstOr] at ha
    | cons b rest =>
      simp only [firstOr, Option.some.injEq] at ha
      subst ha
      exact hc.2.1
  · intro a ha
    rw [ht] at ha
    rcases List.eq_nil_or_concat as with hnil | ⟨xs, t, hcat⟩
    · subst hnil
      simp [lastOr] at ha
    · rw [List.concat_eq_append] at hcat
      subst hcat
      have htl : lastOr (xs ++ [t]) none = some t := by rw [lastOr_append]; rfl
      rw [htl] at ha
      simp only [Option.some.injEq] at ha
      subst ha
      rw [chain_append] at hc
      exact hc.2.2.2.1

theorem WF_inner (h : Heap) (l : Nat) (as : List Nat) (hwf : WF h l as) (a : Nat)
    (ha : a ∈ as) :
    (GetNext h a = none ↔ PeekTail h l = some a) ∧
    (∀ b, GetNext h a = some b → GetPrev h b = some a) ∧ GetList h a = some l := by
  obtain ⟨hh, ht, hnd, hlt, hc⟩ := hwf
  obtain ⟨xs, ys, hsplit⟩ := List.append_of_mem ha
  subst hsplit
  rw [chain_append] at hc
  obtain ⟨-, hal, -, han, hys⟩ := hc
  rw [lastOr_append] at ht
  have hnd1 := List.nodup_append.mp hnd
  have hnd2 := List.nodup_cons.mp hnd1.2.1
  unfold PeekTail GetPrev GetNext GetList
  refine ⟨?_, ?_, hal⟩
  · rw [han, ht, firstOr_eq_none]
    constructor
    · intro hys0
      subst hys0
      rfl
    · intro htl
      cases ys with
      | nil => rfl
      | cons y ys1 =>
        exfalso
        obtain ⟨t, ht1, hmem⟩ := lastOr_some ys1 y
        have ht2 : lastOr (a :: y :: ys1) (lastOr xs none) = some t := ht1
        rw [ht2] at htl
        simp only [Option.some.injEq] at htl
        subst htl
        rcases hmem with hm | hm
        · exact hnd2.1 (by rw [hm]; exact List.mem_cons_self _ _)
        · exact hnd2.1 (List.mem_cons_of_mem _ hm)
  · intro b hb
    rw [han] at hb
    cases ys with
    | nil => simp [firstOr] at hb
    | cons y ys1 =>
      simp only [firstOr, Option.some.injEq] at hb
      subst hb
      exact hys.2.1

theorem lastOr_of_ne_nil (as : List Nat) (d d1 : Option Nat) (hne : as ≠ []) :
    lastOr as d = lastOr as d1 := by
  cases as with
  | nil => exact absurd rfl hne
  | cons a rest => rfl

theorem NewList_ends (h0 hs : Heap) (l : Nat) (hnew : NewList h0 = (hs, l)) :
    PeekHead hs l = none ∧ PeekTail hs l = none := by
  have h1 : hs = (NewList h0).1 := by rw [hnew]
  have h2 : l = (NewList h0).2 := by rw [hnew]
  subst h1; subst h2
  constructor <;> simp [NewList, PeekHead, PeekTail]

/-- C16. PushHead prepends and PushTail appends.  Let `h` be the heap after
any run of list calls on the list `l` that NewList made, `xs` the
head-to-tail sequence of values of the list, and `v` a value.  After
PushHead(v) the sequence is `v` followed by `xs`, PeekHead is the returned
link and holds `v`, and PeekTail is as before when `xs` is non-empty and
equal to PeekHead when `xs` is empty.  After PushTail(v) the sequence is `xs`
followed by `v`, PeekTail is the returned link and holds `v`, and PeekHead is
as before when `xs` is non-empty and equal to PeekTail when `xs` is empty.
The list that NewList made has nil head and nil tail. -/
theorem push_head_prepends_push_tail_appends (h0 hs : Heap) (l : Nat) (ops : List Op)
    (h : Heap) (v : Value) (hnew : NewList h0 = (hs, l)) (hrun : runOps hs l ops = some h) :
    (PeekHead hs l = none ∧ PeekTail hs l = none) ∧
    ∃ xs, valuesOf h l = some xs ∧
      (valuesOf (PushHead h l v).1 l = some (v :: xs) ∧
       PeekHead (PushHead h l v).1 l = some (PushHead h l v).2 ∧
       GetKey (PushHead h l v).1 (PushHead h l v).2 = v ∧
       (xs ≠ [] → PeekTail (PushHead h l v).1 l = PeekTail h l) ∧
       (xs = [] → PeekTail (PushHead h l v).1 l = PeekHead (PushHead h l v).1 l)) ∧
      (valuesOf (PushTail h l v).1 l = some (xs ++ [v]) ∧
       PeekTail (PushTail h l v).1 l = some (PushTail h l v).2 ∧
       GetKey (PushTail h l v).1 (PushTail h l v).2 = v ∧
       (xs ≠ [] → PeekHead (PushTail h l v).1 l = PeekHead h l) ∧
       (xs = [] → PeekHead (PushTail h l v).1 l = PeekTail (PushTail h l v).1 l)) := by
  refine ⟨NewList_ends h0 hs l hnew, ?_⟩
  obtain ⟨as, hwf⟩ := built_WF h0 hs l ops h hnew hrun
  refine ⟨as.map (fun a => (h.links a).value), WF_valuesOf h l as hwf, ?_, ?_⟩
  · obtain ⟨hres, hwf1, hval, hkeep⟩ := PushHead_spec h l v as hwf
    have hends := hwf1
    obtain ⟨hh1, ht1, -⟩ := hends
    refine ⟨?_, ?_, ?_, ?_, ?_⟩
    · rw [WF_valuesOf _ l _ hwf1, List.map_cons, hval]
      congr 2
      exact List.map_congr_left hkeep
    · rw [hres]; exact hh1
    · rw [hres]; exact hval
    · intro hne
      have hne1 : as ≠ [] := fun he => hne (by rw [he]; rfl)
      unfold PeekTail
      rw [ht1, hwf.2.1]
      exact lastOr_of_ne_nil as _ _ hne1
    · intro he
      have he1 : as = [] := List.map_eq_nil_iff.mp he
      unfold PeekTail PeekHead
      rw [ht1, hh1, he1]
      rfl
  · obtain ⟨hres, hwf1, hval, hkeep⟩ := PushTail_spec h l v as hwf
    have hends := hwf1
    obtain ⟨hh1, ht1, -⟩ := hends
    have hlast : lastOr (as ++ [h.nLinks]) none = some h.nLinks := by
      rw [lastOr_append]; rfl
    refine ⟨?_, ?_, ?_, ?_, ?_⟩
    · rw [WF_valuesOf _ l _ hwf1, List.map_append, List.map_cons, hval, List.map_nil]
      congr 2
      exact List.map_congr_left hkeep
    · rw [hres]; unfold PeekTail; rw [ht1, hlast]
    · rw [hres]; exact hval
    · intro hne
      have hne1 : as ≠ [] := fun he => hne (by rw [he]; rfl)
      unfold PeekHead
      rw [hh1, hwf.1, firstOr_append]
      exact firstOr_of_ne_nil as _ _ hne1
    · intro he
      have he1 : as = [] := List.map_eq_nil_iff.mp he
      unfold PeekTail PeekHead
      rw [ht1, hh1, he1]
      rfl

theorem push_head_prepends_push_tail_appends_witness :
    ((PeekHead (NewList emptyHeap).1 0 = none ∧ PeekTail (NewList emptyHeap).1 0 = none) ∧
    ∃ xs, valuesOf (PushHead (NewList emptyHeap).1 0 (.str "ABC")).1 0 = some xs ∧
      (valuesOf (PushHead (PushHead (NewList emptyHeap).1 0 (.str "ABC")).1 0 (.int 123)).1 0
          = some (.int 123 :: xs) ∧
       PeekHead (PushHead (PushHead (NewList emptyHeap).1 0 (.str "ABC")).1 0 (.int 123)).1 0
          = some (PushHead (PushHead (NewList emptyHeap).1 0 (.str "ABC")).1 0 (.int 123)).2 ∧
       GetKey (PushHead (PushHead (NewList emptyHeap).1 0 (.str "ABC")).1 0 (.int 123)).1
          (PushHead (PushHead (NewList emptyHeap).1 0 (.str "ABC")).1 0 (.int 123)).2
          = .int 123 ∧
       (xs ≠ [] →
         PeekTail (PushHead (PushHead (NewList emptyHeap).1 0 (.str "ABC")).1 0 (.int 123)).1 0
          = PeekTail (PushHead (NewList emptyHeap).1 0 (.str "ABC")).1 0) ∧
       (xs = [] →
         PeekTail (PushHead (PushHead (NewList emptyHeap).1 0 (.str "ABC")).1 0 (.int 123)).1 0
          = PeekHead (PushHead (PushHead (NewList emptyHeap).1 0 (.str "ABC")).1 0
              (.int 123)).1 0)) ∧
      (valuesOf (PushTail (PushHead (NewList emptyHeap).1 0 (.str "ABC")).1 0 (.int 123)).1 0
          = some (xs ++ [.int 123]) ∧
       PeekTail (PushTail (PushHead (NewList emptyHeap).1 0 (.str "ABC")).1 0 (.int 123)).1 0
          = some (PushTail (PushHead (NewList emptyHeap).1 0 (.str "ABC")).1 0 (.int 123)).2 ∧
       GetKey (PushTail (PushHead (NewList emptyHeap).1 0 (.str "ABC")).1 0 (.int 123)).1
          (PushTail (PushHead (NewList emptyHeap).1 0 (.str "ABC")).1 0 (.int 123)).2
          = .int 123 ∧
       (xs ≠ [] →
         PeekHead (PushTail (PushHead (NewList emptyHeap).1 0 (.str "ABC")).1 0 (.int 123)).1 0
          = PeekHead (PushHead (NewList emptyHeap).1 0 (.str "ABC")).1 0) ∧
       (xs = [] →
         PeekHead (PushTail (PushHead (NewList emptyHeap).1 0 (.str "ABC")).1 0 (.int 123)).1 0
          = PeekTail (PushTail (PushHead (NewList emptyHeap).1 0 (.str "ABC")).1 0
              (.int 123)).1 0))) ∧
    valuesOf (PushHead (PushHead (NewList emptyHeap).1 0 (.str "ABC")).1 0 (.int 123)).1 0
      = some [.int 123, .str "ABC"] ∧
    valuesOf (PushTail (PushTail (NewList emptyHeap).1 0 (.str "ABC")).1 0 (.int 123)).1 0
      = some [.str "ABC", .int 123] :=
  ⟨push_head_prepends_push_tail_appends emptyHeap (NewList emptyHeap).1 0
      [.pushHead (.str "ABC")] (PushHead (NewList emptyHeap).1 0 (.str "ABC")).1 (.int 123)
      rfl rfl,
    by decide, by decide⟩

/-- C17. PopSelf removes exactly its link.  Let `h` be the heap after any run
of list calls on the list `l` that NewList made (a list built by PushHead and
PushTail is the case of a run without pops), and `as` the head-to-tail
sequence of its links.  For every link `a` of `as`, wherever it stands,
`PopSelf` returns, and afterwards the sequence of links is `as` with `a`
taken out and the other links in their order, every link holds the value it
held, and when `a` was the only link PeekHead and PeekTail are nil. -/
theorem pop_self_removes_exactly_its_link (h0 hs : Heap) (l : Nat) (ops : List Op) (h : Heap)
    (hnew : NewList h0 = (hs, l)) (hrun : runOps hs l ops = some h) :
    ∃ as, linksOf h l = some as ∧
      ∀ a ∈ as, ∃ h1, PopSelf h (some a) = some h1 ∧
        linksOf h1 l = some (as.erase a) ∧
        (∀ b, GetKey h1 b = GetKey h b) ∧
        (as = [a] → PeekHead h1 l = none ∧ PeekTail h1 l = none) := by
  obtain ⟨as, hwf⟩ := built_WF h0 hs l ops h hnew hrun
  refine ⟨as, WF_linksOf h l as hwf, ?_⟩
  intro a ha
  obtain ⟨xs, ys, hsplit⟩ := List.append_of_mem ha
  subst hsplit
  obtain ⟨h1, hpop, hwf1, hval⟩ := PopSelf_spec h l xs ys a hwf
  refine ⟨h1, hpop, ?_, hval, ?_⟩
  · rw [erase_mid xs ys a hwf.2.2.1]
    exact WF_linksOf h1 l _ hwf1
  · intro hone
    have hlen : (xs ++ a :: ys).length = 1 := by rw [hone]; rfl
    have hxs : xs = [] := by
      cases xs with
      | nil => rfl
      | cons x xs1 => simp at hlen
    subst hxs
    have hys : ys = [] := by
      cases ys with
      | nil => rfl
      | cons y ys1 => simp at hlen
    subst hys
    obtain ⟨hh1, ht1, -⟩ := hwf1
    exact ⟨hh1, ht1⟩

theorem pop_self_removes_exactly_its_link_witness :
    (∃ as, linksOf (PushTail (PushTail (PushTail (NewList emptyHeap).1 0 (.str "A")).1 0
        (.str "B")).1 0 (.str "C")).1 0 = some as ∧
      ∀ a ∈ as, ∃ h1, PopSelf (PushTail (PushTail (PushTail (NewList emptyHeap).1 0
          (.str "A")).1 0 (.str "B")).1 0 (.str "C")).1 (some a) = some h1 ∧
        linksOf h1 0 = some (as.erase a) ∧
        (∀ b, GetKey h1 b = GetKey (PushTail (PushTail (PushTail (NewList emptyHeap).1 0
          (.str "A")).1 0 (.str "B")).1 0 (.str "C")).1 b) ∧
        (as = [a] → PeekHead h1 0 = none ∧ PeekTail h1 0 = none)) ∧
    linksOf (PushTail (PushTail (PushTail (NewList emptyHeap).1 0 (.str "A")).1 0
        (.str "B")).1 0 (.str "C")).1 0 = some [0, 1, 2] ∧
    (PopSelf (PushTail (PushTail (PushTail (NewList emptyHeap).1 0 (.str "A")).1 0
        (.str "B")).1 0 (.str "C")).1 (some 1)).bind (fun h1 => valuesOf h1 0)
      = some [.str "A", .str "C"] ∧
    (PopSelf (PushTail (NewList emptyHeap).1 0 (.str "ABC")).1
        (PeekHead (PushTail (NewList emptyHeap).1 0 (.str "ABC")).1 0)).map
      (fun h1 => (PeekHead h1 0, PeekTail h1 0)) = some (none, none) :=
  ⟨pop_self_removes_exactly_its_link emptyHeap (NewList emptyHeap).1 0
      [.pushTail (.str "A"), .pushTail (.str "B"), .pushTail (.str "C")]
      (PushTail (PushTail (PushTail (NewList emptyHeap).1 0 (.str "A")).1 0
        (.str "B")).1 0 (.str "C")).1 rfl rfl,
    by decide, by decide, by decide⟩

/-- C20. Doubly-linked well-formedness is an invariant of the list
operations.  Let `h` be the heap after any run of PushHead, PushTail and
PopSelf calls on the list `l` that NewList made, each PopSelf on a link that
is in the list at that moment.  Then the head is nil exactly when the tail is
nil; the head has nil `prev` and the tail nil `next`; the walk along `next`
from the head ends and visits the links `as`, and the walk along `prev` from
the tail ends and visits the same links in the opposite order; and for every
link `a` of `as`, its `next` is nil exactly when `a` is the tail, the `prev`
of its `next` is `a`, and GetList gives `l`. -/
theorem doubly_linked_invariant (h0 hs : Heap) (l : Nat) (ops : List Op) (h : Heap)
    (hnew : NewList h0 = (hs, l)) (hrun : runOps hs l ops = some h) :
    (PeekHead h l = none ↔ PeekTail h l = none) ∧
    (∀ a, PeekHead h l = some a → GetPrev h a = none) ∧
    (∀ a, PeekTail h l = some a → GetNext h a = none) ∧
    ∃ as, linksOf h l = some as ∧ linksBack h l = some as.reverse ∧
      ∀ a ∈ as, (GetNext h a = none ↔ PeekTail h l = some a) ∧
        (∀ b, GetNext h a = some b → GetPrev h b = some a) ∧
        GetList h a = some l := by
  obtain ⟨as, hwf⟩ := built_WF h0 hs l ops h hnew hrun
  obtain ⟨h1, h2, h3⟩ := WF_ends h l as hwf
  exact ⟨h1, h2, h3, as, WF_linksOf h l as hwf, WF_linksBack h l as hwf,
    fun a ha => WF_inner h l as hwf a ha⟩

theorem doubly_linked_invariant_witness :
    ((PeekHead ((runOps (NewList emptyHeap).1 0
        [.pushHead (.str "A"), .pushTail (.str "B"), .pushHead (.int 3), .popSelf 0]).getD
          emptyHeap) 0 = none ↔
      PeekTail ((runOps (NewList emptyHeap).1 0
        [.pushHead (.str "A"), .pushTail (.str "B"), .pushHead (.int 3), .popSelf 0]).getD
          emptyHeap) 0 = none) ∧
    (∀ a, PeekHead ((runOps (NewList emptyHeap).1 0
        [.pushHead (.str "A"), .pushTail (.str "B"), .pushHead (.int 3), .popSelf 0]).getD
          emptyHeap) 0 = some a →
      GetPrev ((runOps (NewList emptyHeap).1 0
        [.pushHead (.str "A"), .pushTail (.str "B"), .pushHead (.int 3), .popSelf 0]).getD
          emptyHeap) a = none) ∧
    (∀ a, PeekTail ((runOps (NewList emptyHeap).1 0
        [.pushHead (.str "A"), .pushTail (.str "B"), .pushHead (.int 3), .popSelf 0]).getD
          emptyHeap) 0 = some a →
      GetNext ((runOps (NewList emptyHeap).1 0
        [.pushHead (.str "A"), .pushTail (.str "B"), .pushHead (.int 3), .popSelf 0]).getD
          emptyHeap) a = none) ∧
    ∃ as, linksOf ((runOps (NewList emptyHeap).1 0
        [.pushHead (.str "A"), .pushTail (.str "B"), .pushHead (.int 3), .popSelf 0]).getD
          emptyHeap) 0 = some as ∧
      linksBack ((runOps (NewList emptyHeap).1 0
        [.pushHead (.str "A"), .pushTail (.str "B"), .pushHead (.int 3), .popSelf 0]).getD
          emptyHeap) 0 = some as.reverse ∧
      ∀ a ∈ as, (GetNext ((runOps (NewList emptyHeap).1 0
          [.pushHead (.str "A"), .pushTail (.str "B"), .pushHead (.int 3), .popSelf 0]).getD
            emptyHeap) a = none ↔
        PeekTail ((runOps (NewList emptyHeap).1 0
          [.pushHead (.str "A"), .pushTail (.str "B"), .pushHead (.int 3), .popSelf 0]).getD
            emptyHeap) 0 = some a) ∧
        (∀ b, GetNext ((runOps (NewList emptyHeap).1 0
          [.pushHead (.str "A"), .pushTail (.str "B"), .pushHead (.int 3), .popSelf 0]).getD
            emptyHeap) a = some b →
          GetPrev ((runOps (NewList emptyHeap).1 0
            [.pushHead (.str "A"), .pushTail (.str "B"), .pushHead (.int 3), .popSelf 0]).getD
              emptyHeap) b = some a) ∧
        GetList ((runOps (NewList emptyHeap).1 0
          [.pushHead (.str "A"), .pushTail (.str "B"), .pushHead (.int 3), .popSelf 0]).getD
            emptyHeap) a = some 0) ∧
    linksOf ((runOps (NewList emptyHeap).1 0
        [.pushHead (.str "A"), .pushTail (.str "B"), .pushHead (.int 3), .popSelf 0]).getD
          emptyHeap) 0 = some [2, 1] ∧
    linksBack ((runOps (NewList emptyHeap).1 0
        [.pushHead (.str "A"), .pushTail (.str "B"), .pushHead (.int 3), .popSelf 0]).getD
          emptyHeap) 0 = some [1, 2] :=
  ⟨doubly_linked_invariant emptyHeap (NewList emptyHeap).1 0
      [.pushHead (.str "A"), .pushTail (.str "B"), .pushHead (.int 3), .popSelf 0]
      ((runOps (NewList emptyHeap).1 0
        [.pushHead (.str "A"), .pushTail (.str "B"), .pushHead (.int 3), .popSelf 0]).getD
          emptyHeap) rfl rfl,
    by decide, by decide⟩

theorem get?_two_of_length (ws : List String) (h : ws.length = 2) : ws.get? 2 = none := by
  rw [List.get?_eq_none]
  rw [h]

/-- C18. The `list_remove` handler on a command of exactly two
space-separated tokens does not return.  On every heap and list, with any
fuel: when the list is empty, `Find` returns nil and the handler stops with a
nil dereference in `PopSelf`; when the list is not empty, the first test of
the head reads token number 2 of the two tokens and the handler stops with an
index out of range.  No call returns, with or without an error value. -/
theorem list_remove_does_not_return (h : Heap) (list : Nat) (str : String) (fuel : Nat)
    (htok : (strings.Split str ' ').length = 2) :
    list_remove h list str (fuel + 1) =
      .error (if PeekHead h list = none then .nilDereference else .indexOutOfRange) ∧
    ∀ n, ∃ e, list_remove h list str n = .error e := by
  have hget := get?_two_of_length _ htok
  constructor
  · unfold list_remove Find PeekHead
    rw [if_pos htok, hget]
    cases hh : (h.lists list).head with
    | none => simp [findLoop, PopSelf]
    | some a => simp [findLoop]
  · intro n
    unfold list_remove Find
    rw [if_pos htok, hget]
    cases hh : (h.lists list).head with
    | none =>
      cases n <;> exact ⟨.nilDereference, by simp [findLoop, PopSelf]⟩
    | some a =>
      cases n with
      | zero => exact ⟨.outOfFuel, by simp [findLoop]⟩
      | succ m => exact ⟨.indexOutOfRange, by simp [findLoop]⟩

theorem list_remove_does_not_return_witness :
    (list_remove (PushTail (NewList emptyHeap).1 0 (.str "ABC")).1 0 "list_remove ABC" (9 + 1) =
      .error (if PeekHead (PushTail (NewList emptyHeap).1 0 (.str "ABC")).1 0 = none
        then .nilDereference else .indexOutOfRange) ∧
    ∀ n, ∃ e, list_remove (PushTail (NewList emptyHeap).1 0 (.str "ABC")).1 0
      "list_remove ABC" n = .error e) ∧
    list_remove (PushTail (NewList emptyHeap).1 0 (.str "ABC")).1 0 "list_remove ABC" 10 =
      .error .indexOutOfRange ∧
    list_remove (NewList emptyHeap).1 0 "list_remove ABC" 10 = .error .nilDereference :=
  ⟨list_remove_does_not_return (PushTail (NewList emptyHeap).1 0 (.str "ABC")).1 0
      "list_remove ABC" 9 (by decide),
    rfl, rfl⟩

end list
